import Mathlib

/-!
# Tic-Tac-Toe: board engine (`board.js`) and opponent engine (`ai.js`)

A shallow embedding of the two modules `GameBoard` and `GameAI`.

* Cell values are the three strings `''`, `'X'`, `'O'`.
* A board is a JavaScript array of cells, modelled as a list; a read `board[i]`
  yields `none` for `undefined` (index outside the array).
* The module-level variables of `GameBoard` are the fields of `GameBoard.State`;
  every operation takes the state and returns its result with the new state.
* The recursion of `minimax` is modelled with a fuel argument and returns `none`
  when the fuel runs out; `minimaxMove` supplies `board.length` units of fuel.
* Numbers are IEEE 754 doubles. The doubles that occur are rationals; a product is the
  exact product rounded to the nearest double (`Float64.round`), the literal `0.6` is the
  double nearest to 6/10, and a value of `Math.random()` is a double in [0,1)
  (`Float64.IsDraw`).
-/

namespace TicTacToe

/-! ## Data model -/

/-- A player mark, the strings 'X' and 'O'. -/
inductive Mark where
  | X
  | O
  deriving DecidableEq, Repr

/-- A cell value: the empty string or one of the two marks. -/
inductive Cell where
  | empty
  | X
  | O
  deriving DecidableEq, Repr

/-- The string of a mark, as a cell value. -/
def Mark.toCell : Mark → Cell
  | Mark.X => Cell.X
  | Mark.O => Cell.O

/-- The expression `mark === 'X' ? 'O' : 'X'`. -/
def Mark.other (m : Mark) : Mark :=
  if m = Mark.X then Mark.O else Mark.X

/-- A board is an array of cells. -/
abbrev Board := List Cell

/-- A win pattern is an array of three indices `[a, b, c]`. -/
abbrev Pattern := Nat × Nat × Nat

/-- The fixed list of win patterns of the specification's data model (WinPattern): three
rows, three columns, two diagonals, in this order. -/
def winPatterns : List Pattern :=
  [(0, 1, 2), (3, 4, 5), (6, 7, 8),
   (0, 3, 6), (1, 4, 7), (2, 5, 8),
   (0, 4, 8), (2, 4, 6)]

/-- The read `board[index]` for a numeric index; `none` is `undefined`. -/
def Board.at (b : Board) (index : Int) : Option Cell :=
  if index < 0 then none else b[index.toNat]?

/-- JavaScript truthiness of a value read from the board: `undefined` and `''` are falsy. -/
def truthy : Option Cell → Bool
  | some Cell.X => true
  | some Cell.O => true
  | _ => false

/-- The mark denoted by a value read from the board (`none` for a falsy value). -/
def markOf : Option Cell → Option Mark
  | some Cell.X => some Mark.X
  | some Cell.O => some Mark.O
  | _ => none

/-- The test `!board.includes('')`. -/
def isBoardFull (board : Board) : Bool :=
  !(board.contains Cell.empty)

/-! ## Board engine (`board.js`) -/

/-- An entry of `moveHistory`: `{ index, player, board: [...board] }`. -/
structure HistoryEntry where
  index : Int
  player : Mark
  board : Board
  deriving DecidableEq, Repr

namespace GameBoard

/-- The private variables of the `GameBoard` module. -/
structure State where
  board : Board
  currentPlayer : Mark
  gameOver : Bool
  winPattern : Option Pattern
  moveHistory : List HistoryEntry
  deriving DecidableEq, Repr

/-- The object returned by `makeMove` and `undoMove`. The fields `winner` and `isDraw`
are absent (`none`) from the result of a rejected move; `winner = some none` is
`winner: null`. -/
structure MoveResult where
  valid : Bool
  board : Board
  currentPlayer : Mark
  gameOver : Bool
  winner : Option (Option Mark)
  winPattern : Option Pattern
  isDraw : Option Bool
  deriving DecidableEq, Repr

/-- The values the module-level variables are declared with (`let board = Array(9).fill('')`,
`let currentPlayer = 'X'`, ...). -/
def loaded : State :=
  { board := List.replicate 9 Cell.empty, currentPlayer := Mark.X, gameOver := false,
    winPattern := none, moveHistory := [] }

/-- The function `initialize` (a reserved word here, hence the name): resets every variable; returns `{ board, currentPlayer, gameOver }`. -/
def initBoard (_s : State) : (Board × Mark × Bool) × State :=
  let board := List.replicate 9 Cell.empty
  ((board, Mark.X, false),
   { board := board, currentPlayer := Mark.X, gameOver := false,
     winPattern := none, moveHistory := [] })

/-- The loop of `checkWinner` over the remaining patterns: on the first pattern whose
three cells hold the same truthy value it stores the pattern in `winPattern` and returns
the mark; otherwise it returns `null` and leaves `winPattern` alone. -/
def checkWinnerLoop (s : State) : List Pattern → Option Mark × State
  | [] => (none, s)
  | (a, b, c) :: rest =>
    if truthy s.board[a]? = true ∧ s.board[a]? = s.board[b]? ∧ s.board[a]? = s.board[c]? then
      (markOf s.board[a]?, { s with winPattern := some (a, b, c) })
    else checkWinnerLoop s rest

/-- The constant `winPatterns` written out in `checkWinner` of `board.js` (lines 96-100). -/
def CheckWinner.winPatterns : List Pattern :=
  [(0, 1, 2), (3, 4, 5), (6, 7, 8),  -- rows
   (0, 3, 6), (1, 4, 7), (2, 5, 8),  -- columns
   (0, 4, 8), (2, 4, 6)]             -- diagonals

/-- The function `checkWinner` of `board.js`. -/
def checkWinner (s : State) : Option Mark × State :=
  checkWinnerLoop s CheckWinner.winPatterns

/-- The function `makeMove` of `board.js`. -/
def makeMove (s : State) (index : Int) : MoveResult × State :=
  if s.gameOver = true ∨ s.board.at index ≠ some Cell.empty then
    ({ valid := false, board := s.board, currentPlayer := s.currentPlayer,
       gameOver := s.gameOver, winner := none, winPattern := s.winPattern, isDraw := none }, s)
  else
    -- record move in history
    let s1 : State := { s with moveHistory := s.moveHistory ++
      [{ index := index, player := s.currentPlayer, board := s.board }] }
    -- make the move
    let s2 : State := { s1 with board := s1.board.set index.toNat s1.currentPlayer.toCell }
    -- check for win or draw
    let (winner, s3) := checkWinner s2
    if winner.isSome then
      let s4 : State := { s3 with gameOver := true }
      ({ valid := true, board := s4.board, currentPlayer := s4.currentPlayer,
         gameOver := s4.gameOver, winner := some winner, winPattern := s4.winPattern,
         isDraw := some false }, s4)
    else if isBoardFull s3.board then
      let s4 : State := { s3 with gameOver := true }
      ({ valid := true, board := s4.board, currentPlayer := s4.currentPlayer,
         gameOver := s4.gameOver, winner := some none, winPattern := none,
         isDraw := some true }, s4)
    else
      let s4 : State := { s3 with currentPlayer := s3.currentPlayer.other }
      ({ valid := true, board := s4.board, currentPlayer := s4.currentPlayer,
         gameOver := s4.gameOver, winner := some none, winPattern := none,
         isDraw := some false }, s4)

/-- The function `getState`. -/
def getState (s : State) : Board × Mark × Bool × Option Pattern :=
  (s.board, s.currentPlayer, s.gameOver, s.winPattern)

/-- The function `undoMove`: `null` (`none`) when the history is empty. -/
def undoMove (s : State) : Option MoveResult × State :=
  match s.moveHistory.getLast? with
  | none => (none, s)
  | some lastMove =>
    let s1 : State :=
      { board := lastMove.board, currentPlayer := lastMove.player, gameOver := false,
        winPattern := none, moveHistory := s.moveHistory.dropLast }
    (some { valid := true, board := s1.board, currentPlayer := s1.currentPlayer,
            gameOver := s1.gameOver, winner := some none, winPattern := none,
            isDraw := some false }, s1)

/-- The function `getWinPattern`. -/
def getWinPattern (s : State) : Option Pattern := s.winPattern

/-- The argument of `setState`: an object whose properties may be absent. `none` stands
for a property that is absent or `null` (falsy); a board that is present is an array of
cells of any length. -/
structure Snapshot where
  board : Option Board
  currentPlayer : Option Mark
  gameOver : Option Bool
  winPattern : Option Pattern
  moveHistory : Option (List HistoryEntry)
  deriving DecidableEq, Repr

/-- The function `setState`; `none` is a missing (`null`/`undefined`) argument. It
returns the result of `initialize()` (left) or of `getState()` (right). -/
def setState (s : State) (state : Option Snapshot) :
    Sum (Board × Mark × Bool) (Board × Mark × Bool × Option Pattern) × State :=
  match state with
  | none => (Sum.inl (initBoard s).1, (initBoard s).2)
  | some st =>
    match st.board with
    | none => (Sum.inl (initBoard s).1, (initBoard s).2)
    | some b =>
      let s1 : State :=
        { board := b,
          currentPlayer := st.currentPlayer.getD Mark.X,
          gameOver := st.gameOver.getD false,
          winPattern := st.winPattern,
          moveHistory := st.moveHistory.getD [] }
      (Sum.inr (getState s1), s1)

/-- The states the engine can be in after `initialize()` followed by any sequence of
`makeMove` and `undoMove` calls (with arbitrary arguments). -/
inductive Reachable : State → Prop
  | init (s0 : State) : Reachable (initBoard s0).2
  | move (s : State) (index : Int) : Reachable s → Reachable (makeMove s index).2
  | undo (s : State) : Reachable s → Reachable (undoMove s).2

/-- The position before the last move of a drawn game: the moves 0,1,2,4,3,5,7,6 were
played and cell 8 is the only empty cell, X to move. -/
def drawScenario : State :=
  (makeMove (makeMove (makeMove (makeMove (makeMove (makeMove (makeMove (makeMove
    loaded 0).2 1).2 2).2 4).2 3).2 5).2 7).2 6).2

/-- The position of the win scenario, `[X,X,'',O,O,'','','','']` with X to move, as
reached by the moves 0, 3, 1, 4. -/
def winScenario : State :=
  (makeMove (makeMove (makeMove (makeMove loaded 0).2 3).2 1).2 4).2

end GameBoard

/-! ## Double-precision numbers -/

namespace Float64

/-- The spacing of the doubles around `x`: `2^(e - 52)` for `2^e ≤ |x| < 2^(e + 1)`, and
`2^(-1074)` in the subnormal range, where that is larger. -/
def ulp (x : ℚ) : ℚ :=
  (2 : ℚ) ^ (max (Int.log 2 |x| - 52) (-1074))

/-- The integer nearest to `q`, the even one of the two when `q` lies halfway. -/
def nearestEven (q : ℚ) : Int :=
  if q - (Rat.floor q : ℚ) < 1 / 2 then Rat.floor q
  else if 1 / 2 < q - (Rat.floor q : ℚ) then Rat.floor q + 1
  else if Rat.floor q % 2 = 0 then Rat.floor q
  else Rat.floor q + 1

/-- The double nearest to `x` (round to nearest, ties to even), the rounding applied to
the exact result of every arithmetic operation and to a decimal literal. Overflow to
`Infinity` is left out: the numbers rounded here are below 2^32. -/
def round (x : ℚ) : ℚ :=
  (nearestEven (x / ulp x) : ℚ) * ulp x

/-- What `Math.random()` may return: a double that is at least 0 and less than 1. -/
def IsDraw (r : ℚ) : Prop :=
  0 ≤ r ∧ r < 1 ∧ round r = r

instance (r : ℚ) : Decidable (IsDraw r) :=
  inferInstanceAs (Decidable (0 ≤ r ∧ r < 1 ∧ round r = r))

end Float64

/-! ## Opponent engine (`ai.js`) -/

/-- A score held by `bestScore`: an integer, `-Infinity` or `Infinity`. -/
inductive Score where
  | negInf
  | fin (n : Int)
  | posInf
  deriving DecidableEq, Repr

/-- The comparison `a > b` on scores. -/
def Score.gt : Score → Score → Bool
  | Score.negInf, _ => false
  | Score.fin _, Score.negInf => true
  | Score.fin a, Score.fin b => decide (b < a)
  | Score.fin _, Score.posInf => false
  | Score.posInf, Score.posInf => false
  | Score.posInf, _ => true

/-- The call `Math.max(a, b)`. -/
def Score.max (a b : Score) : Score :=
  if Score.gt b a then b else a

/-- The call `Math.min(a, b)`. -/
def Score.min (a b : Score) : Score :=
  if Score.gt a b then b else a

/-- The difficulty constants `easy`, `medium`, `hard`. -/
inductive Difficulty where
  | easy
  | medium
  | hard
  deriving DecidableEq, Repr

namespace GameAI

/-- The function `checkWinner` of `ai.js`, as the loop over the remaining patterns. -/
def checkWinnerLoop (board : Board) : List Pattern → Option Mark
  | [] => none
  | (a, b, c) :: rest =>
    if truthy board[a]? = true ∧ board[a]? = board[b]? ∧ board[a]? = board[c]? then
      markOf board[a]?
    else checkWinnerLoop board rest

/-- The constant `winPatterns` written out in `checkWinner` of `ai.js` (lines 190-194). -/
def CheckWinner.winPatterns : List Pattern :=
  [(0, 1, 2), (3, 4, 5), (6, 7, 8),  -- rows
   (0, 3, 6), (1, 4, 7), (2, 5, 8),  -- columns
   (0, 4, 8), (2, 4, 6)]             -- diagonals

/-- The function `checkWinner` of `ai.js`. -/
def checkWinner (board : Board) : Option Mark :=
  checkWinnerLoop board CheckWinner.winPatterns

/-- The body of the two `for` loops of `minimax`, over the remaining indices: on an empty
cell the mark is written, the recursive call `search` is made on the written board, the
cell is cleared again and `bestScore` is combined with the score. -/
def searchLoop (search : Board → Option (Score × Board)) (mark : Mark)
    (combine : Score → Score → Score) : List Nat → Score → Board → Option (Score × Board)
  | [], bestScore, board => some (bestScore, board)
  | i :: rest, bestScore, board =>
    if board[i]? = some Cell.empty then
      match search (board.set i mark.toCell) with
      | none => none
      | some (score, board1) =>
        searchLoop search mark combine rest (combine score bestScore) (board1.set i Cell.empty)
    else searchLoop search mark combine rest bestScore board

/-- The function `minimax`; the first argument is the fuel of the recursion and `none`
is returned when it runs out. The result carries the board array as the call leaves it. -/
def minimax : Nat → Board → Int → Bool → Mark → Mark → Option (Score × Board)
  | fuel, board, depth, isMaximizing, playerMark, opponentMark =>
    let winner := checkWinner board
    if winner = some playerMark then some (Score.fin (10 - depth), board)
    else if winner = some opponentMark then some (Score.fin (depth - 10), board)
    else if isBoardFull board then some (Score.fin 0, board)
    else
      match fuel with
      | 0 => none
      | fuel + 1 =>
        if isMaximizing then
          searchLoop (fun b => minimax fuel b (depth + 1) false playerMark opponentMark)
            playerMark (fun score bestScore => Score.max score bestScore)
            (List.range board.length) Score.negInf board
        else
          searchLoop (fun b => minimax fuel b (depth + 1) true playerMark opponentMark)
            opponentMark (fun score bestScore => Score.min score bestScore)
            (List.range board.length) Score.posInf board

/-- The `for` loop of `minimaxMove` over the remaining indices, carrying `bestScore`,
`bestMove` and the board array. -/
def minimaxMoveLoop (fuel : Nat) (playerMark opponentMark : Mark) :
    List Nat → Score → Int → Board → Option (Int × Board)
  | [], _, bestMove, board => some (bestMove, board)
  | i :: rest, bestScore, bestMove, board =>
    if board[i]? = some Cell.empty then
      match minimax fuel (board.set i playerMark.toCell) 0 false playerMark opponentMark with
      | none => none
      | some (score, board1) =>
        if Score.gt score bestScore then
          minimaxMoveLoop fuel playerMark opponentMark rest score (i : Int)
            (board1.set i Cell.empty)
        else
          minimaxMoveLoop fuel playerMark opponentMark rest bestScore bestMove
            (board1.set i Cell.empty)
    else minimaxMoveLoop fuel playerMark opponentMark rest bestScore bestMove board

/-- The function `minimaxMove`: the chosen index and the board array as the call leaves
it; the recursion is given `board.length` units of fuel. -/
def minimaxMove (board : Board) (playerMark : Mark) : Option (Int × Board) :=
  let opponentMark := playerMark.other
  minimaxMoveLoop board.length playerMark opponentMark (List.range board.length)
    Score.negInf (-1) board

/-- The array `availableMoves` of `randomMove`: the indices of the empty cells, ascending. -/
def availableMoves (board : Board) : List Nat :=
  (board.enum.map (fun ic => if ic.2 = Cell.empty then some ic.1 else none)).filterMap id

/-- The function `randomMove`; `r` is the value returned by `Math.random()`, the product
`Math.random() * availableMoves.length` is rounded to a double before `Math.floor`, and
`none` is `undefined` (a read outside `availableMoves`). -/
def randomMove (board : Board) (r : ℚ) : Option Int :=
  let moves := availableMoves board
  if moves.length = 0 then some (-1)
  else
    let randomIndex := Rat.floor (Float64.round (r * (moves.length : ℚ)))
    if randomIndex < 0 then none
    else
      match moves[randomIndex.toNat]? with
      | some i => some (i : Int)
      | none => none

/-- The loop of `findWinningMove` over the remaining patterns. -/
def findWinningMoveLoop (board : Board) (playerMark : Mark) : List Pattern → Int
  | [] => -1
  | (a, b, c) :: rest =>
    if board[a]? = some playerMark.toCell ∧ board[b]? = some playerMark.toCell
        ∧ board[c]? = some Cell.empty then (c : Int)
    else if board[a]? = some playerMark.toCell ∧ board[c]? = some playerMark.toCell
        ∧ board[b]? = some Cell.empty then (b : Int)
    else if board[b]? = some playerMark.toCell ∧ board[c]? = some playerMark.toCell
        ∧ board[a]? = some Cell.empty then (a : Int)
    else findWinningMoveLoop board playerMark rest

/-- The constant `winPatterns` written out in `findWinningMove` of `ai.js` (lines 88-92). -/
def FindWinningMove.winPatterns : List Pattern :=
  [(0, 1, 2), (3, 4, 5), (6, 7, 8),  -- rows
   (0, 3, 6), (1, 4, 7), (2, 5, 8),  -- columns
   (0, 4, 8), (2, 4, 6)]             -- diagonals

/-- The function `findWinningMove`. -/
def findWinningMove (board : Board) (playerMark : Mark) : Int :=
  findWinningMoveLoop board playerMark FindWinningMove.winPatterns

/-- The function `strategicMove`; `r` is the draw used by the random fallback. -/
def strategicMove (board : Board) (playerMark : Mark) (r : ℚ) : Option Int :=
  let opponentMark := playerMark.other
  let winningMove := findWinningMove board playerMark
  if winningMove ≠ -1 then some winningMove
  else
    let blockingMove := findWinningMove board opponentMark
    if blockingMove ≠ -1 then some blockingMove
    else if board[4]? = some Cell.empty then some 4
    else randomMove board r

/-- The literal `0.6` of `makeMove`: the double nearest to 6/10. -/
def pointSix : ℚ :=
  Float64.round (6 / 10)

/-- The function `makeMove` of `ai.js`. `r1` and `r2` are the values of the first and the
second call of `Math.random()`. The outer `none` is an exhausted recursion; the result
is the returned value (`none` for `undefined`) with the board array as the call leaves it. -/
def makeMove (board : Board) (playerMark : Mark) (difficulty : Difficulty) (r1 r2 : ℚ) :
    Option (Option Int × Board) :=
  match difficulty with
  | Difficulty.hard =>
    (minimaxMove board playerMark).map (fun res => (some res.1, res.2))
  | Difficulty.medium =>
    if r1 < pointSix then some (strategicMove board playerMark r2, board)
    else some (randomMove board r2, board)
  | Difficulty.easy => some (randomMove board r1, board)

end GameAI

/-! ## Vocabulary of the specification -/

/-- All three cells of pattern `p` hold mark `m`. -/
def lineOf (b : Board) (m : Mark) (p : Pattern) : Bool :=
  b[p.1]? = some m.toCell ∧ b[p.2.1]? = some m.toCell ∧ b[p.2.2]? = some m.toCell

/-- Pattern `p` is completed: its three cells hold the same non-empty mark. -/
def patternDone (b : Board) (p : Pattern) : Bool :=
  lineOf b Mark.X p || lineOf b Mark.O p

/-- Mark `m` fills at least one of the eight patterns. -/
def hasLine (b : Board) (m : Mark) : Bool :=
  winPatterns.any (lineOf b m)

/-- Some pattern is completed on the board. -/
def anyLine (b : Board) : Bool :=
  winPatterns.any (patternDone b)

/-- The board has at least one empty cell. -/
def hasEmpty (b : Board) : Bool :=
  b.contains Cell.empty

/-- The number of empty cells. -/
def countEmpty (b : Board) : Nat :=
  b.count Cell.empty

/-- The board `[X,X,'','','','','','','']` of the blocking scenario. -/
def blockBoard : Board :=
  [Cell.X, Cell.X, Cell.empty, Cell.empty, Cell.empty, Cell.empty, Cell.empty, Cell.empty,
    Cell.empty]

/-- The board `[X,O,X,X,O,O,'','','']`, on which X completes the first column at cell 6. -/
def lateBoard : Board :=
  [Cell.X, Cell.O, Cell.X, Cell.X, Cell.O, Cell.O, Cell.empty, Cell.empty, Cell.empty]

/-- Cell `c` is the empty cell of pattern `p` and the two other cells of `p` hold `m`. -/
def completesAt (b : Board) (m : Mark) (p : Pattern) (c : Nat) : Bool :=
  (b[p.1]? = some m.toCell ∧ b[p.2.1]? = some m.toCell ∧ b[p.2.2]? = some Cell.empty
      ∧ c = p.2.2) ∨
  (b[p.1]? = some m.toCell ∧ b[p.2.2]? = some m.toCell ∧ b[p.2.1]? = some Cell.empty
      ∧ c = p.2.1) ∨
  (b[p.2.1]? = some m.toCell ∧ b[p.2.2]? = some m.toCell ∧ b[p.1]? = some Cell.empty
      ∧ c = p.1)

/-- Pattern `p` has two cells holding `m` and its third cell empty. -/
def threat (b : Board) (m : Mark) (p : Pattern) : Bool :=
  completesAt b m p p.2.2 || completesAt b m p p.2.1 || completesAt b m p p.1

/-- Some pattern of the table has two cells holding `m` and its third cell empty. -/
def hasThreat (b : Board) (m : Mark) : Bool :=
  winPatterns.any (threat b m)

/-- The first completed pattern in the order of the list `ps`. -/
def firstDone (b : Board) (ps : List Pattern) : Option Pattern :=
  ps.find? (patternDone b)

/-- The opponent of `m` can force a completed pattern of its own within `n` further plies,
on board `b` with the opponent to move when `oppToMove` holds and `m` to move otherwise.
Play stops as soon as a pattern is completed or no cell is empty. -/
def oppCanForce (m : Mark) : Nat → Bool → Board → Bool
  | n, oppToMove, b =>
    if hasLine b m.other then true
    else if hasLine b m then false
    else if !hasEmpty b then false
    else
      match n with
      | 0 => false
      | n + 1 =>
        if oppToMove then
          (List.range b.length).any fun j =>
            decide (b[j]? = some Cell.empty) && oppCanForce m n false (b.set j m.other.toCell)
        else
          (List.range b.length).all fun j =>
            !decide (b[j]? = some Cell.empty) || oppCanForce m n true (b.set j m.toCell)

/-! ### A drawing strategy for the second player, used as a certificate -/

namespace Certificate

/-- The cell is empty. -/
def isE : Cell → Bool
  | Cell.empty => true
  | _ => false

/-- Equality of two cell values, by cases. -/
def eqC : Cell → Cell → Bool
  | Cell.empty, Cell.empty => true
  | Cell.X, Cell.X => true
  | Cell.O, Cell.O => true
  | _, _ => false

/-- Cell `j` of the board exists and is empty. -/
def emptyAt : Board → Nat → Bool
  | [], _ => false
  | c :: _, 0 => isE c
  | _ :: cs, j + 1 => emptyAt cs j

/-- The three cells all hold the value `m`. -/
def three (m x y z : Cell) : Bool := eqC x m && eqC y m && eqC z m

/-- Some pattern of a nine-cell board is filled with the value `m`. -/
def lineB (m : Cell) : Board → Bool
  | [a, b, c, d, e, f, g, h, i] =>
    three m a b c || three m d e f || three m g h i ||
    three m a d g || three m b e h || three m c f i ||
    three m a e i || three m c e g
  | _ => false

/-- Some cell of the board is empty. -/
def hasEmptyB : Board → Bool
  | [] => false
  | c :: cs => isE c || hasEmptyB cs

/-- The index of the empty cell of a pattern whose other two cells hold `m`. -/
def tri (m x y z : Cell) (ix iy iz : Nat) : Option Nat :=
  if eqC x m && eqC y m && isE z then some iz
  else if eqC x m && eqC z m && isE y then some iy
  else if eqC y m && eqC z m && isE x then some ix
  else none

/-- The first of two optional results. -/
def orTry : Option Nat → Option Nat → Option Nat
  | some r, _ => some r
  | none, y => y

/-- A cell that completes a pattern for the value `m`, if there is one. -/
def completing (m : Cell) : Board → Option Nat
  | [a, b, c, d, e, f, g, h, i] =>
    orTry (tri m a b c 0 1 2) (orTry (tri m d e f 3 4 5) (orTry (tri m g h i 6 7 8)
    (orTry (tri m a d g 0 3 6) (orTry (tri m b e h 1 4 7) (orTry (tri m c f i 2 5 8)
    (orTry (tri m a e i 0 4 8) (tri m c e g 2 4 6)))))))
  | _ => none

/-- The index of the first empty cell in a list of cells with their indices. -/
def pick : List (Cell × Nat) → Nat
  | [] => 0
  | (c, i) :: rest => if isE c then i else pick rest

/-- The reply of O when neither player can complete a pattern: four fixed answers to
X's second move, else the first empty cell in an order that depends on who holds the
centre. -/
def quiet : Board → Nat
  | [Cell.empty, Cell.empty, Cell.X, Cell.empty, Cell.O, Cell.empty, Cell.X, Cell.empty, Cell.empty] => 5
  | [Cell.empty, Cell.empty, Cell.X, Cell.empty, Cell.O, Cell.empty, Cell.empty, Cell.X, Cell.empty] => 5
  | [Cell.empty, Cell.empty, Cell.empty, Cell.empty, Cell.O, Cell.X, Cell.X, Cell.empty, Cell.empty] => 1
  | [Cell.empty, Cell.empty, Cell.empty, Cell.empty, Cell.O, Cell.X, Cell.empty, Cell.X, Cell.empty] => 6
  | [a, b, c, d, Cell.X, f, g, h, i] =>
    pick [(a, 0), (c, 2), (b, 1), (d, 3), (f, 5), (g, 6), (h, 7), (i, 8)]
  | [a, b, c, d, e, f, g, h, i] =>
    pick [(e, 4), (a, 0), (f, 5), (b, 1), (g, 6), (c, 2), (d, 3), (h, 7), (i, 8)]
  | _ => 0

/-- The reply of O to X's last move: complete an own pattern, else block a pattern of X,
else the quiet reply. -/
def reply (b : Board) : Nat :=
  match completing Cell.O b with
  | some r => r
  | none =>
    match completing Cell.X b with
    | some r => r
    | none => quiet b

/-- Runs `k` on a nine-cell board with its cells evaluated. -/
def withBoard (b : Board) (k : Board → Bool) : Bool :=
  match b with
  | [c0, c1, c2, c3, c4, c5, c6, c7, c8] => k [c0, c1, c2, c3, c4, c5, c6, c7, c8]
  | _ => false

/-- Runs `k` on an evaluated index. -/
def withIndex (i : Nat) (k : Nat → Bool) : Bool :=
  match i with
  | 0 => k 0
  | i + 1 => k (i + 1)

/-- With X to move on `b` and O answering every move of X by `reply`, X completes no
pattern during its next `n` moves and play has ended by then. -/
def holds : Nat → Board → Bool
  | 0, b => !hasEmptyB b
  | n + 1, b =>
    (List.range 9).all fun j =>
      !emptyAt b j ||
        withBoard (b.set j Cell.X) fun b1 =>
          (!lineB Cell.X b1 &&
            (!hasEmptyB b1 ||
              withIndex (reply b1) fun r =>
                (emptyAt b1 r &&
                  withBoard (b1.set r Cell.O) fun b2 =>
                    (lineB Cell.O b2 || !hasEmptyB b2 || holds n b2))))

end Certificate

/-- The states of a game against the hard opponent, as `ui.js` drives the two engines:
the game starts from `initialize()`; while X is to move any call `makeMove(index)` may be
made (`handleCellClick`); while O is to move and the game is not over, the index returned
by `GameAI.makeMove(getState().board, 'O', 'hard')` is applied through `makeMove` unless it
is -1 (`handleAITurn`). -/
inductive HardGame : GameBoard.State → Prop
  | start (s0 : GameBoard.State) : HardGame (GameBoard.initBoard s0).2
  | human (s : GameBoard.State) (index : Int) :
      HardGame s → s.currentPlayer = Mark.X → HardGame (GameBoard.makeMove s index).2
  | ai (s : GameBoard.State) (r1 r2 : ℚ) (aiMove : Int) (board1 : Board) :
      HardGame s → s.currentPlayer = Mark.O → s.gameOver = false →
      GameAI.makeMove (GameBoard.getState s).1 s.currentPlayer Difficulty.hard r1 r2 =
        some (some aiMove, board1) →
      aiMove ≠ -1 → HardGame (GameBoard.makeMove s aiMove).2

/-- The invariant of a game against the hard opponent playing O: the board has nine cells
and no pattern of X, and while play continues there is no pattern of O, a cell is empty
and X cannot force a pattern of X. -/
def HardInv (s : GameBoard.State) : Prop :=
  s.board.length = 9 ∧ hasLine s.board Mark.X = false ∧
  (s.gameOver = false →
    hasLine s.board Mark.O = false ∧ hasEmpty s.board = true ∧
    oppCanForce Mark.O 9 (decide (s.currentPlayer = Mark.X)) s.board = false)

/-- The score `minimaxMove` obtains for the empty cell `i`: the result of `minimax` on the
board with the mark written to `i`, at depth 0 with the opponent to move. -/
def moveScore (fuel : Nat) (board : Board) (playerMark : Mark) (i : Nat) : Option Score :=
  (GameAI.minimax fuel (board.set i playerMark.toCell) 0 false playerMark playerMark.other).map
    (fun res => res.1)

namespace GameBoard

/-- The board after the current player's mark is written into cell `index`. -/
def placed (s : State) (index : Int) : Board :=
  s.board.set index.toNat s.currentPlayer.toCell

/-- The history after the move at `index` is recorded. -/
def recorded (s : State) (index : Int) : List HistoryEntry :=
  s.moveHistory ++ [{ index := index, player := s.currentPlayer, board := s.board }]

/-- The invariant of the reachable states used for win reporting: a board on which play
continues, and every recorded snapshot, has no completed pattern. -/
def NoStaleLine (s : State) : Prop :=
  (s.gameOver = false → anyLine s.board = false) ∧
  ∀ e ∈ s.moveHistory, anyLine e.board = false

/-- The object returned by `getState`, as an argument of `setState`: it has the properties
`board`, `currentPlayer`, `gameOver` and `winPattern`, and no property `moveHistory`. -/
def snapshotOf (g : Board × Mark × Bool × Option Pattern) : Snapshot :=
  { board := some g.1, currentPlayer := some g.2.1, gameOver := some g.2.2.1,
    winPattern := g.2.2.2, moveHistory := none }

/-- The state after the calls `makeMove(i)` for the indices `i` of the list, in order. -/
def playMoves (s : State) : List Int → State
  | [] => s
  | index :: rest => playMoves (makeMove s index).2 rest

/-- The number of calls among `makeMove(i)`, for the indices of the list in order, that
return `valid: true`. -/
def successes (s : State) : List Int → Nat
  | [] => 0
  | index :: rest =>
    (if (makeMove s index).1.valid = true then 1 else 0) + successes (makeMove s index).2 rest

/-- The state after `k` consecutive calls of `undoMove()`. -/
def undoTimes : Nat → State → State
  | 0, s => s
  | k + 1, s => undoTimes k (undoMove s).2

/-- The invariant of the reachable states relating the flag `gameOver` to the board: play
continues exactly on boards without a completed pattern and with an empty cell, the two
marks never both fill a pattern, and every recorded snapshot is a board on which play
continued. -/
def Coherent (s : State) : Prop :=
  (s.gameOver = false → anyLine s.board = false ∧ hasEmpty s.board = true) ∧
  (s.gameOver = true → anyLine s.board = true ∨ hasEmpty s.board = false) ∧
  ¬ (hasLine s.board Mark.X = true ∧ hasLine s.board Mark.O = true) ∧
  ∀ e ∈ s.moveHistory, anyLine e.board = false ∧ hasEmpty e.board = true

/-- A snapshot whose board is the one-cell array `['X']` and that has no other property. -/
def shortSnapshot : Snapshot :=
  { board := some [Cell.X], currentPlayer := none, gameOver := none, winPattern := none,
    moveHistory := none }

/-- The state after `initialize()` and the move `makeMove(4)`. -/
def centreOpened : State :=
  (makeMove loaded 4).2

/-- A snapshot whose board is an array of ten empty cells and that has no other property. -/
def tenCellSnapshot : Snapshot :=
  { board := some (List.replicate 10 Cell.empty), currentPlayer := none, gameOver := none,
    winPattern := none, moveHistory := none }

/-- The state after `setState` with the ten-cell snapshot. -/
def tenCells : State :=
  (setState loaded (some tenCellSnapshot)).2

end GameBoard

/-! ## The search of `minimax`, with a record of the calls made -/

namespace GameAI

/-- What a run of the search did: `stops` counts the calls of `minimax` that returned at
one of the three early `return`s (without recursing), `deepest` is the greatest value of
the argument `depth` among the calls of `minimax` (`-1` when none was made), and
`shrinking` tells that every call of `minimax` made from a loop was made on a board with
exactly one fewer empty cell than the board had when the looping function was entered. -/
structure Profile where
  stops : Nat
  deepest : Int
  shrinking : Bool
  deriving DecidableEq, Repr

/-- The record of a run followed by the call `q` made on a board with `callee` empty
cells from a function entered with `entry` empty cells. -/
def Profile.call (pr q : Profile) (callee entry : Nat) : Profile :=
  { stops := pr.stops + q.stops,
    deepest := max pr.deepest q.deepest,
    shrinking := pr.shrinking && q.shrinking && decide (callee + 1 = entry) }

/-- The loop `searchLoop` with the record of the calls; `entry` is the number of empty
cells of the board on entry of the function that runs the loop. -/
def searchLoopProfiled (search : Board → Option ((Score × Board) × Profile)) (mark : Mark)
    (combine : Score → Score → Score) (entry : Nat) :
    List Nat → Score → Board → Profile → Option ((Score × Board) × Profile)
  | [], bestScore, board, pr => some ((bestScore, board), pr)
  | i :: rest, bestScore, board, pr =>
    if board[i]? = some Cell.empty then
      match search (board.set i mark.toCell) with
      | none => none
      | some ((score, board1), q) =>
        searchLoopProfiled search mark combine entry rest (combine score bestScore)
          (board1.set i Cell.empty)
          (pr.call q (countEmpty (board.set i mark.toCell)) entry)
    else searchLoopProfiled search mark combine entry rest bestScore board pr

/-- The function `minimax` with the record of the calls it makes, itself included. -/
def minimaxProfiled :
    Nat → Board → Int → Bool → Mark → Mark → Option ((Score × Board) × Profile)
  | fuel, board, depth, isMaximizing, playerMark, opponentMark =>
    let winner := checkWinner board
    if winner = some playerMark then
      some ((Score.fin (10 - depth), board), { stops := 1, deepest := depth, shrinking := true })
    else if winner = some opponentMark then
      some ((Score.fin (depth - 10), board), { stops := 1, deepest := depth, shrinking := true })
    else if isBoardFull board then
      some ((Score.fin 0, board), { stops := 1, deepest := depth, shrinking := true })
    else
      match fuel with
      | 0 => none
      | fuel + 1 =>
        if isMaximizing then
          searchLoopProfiled
            (fun b => minimaxProfiled fuel b (depth + 1) false playerMark opponentMark)
            playerMark (fun score bestScore => Score.max score bestScore)
            (countEmpty board) (List.range board.length) Score.negInf board
            { stops := 0, deepest := depth, shrinking := true }
        else
          searchLoopProfiled
            (fun b => minimaxProfiled fuel b (depth + 1) true playerMark opponentMark)
            opponentMark (fun score bestScore => Score.min score bestScore)
            (countEmpty board) (List.range board.length) Score.posInf board
            { stops := 0, deepest := depth, shrinking := true }

/-- The loop `minimaxMoveLoop` with the record of the calls of `minimax`. -/
def minimaxMoveLoopProfiled (fuel : Nat) (playerMark opponentMark : Mark) (entry : Nat) :
    List Nat → Score → Int → Board → Profile → Option ((Int × Board) × Profile)
  | [], _, bestMove, board, pr => some ((bestMove, board), pr)
  | i :: rest, bestScore, bestMove, board, pr =>
    if board[i]? = some Cell.empty then
      match minimaxProfiled fuel (board.set i playerMark.toCell) 0 false playerMark
          opponentMark with
      | none => none
      | some ((score, board1), q) =>
        if Score.gt score bestScore then
          minimaxMoveLoopProfiled fuel playerMark opponentMark entry rest score (i : Int)
            (board1.set i Cell.empty)
            (pr.call q (countEmpty (board.set i playerMark.toCell)) entry)
        else
          minimaxMoveLoopProfiled fuel playerMark opponentMark entry rest bestScore bestMove
            (board1.set i Cell.empty)
            (pr.call q (countEmpty (board.set i playerMark.toCell)) entry)
    else minimaxMoveLoopProfiled fuel playerMark opponentMark entry rest bestScore bestMove
      board pr

/-- The function `minimaxMove` with the record of the calls of `minimax` below it. -/
def minimaxMoveProfiled (board : Board) (playerMark : Mark) :
    Option ((Int × Board) × Profile) :=
  let opponentMark := playerMark.other
  minimaxMoveLoopProfiled board.length playerMark opponentMark (countEmpty board)
    (List.range board.length) Score.negInf (-1) board
    { stops := 0, deepest := -1, shrinking := true }

end GameAI

/-! ## Counting the marks on the board -/

/-- The number of cells holding mark `m`. -/
def countMark (b : Board) (m : Mark) : Nat :=
  b.count m.toCell

/-- The number of non-empty cells. -/
def countFilled (b : Board) : Nat :=
  b.countP (fun c => decide (c ≠ Cell.empty))

/-- On board `b` the marks alternate with X first and `p` is the mark to move: X has as
many cells as O or one more, and `p` is X exactly when the two counts are equal. -/
def Alternating (b : Board) (p : Mark) : Prop :=
  (countMark b Mark.X = countMark b Mark.O ∨ countMark b Mark.X = countMark b Mark.O + 1) ∧
  (p = Mark.X ↔ countMark b Mark.X = countMark b Mark.O)

namespace GameBoard

/-- The invariant of the reachable states used for the turn order: the board has nine
cells, X has as many cells as O or one more, the history has one entry per non-empty cell,
the player to move of a game in progress is X exactly when the counts are equal, and the
entry of index `k` of the history recorded a board with `k` non-empty cells, alternating
marks and its mover. -/
def TurnOrder (s : State) : Prop :=
  s.board.length = 9 ∧
  (countMark s.board Mark.X = countMark s.board Mark.O ∨
    countMark s.board Mark.X = countMark s.board Mark.O + 1) ∧
  s.moveHistory.length = countFilled s.board ∧
  (s.gameOver = false → Alternating s.board s.currentPlayer) ∧
  ∀ (k : Nat) (e : HistoryEntry), s.moveHistory[k]? = some e →
    e.board.length = 9 ∧ countFilled e.board = k ∧ Alternating e.board e.player

end GameBoard

/-! # Theorems -/

open GameBoard

/-! ## Win detection -/

/-- The table written out in `checkWinner` of `ai.js` is the list of the specification. -/
theorem ai_checkTable_eq : GameAI.CheckWinner.winPatterns = winPatterns := rfl

/-- The table written out in `checkWinner` of `board.js` is the list of the specification. -/
theorem board_checkTable_eq : GameBoard.CheckWinner.winPatterns = winPatterns := rfl

/-- The table written out in `findWinningMove` of `ai.js` is the list of the specification. -/
theorem ai_findTable_eq : GameAI.FindWinningMove.winPatterns = winPatterns := rfl

theorem markOf_toCell (m : Mark) : markOf (some m.toCell) = some m := by
  cases m <;> rfl

theorem truthy_toCell (m : Mark) : truthy (some m.toCell) = true := by
  cases m <;> rfl

theorem truthy_iff (x : Option Cell) : truthy x = true ↔ ∃ m : Mark, x = some m.toCell := by
  constructor
  · intro h
    match x, h with
    | some Cell.X, _ => exact ⟨Mark.X, rfl⟩
    | some Cell.O, _ => exact ⟨Mark.O, rfl⟩
  · rintro ⟨m, rfl⟩
    exact truthy_toCell m

theorem toCell_injective {m n : Mark} (h : m.toCell = n.toCell) : m = n := by
  cases m <;> cases n <;> first | rfl | cases h

theorem toCell_ne_empty (m : Mark) : m.toCell ≠ Cell.empty := by
  cases m <;> intro h <;> cases h

theorem lineOf_iff (b : Board) (m : Mark) (p : Pattern) :
    lineOf b m p = true ↔
      b[p.1]? = some m.toCell ∧ b[p.2.1]? = some m.toCell ∧ b[p.2.2]? = some m.toCell := by
  simp [lineOf]

/-- The test of the `if` in both `checkWinner` loops is the completion of the pattern. -/
theorem test_iff_patternDone (board : Board) (a b c : Nat) :
    (truthy board[a]? = true ∧ board[a]? = board[b]? ∧ board[a]? = board[c]?) ↔
      patternDone board (a, b, c) = true := by
  simp only [patternDone, Bool.or_eq_true, lineOf_iff]
  constructor
  · rintro ⟨ht, hb, hc⟩
    obtain ⟨m, hm⟩ := (truthy_iff _).1 ht
    cases m
    · left; exact ⟨hm, hb ▸ hm, hc ▸ hm⟩
    · right; exact ⟨hm, hb ▸ hm, hc ▸ hm⟩
  · rintro (⟨h1, h2, h3⟩ | ⟨h1, h2, h3⟩)
    · exact ⟨h1 ▸ truthy_toCell _, h1.trans h2.symm, h1.trans h3.symm⟩
    · exact ⟨h1 ▸ truthy_toCell _, h1.trans h2.symm, h1.trans h3.symm⟩

theorem patternDone_iff (b : Board) (p : Pattern) :
    patternDone b p = true ↔ ∃ m : Mark, lineOf b m p = true := by
  simp only [patternDone, Bool.or_eq_true]
  constructor
  · rintro (h | h)
    · exact ⟨_, h⟩
    · exact ⟨_, h⟩
  · rintro ⟨m, h⟩
    cases m
    · exact Or.inl h
    · exact Or.inr h

theorem anyLine_iff (b : Board) :
    anyLine b = true ↔ ∃ m : Mark, hasLine b m = true := by
  simp only [anyLine, hasLine, List.any_eq_true, patternDone_iff]
  constructor
  · rintro ⟨p, hp, m, hm⟩
    exact ⟨m, p, hp, hm⟩
  · rintro ⟨m, p, hp, hm⟩
    exact ⟨p, hp, m, hm⟩


theorem ai_checkWinnerLoop_eq (board : Board) (ps : List Pattern) :
    GameAI.checkWinnerLoop board ps =
      match firstDone board ps with
      | none => none
      | some p => markOf board[p.1]? := by
  induction ps with
  | nil => rfl
  | cons p rest ih =>
    obtain ⟨a, b, c⟩ := p
    by_cases h : patternDone board (a, b, c) = true
    · have h2 := (test_iff_patternDone board a b c).2 h
      simp only [GameAI.checkWinnerLoop, if_pos h2, firstDone, List.find?, h]
    · have h2 := mt (test_iff_patternDone board a b c).1 h
      simp only [GameAI.checkWinnerLoop, if_neg h2, ih, firstDone, List.find?]
      simp [h]

theorem board_checkWinnerLoop_eq (s : GameBoard.State) (ps : List Pattern) :
    GameBoard.checkWinnerLoop s ps =
      match firstDone s.board ps with
      | none => (none, s)
      | some p => (markOf s.board[p.1]?, { s with winPattern := some p }) := by
  induction ps with
  | nil => rfl
  | cons p rest ih =>
    obtain ⟨a, b, c⟩ := p
    by_cases h : patternDone s.board (a, b, c) = true
    · have h2 := (test_iff_patternDone s.board a b c).2 h
      simp only [GameBoard.checkWinnerLoop, if_pos h2, firstDone, List.find?, h]
    · have h2 := mt (test_iff_patternDone s.board a b c).1 h
      simp only [GameBoard.checkWinnerLoop, if_neg h2, ih, firstDone, List.find?]
      simp [h]

theorem firstDone_none_iff (b : Board) : firstDone b winPatterns = none ↔ anyLine b = false := by
  simp [firstDone, anyLine, List.find?_eq_none]

theorem firstDone_some {b : Board} {ps : List Pattern} {p : Pattern}
    (h : firstDone b ps = some p) : p ∈ ps ∧ patternDone b p = true := by
  unfold firstDone at h
  exact ⟨List.mem_of_find?_eq_some h, List.find?_some h⟩

theorem markOf_of_lineOf {b : Board} {m : Mark} {p : Pattern} (h : lineOf b m p = true) :
    markOf b[p.1]? = some m := by
  rw [((lineOf_iff b m p).1 h).1, markOf_toCell]

theorem ai_checkWinner_eq_some_iff (b : Board) (m : Mark) :
    GameAI.checkWinner b = some m ↔
      ∃ p, firstDone b winPatterns = some p ∧ lineOf b m p = true := by
  unfold GameAI.checkWinner
  rw [ai_checkTable_eq]
  rw [ai_checkWinnerLoop_eq]
  cases hf : firstDone b winPatterns with
  | none => simp
  | some p =>
    obtain ⟨m', hm'⟩ := (patternDone_iff b p).1 (firstDone_some hf).2
    simp only [markOf_of_lineOf hm', Option.some.injEq, exists_eq_left']
    constructor
    · rintro rfl; exact hm'
    · intro h
      have h1 := ((lineOf_iff b m p).1 h).1
      have h2 := ((lineOf_iff b m' p).1 hm').1
      rw [h1] at h2
      exact (toCell_injective (Option.some.inj h2)).symm

theorem ai_checkWinner_eq_none_iff (b : Board) :
    GameAI.checkWinner b = none ↔ anyLine b = false := by
  rw [← firstDone_none_iff]
  unfold GameAI.checkWinner
  rw [ai_checkTable_eq]
  rw [ai_checkWinnerLoop_eq]
  cases hf : firstDone b winPatterns with
  | none => simp
  | some p =>
    obtain ⟨m', hm'⟩ := (patternDone_iff b p).1 (firstDone_some hf).2
    simp [markOf_of_lineOf hm']

theorem board_checkWinner_fst (s : GameBoard.State) :
    (GameBoard.checkWinner s).1 = GameAI.checkWinner s.board := by
  unfold GameBoard.checkWinner GameAI.checkWinner
  rw [ai_checkTable_eq, board_checkTable_eq]
  rw [board_checkWinnerLoop_eq, ai_checkWinnerLoop_eq]
  cases firstDone s.board winPatterns <;> rfl

theorem board_checkWinner_snd (s : GameBoard.State) :
    (GameBoard.checkWinner s).2 =
      match firstDone s.board winPatterns with
      | none => s
      | some p => { s with winPattern := some p } := by
  unfold GameBoard.checkWinner
  rw [board_checkTable_eq]
  rw [board_checkWinnerLoop_eq]
  cases firstDone s.board winPatterns <;> rfl

theorem ai_checkWinner_hasLine {b : Board} {m : Mark} (h : GameAI.checkWinner b = some m) :
    hasLine b m = true := by
  obtain ⟨p, hp, hl⟩ := (ai_checkWinner_eq_some_iff b m).1 h
  exact List.any_eq_true.2 ⟨p, (firstDone_some hp).1, hl⟩

/-- C6: on every board both `checkWinner` functions (of `ai.js` and of `board.js`) return
a mark exactly when some pattern of the table is completed, the returned mark fills a
pattern of the table, and they return `null` exactly when no pattern is completed. -/
theorem checkWinner_spec (board : Board) (s : GameBoard.State) :
    ((GameAI.checkWinner board).isSome = anyLine board) ∧
    (∀ m, GameAI.checkWinner board = some m → hasLine board m = true) ∧
    (GameAI.checkWinner board = none ↔ anyLine board = false) ∧
    (((GameBoard.checkWinner s).1).isSome = anyLine s.board) ∧
    (∀ m, (GameBoard.checkWinner s).1 = some m → hasLine s.board m = true) ∧
    ((GameBoard.checkWinner s).1 = none ↔ anyLine s.board = false) := by
  have key : ∀ b : Board, (GameAI.checkWinner b).isSome = anyLine b := by
    intro b
    cases h : anyLine b with
    | false => rw [(ai_checkWinner_eq_none_iff b).2 h]; rfl
    | true =>
      cases h2 : GameAI.checkWinner b with
      | none => rw [(ai_checkWinner_eq_none_iff b).1 h2] at h; cases h
      | some m => rfl
  refine ⟨key board, fun m h => ai_checkWinner_hasLine h, ai_checkWinner_eq_none_iff board, ?_, ?_, ?_⟩
  · rw [board_checkWinner_fst]; exact key s.board
  · intro m h
    rw [board_checkWinner_fst] at h
    exact ai_checkWinner_hasLine h
  · rw [board_checkWinner_fst]; exact ai_checkWinner_eq_none_iff s.board

/-! ## Board engine: `makeMove` -/

theorem makeMove_invalid (s : State) (index : Int)
    (h : s.gameOver = true ∨ s.board.at index ≠ some Cell.empty) :
    makeMove s index =
      ({ valid := false, board := s.board, currentPlayer := s.currentPlayer,
         gameOver := s.gameOver, winner := none, winPattern := s.winPattern, isDraw := none }, s) := by
  unfold makeMove
  rw [if_pos h]



theorem makeMove_valid (s : State) (index : Int)
    (hg : s.gameOver = false) (hc : s.board.at index = some Cell.empty) :
    makeMove s index =
      match firstDone (placed s index) winPatterns with
      | some p =>
        ({ valid := true, board := placed s index, currentPlayer := s.currentPlayer,
           gameOver := true, winner := some (GameAI.checkWinner (placed s index)),
           winPattern := some p, isDraw := some false },
         { board := placed s index, currentPlayer := s.currentPlayer, gameOver := true,
           winPattern := some p, moveHistory := recorded s index })
      | none =>
        if isBoardFull (placed s index) then
          ({ valid := true, board := placed s index, currentPlayer := s.currentPlayer,
             gameOver := true, winner := some none, winPattern := none, isDraw := some true },
           { board := placed s index, currentPlayer := s.currentPlayer, gameOver := true,
             winPattern := s.winPattern, moveHistory := recorded s index })
        else
          ({ valid := true, board := placed s index, currentPlayer := s.currentPlayer.other,
             gameOver := false, winner := some none, winPattern := none, isDraw := some false },
           { board := placed s index, currentPlayer := s.currentPlayer.other, gameOver := false,
             winPattern := s.winPattern, moveHistory := recorded s index }) := by
  have hn : ¬ (s.gameOver = true ∨ s.board.at index ≠ some Cell.empty) := by
    simp [hg, hc]
  unfold makeMove
  rw [if_neg hn]
  simp only []
  rw [board_checkWinner_fst, board_checkWinner_snd]
  simp only [placed, recorded]
  cases hf : firstDone (s.board.set index.toNat s.currentPlayer.toCell) winPatterns with
  | some p =>
    have h1 : (GameAI.checkWinner (s.board.set index.toNat s.currentPlayer.toCell)).isSome = true := by
      cases h2 : GameAI.checkWinner (s.board.set index.toNat s.currentPlayer.toCell) with
      | some m => rfl
      | none =>
        rw [ai_checkWinner_eq_none_iff, ← firstDone_none_iff, hf] at h2
        cases h2
    simp only [h1, if_true]
  | none =>
    have h1 : GameAI.checkWinner (s.board.set index.toNat s.currentPlayer.toCell) = none := by
      rw [ai_checkWinner_eq_none_iff, ← firstDone_none_iff, hf]
    simp only [h1, Option.isSome_none, Bool.false_eq_true, if_false, hg]

theorem at_eq_some {b : Board} {index : Int} {c : Cell} (h : b.at index = some c) :
    0 ≤ index ∧ index.toNat < b.length ∧ b[index.toNat]? = some c := by
  unfold Board.at at h
  split at h
  · cases h
  · rename_i hneg
    refine ⟨by omega, ?_, h⟩
    by_contra hlt
    rw [List.getElem?_eq_none (by omega)] at h
    cases h

theorem at_of_nonneg (b : Board) {index : Int} (h : 0 ≤ index) :
    b.at index = b[index.toNat]? := by
  unfold Board.at
  rw [if_neg (by omega)]

theorem at_out_of_range (b : Board) (index : Int) (h : index < 0 ∨ (b.length : Int) ≤ index) :
    b.at index = none := by
  unfold Board.at
  split
  · rfl
  · apply List.getElem?_eq_none
    omega

theorem at_set_self (b : Board) (index : Int) (c d : Cell) (h : b.at index = some d) :
    Board.at (b.set index.toNat c) index = some c := by
  obtain ⟨h0, hlt, _⟩ := at_eq_some h
  rw [at_of_nonneg _ h0, List.getElem?_set_self hlt]

theorem at_set_other (b : Board) (index j : Int) (c : Cell) (h0 : 0 ≤ index) (hj : j ≠ index) :
    Board.at (b.set index.toNat c) j = b.at j := by
  unfold Board.at
  split
  · rfl
  · rw [List.getElem?_set_ne]
    omega

theorem valid_imp (s : State) (index : Int) (hv : (makeMove s index).1.valid = true) :
    s.gameOver = false ∧ s.board.at index = some Cell.empty := by
  by_contra hcon
  have h : s.gameOver = true ∨ s.board.at index ≠ some Cell.empty := by
    by_contra h2
    apply hcon
    push_neg at h2
    exact ⟨by simpa using h2.1, h2.2⟩
  rw [makeMove_invalid s index h] at hv
  cases hv

theorem isBoardFull_eq (b : Board) : isBoardFull b = !hasEmpty b := rfl

/-- In every case of a successful move the new state holds the written board and the
extended history. -/
theorem makeMove_valid_frame (s : State) (index : Int)
    (hg : s.gameOver = false) (hc : s.board.at index = some Cell.empty) :
    (makeMove s index).1.valid = true ∧
    (makeMove s index).1.board = placed s index ∧
    (makeMove s index).2.board = placed s index ∧
    (makeMove s index).2.moveHistory = recorded s index ∧
    (makeMove s index).1.currentPlayer = (makeMove s index).2.currentPlayer ∧
    (makeMove s index).1.gameOver = (makeMove s index).2.gameOver := by
  rw [makeMove_valid s index hg hc]
  cases firstDone (placed s index) winPatterns with
  | some p => simp
  | none =>
    by_cases hf : isBoardFull (placed s index) = true
    · simp [hf]
    · simp [hf]

/-- C2: with the game not over and an empty cell at `index` in 0..8, `makeMove(index)`
returns `valid: true`; afterwards the cell holds the mark of the player who moved, every
other read of the board is unchanged, and the history is the old history followed by the
one entry `(index, mover, board before the move)`. -/
theorem makeMove_applied (s : State) (index : Int) (hg : s.gameOver = false)
    (hi : 0 ≤ index ∧ index ≤ 8) (hc : s.board.at index = some Cell.empty) :
    (makeMove s index).1.valid = true ∧
    (makeMove s index).2.board.at index = some s.currentPlayer.toCell ∧
    (∀ j : Int, j ≠ index → (makeMove s index).2.board.at j = s.board.at j) ∧
    (makeMove s index).2.board.length = s.board.length ∧
    (makeMove s index).2.moveHistory =
      s.moveHistory ++ [{ index := index, player := s.currentPlayer, board := s.board }] := by
  obtain ⟨hv, _, hb, hh, _, _⟩ := makeMove_valid_frame s index hg hc
  refine ⟨hv, ?_, ?_, ?_, ?_⟩
  · rw [hb]; exact at_set_self _ _ _ _ hc
  · intro j hj
    rw [hb]; exact at_set_other _ _ _ _ hi.1 hj
  · rw [hb]; simp [placed]
  · rw [hh]; rfl

theorem initBoard_snd (s0 : State) : (initBoard s0).2 = loaded := rfl

theorem other_ne (m : Mark) : m.other ≠ m := by
  cases m <;> decide

/-- C3: after a successful `makeMove` the current player is the other mark exactly when
the new board has no completed pattern and still an empty cell; otherwise the mover stays
the current player and the game is over. From the initialized board, `makeMove(4)` is
valid and `getState()` shows `board[4] = 'X'`, `currentPlayer = 'O'`, `gameOver = false`. -/
theorem makeMove_turn (s : State) (index : Int) (hv : (makeMove s index).1.valid = true) :
    ((makeMove s index).2.currentPlayer = s.currentPlayer.other ↔
      (anyLine (makeMove s index).2.board = false ∧ hasEmpty (makeMove s index).2.board = true)) ∧
    (¬ (anyLine (makeMove s index).2.board = false ∧
        hasEmpty (makeMove s index).2.board = true) →
      (makeMove s index).2.currentPlayer = s.currentPlayer ∧
      (makeMove s index).2.gameOver = true) ∧
    (makeMove s index).1.currentPlayer = (makeMove s index).2.currentPlayer ∧
    (∀ s0 : State,
      (makeMove (initBoard s0).2 4).1.valid = true ∧
      (getState (makeMove (initBoard s0).2 4).2).1[4]? = some Cell.X ∧
      (getState (makeMove (initBoard s0).2 4).2).2.1 = Mark.O ∧
      (getState (makeMove (initBoard s0).2 4).2).2.2.1 = false) := by
  obtain ⟨hg, hc⟩ := valid_imp s index hv
  refine ⟨?_, ?_, (makeMove_valid_frame s index hg hc).2.2.2.2.1, fun s0 => ?_⟩
  rotate_left 2
  · rw [initBoard_snd]; decide
  all_goals
    rw [makeMove_valid s index hg hc]
    cases hf : firstDone (placed s index) winPatterns with
    | some p =>
      have ha : anyLine (placed s index) = true := by
        cases h : anyLine (placed s index) with
        | true => rfl
        | false => rw [(firstDone_none_iff _).2 h] at hf; cases hf
      simp [ha, (other_ne s.currentPlayer).symm]
    | none =>
      have ha : anyLine (placed s index) = false := (firstDone_none_iff _).1 hf
      by_cases hfull : isBoardFull (placed s index) = true
      · have he : hasEmpty (placed s index) = false := by
          rw [isBoardFull_eq] at hfull; simpa using hfull
        simp [hfull, ha, he, (other_ne s.currentPlayer).symm]
      · have he : hasEmpty (placed s index) = true := by
          rw [isBoardFull_eq] at hfull; simpa using hfull
        simp [hfull, ha, he]

/-- C5: a successful `makeMove` reports `isDraw: true` exactly when the new board has no
completed pattern and no empty cell, and then `gameOver` is true and `winner` is `null`;
when the new board has a completed pattern (also with no cell left) it reports
`isDraw: false` together with a winner. -/
theorem makeMove_draw (s : State) (index : Int) (hv : (makeMove s index).1.valid = true) :
    ((makeMove s index).1.isDraw = some true ↔
      (anyLine (makeMove s index).2.board = false ∧
        hasEmpty (makeMove s index).2.board = false)) ∧
    ((makeMove s index).1.isDraw = some true →
      (makeMove s index).1.gameOver = true ∧ (makeMove s index).2.gameOver = true ∧
      (makeMove s index).1.winner = some none) ∧
    (anyLine (makeMove s index).2.board = true →
      (makeMove s index).1.isDraw = some false ∧ (makeMove s index).1.gameOver = true ∧
      ∃ m : Mark, (makeMove s index).1.winner = some (some m)) := by
  obtain ⟨hg, hc⟩ := valid_imp s index hv
  rw [makeMove_valid s index hg hc]
  cases hf : firstDone (placed s index) winPatterns with
  | some p =>
    have ha : anyLine (placed s index) = true := by
      cases h : anyLine (placed s index) with
      | true => rfl
      | false => rw [(firstDone_none_iff _).2 h] at hf; cases hf
    have hw : ∃ m, GameAI.checkWinner (placed s index) = some m := by
      cases h2 : GameAI.checkWinner (placed s index) with
      | some m => exact ⟨m, rfl⟩
      | none => rw [(ai_checkWinner_eq_none_iff _).1 h2] at ha; cases ha
    obtain ⟨m, hm⟩ := hw
    simp [ha, hm]
  | none =>
    have ha : anyLine (placed s index) = false := (firstDone_none_iff _).1 hf
    by_cases hfull : isBoardFull (placed s index) = true
    · have he : hasEmpty (placed s index) = false := by
        rw [isBoardFull_eq] at hfull; simpa using hfull
      simp [hfull, ha, he]
    · have he : hasEmpty (placed s index) = true := by
        rw [isBoardFull_eq] at hfull; simpa using hfull
      simp [hfull, ha, he]

/-- An applied move at cell 4 of the initial board. -/
theorem makeMove_applied_witness :
    (makeMove loaded 4).1.valid = true ∧
    (makeMove loaded 4).2.moveHistory =
      [{ index := 4, player := Mark.X, board := List.replicate 9 Cell.empty }] :=
  let h := makeMove_applied loaded 4 (by decide) (by decide) (by decide)
  ⟨h.1, h.2.2.2.2⟩

/-- The turn passes to O after X plays the centre of the initial board. -/
theorem makeMove_turn_witness :
    (makeMove loaded 4).1.valid = true ∧ (makeMove loaded 4).2.currentPlayer = Mark.O :=
  ⟨by decide, (makeMove_turn loaded 4 (by decide)).1.2 (by decide)⟩

/-- A full board without a completed pattern, reached by the moves 0,1,2,4,3,5,7,6,8. -/
theorem makeMove_draw_witness :
    (makeMove drawScenario 8).1.valid = true ∧ (makeMove drawScenario 8).1.isDraw = some true :=
  ⟨by decide, (makeMove_draw drawScenario 8 (by decide)).1.2 (by decide)⟩

/-! ## Reachable states of the board engine -/

theorem getElem?_set_mark {b : Board} {k q : Nat} {x : Cell} {m : Mark}
    (hne : x ≠ m.toCell) (h : (b.set k x)[q]? = some m.toCell) : b[q]? = some m.toCell := by
  by_cases hkq : k = q
  · subst hkq
    rw [List.getElem?_set_self'] at h
    cases hb : b[k]? with
    | none => rw [hb] at h; cases h
    | some y =>
      rw [hb] at h
      exact absurd (Option.some.inj h) hne
  · rwa [List.getElem?_set_ne hkq] at h

/-- Writing a cell with another value than `m` creates no line of `m`. -/
theorem lineOf_set_other {b : Board} {k : Nat} {x : Cell} {m : Mark} {p : Pattern}
    (hne : x ≠ m.toCell) (h : lineOf (b.set k x) m p = true) : lineOf b m p = true := by
  rw [lineOf_iff] at h ⊢
  exact ⟨getElem?_set_mark hne h.1, getElem?_set_mark hne h.2.1, getElem?_set_mark hne h.2.2⟩

theorem hasLine_set_other {b : Board} {k : Nat} {x : Cell} {m : Mark}
    (hne : x ≠ m.toCell) (h : hasLine (b.set k x) m = true) : hasLine b m = true := by
  unfold hasLine at h ⊢
  rw [List.any_eq_true] at h ⊢
  obtain ⟨p, hp, hl⟩ := h
  exact ⟨p, hp, lineOf_set_other hne hl⟩

theorem anyLine_false_iff (b : Board) :
    anyLine b = false ↔ ∀ m : Mark, hasLine b m = false := by
  constructor
  · intro h m
    cases hm : hasLine b m with
    | false => rfl
    | true => rw [(anyLine_iff b).2 ⟨m, hm⟩] at h; cases h
  · intro h
    cases ha : anyLine b with
    | false => rfl
    | true =>
      obtain ⟨m, hm⟩ := (anyLine_iff b).1 ha
      rw [h m] at hm; cases hm

/-- On a board without a completed pattern, every line that exists after a mark is written
belongs to the written mark. -/
theorem hasLine_set_mover {b : Board} {k : Nat} {c m : Mark}
    (hb : anyLine b = false) (h : hasLine (b.set k c.toCell) m = true) : m = c := by
  by_contra hne
  have hx : c.toCell ≠ m.toCell := fun he => hne (toCell_injective he).symm
  have := hasLine_set_other hx h
  rw [(anyLine_false_iff b).1 hb m] at this
  cases this


theorem noStaleLine_loaded : NoStaleLine loaded := by
  refine ⟨fun _ => by decide, ?_⟩
  intro e he
  cases he

theorem noStaleLine_makeMove (s : State) (index : Int) (h : NoStaleLine s) :
    NoStaleLine (makeMove s index).2 := by
  by_cases hc : s.gameOver = true ∨ s.board.at index ≠ some Cell.empty
  · rw [makeMove_invalid s index hc]; exact h
  · have hg : s.gameOver = false := by
      cases hgo : s.gameOver with
      | false => rfl
      | true => exact absurd (Or.inl hgo) hc
    have hcell : s.board.at index = some Cell.empty := by
      by_contra h2; exact hc (Or.inr h2)
    have hhist : ∀ e ∈ recorded s index, anyLine e.board = false := by
      intro e he
      rcases List.mem_append.1 he with h1 | h1
      · exact h.2 e h1
      · rw [List.mem_singleton] at h1
        subst h1
        exact h.1 hg
    rw [makeMove_valid s index hg hcell]
    cases hf : firstDone (placed s index) winPatterns with
    | some p => exact ⟨fun hcon => (by cases hcon), hhist⟩
    | none =>
      by_cases hfull : isBoardFull (placed s index) = true
      · simp only [hfull, if_true]
        exact ⟨fun hcon => (by cases hcon), hhist⟩
      · simp only [hfull]
        exact ⟨fun _ => (firstDone_none_iff _).1 hf, hhist⟩

theorem noStaleLine_undoMove (s : State) (h : NoStaleLine s) :
    NoStaleLine (undoMove s).2 := by
  unfold undoMove
  cases hl : s.moveHistory.getLast? with
  | none => exact h
  | some e =>
    have he : e ∈ s.moveHistory := List.mem_of_getLast?_eq_some hl
    refine ⟨fun _ => h.2 e he, ?_⟩
    intro e2 he2
    exact h.2 e2 (List.mem_of_mem_dropLast he2)

theorem reachable_noStaleLine {s : State} (h : Reachable s) : NoStaleLine s := by
  induction h with
  | init s0 => exact noStaleLine_loaded
  | move s index _ ih => exact noStaleLine_makeMove s index ih
  | undo s _ ih => exact noStaleLine_undoMove s ih


/-- C4: in a state reachable from `initialize()` by `makeMove`/`undoMove`, a legal move
that completes some pattern returns `gameOver: true`, `isDraw: false`, the mover as
`winner`, and as `winPattern` the first completed pattern in the order of the table. -/
theorem makeMove_win (s : State) (hr : Reachable s) (index : Int)
    (hg : s.gameOver = false) (hc : s.board.at index = some Cell.empty)
    (hw : anyLine (placed s index) = true) :
    (makeMove s index).1.valid = true ∧
    (makeMove s index).1.gameOver = true ∧
    (makeMove s index).1.isDraw = some false ∧
    (makeMove s index).1.winner = some (some s.currentPlayer) ∧
    (firstDone (placed s index) winPatterns).isSome = true ∧
    (makeMove s index).1.winPattern = firstDone (placed s index) winPatterns ∧
    getWinPattern (makeMove s index).2 = firstDone (placed s index) winPatterns := by
  rw [makeMove_valid s index hg hc]
  cases hf : firstDone (placed s index) winPatterns with
  | none => rw [(firstDone_none_iff _).1 hf] at hw; cases hw
  | some p =>
    obtain ⟨hp, hd⟩ := firstDone_some hf
    obtain ⟨m, hm⟩ := (patternDone_iff _ p).1 hd
    have hline : hasLine (placed s index) m = true := List.any_eq_true.2 ⟨p, hp, hm⟩
    have hmc : m = s.currentPlayer :=
      hasLine_set_mover ((reachable_noStaleLine hr).1 hg) hline
    have hwin : GameAI.checkWinner (placed s index) = some s.currentPlayer := by
      rw [ai_checkWinner_eq_some_iff]
      exact ⟨p, hf, hmc ▸ hm⟩
    simp [hwin, getWinPattern]

/-- The win scenario: on `[X,X,'',O,O,'','','','']` with X to move, `makeMove(2)` reports
`gameOver: true`, `winner: 'X'`, `winPattern: [0,1,2]`. -/
theorem makeMove_win_witness :
    winScenario.board =
      [Cell.X, Cell.X, Cell.empty, Cell.O, Cell.O, Cell.empty, Cell.empty, Cell.empty,
        Cell.empty] ∧
    winScenario.currentPlayer = Mark.X ∧
    (makeMove winScenario 2).1.gameOver = true ∧
    (makeMove winScenario 2).1.winner = some (some Mark.X) ∧
    (makeMove winScenario 2).1.winPattern = some (0, 1, 2) := by
  have hr : Reachable winScenario :=
    Reachable.move _ 4 (Reachable.move _ 1 (Reachable.move _ 3 (Reachable.move _ 0
      (Reachable.init loaded))))
  have h := makeMove_win winScenario hr 2 (by decide) (by decide) (by decide)
  refine ⟨by decide, by decide, h.2.1, h.2.2.2.1, ?_⟩
  rw [h.2.2.2.2.2.1]
  decide

/-! ## Boards: writing and clearing a cell -/

theorem set_restore {b : Board} {i : Nat} (x : Cell) (h : b[i]? = some Cell.empty) :
    (b.set i x).set i Cell.empty = b := by
  rw [List.set_set]
  apply List.ext_getElem?
  intro j
  by_cases hij : i = j
  · subst hij
    rw [List.getElem?_set_self', h]
    rfl
  · rw [List.getElem?_set_ne hij]

theorem countEmpty_set {b : Board} {i : Nat} (m : Mark) (h : b[i]? = some Cell.empty) :
    countEmpty (b.set i m.toCell) + 1 = countEmpty b := by
  induction b generalizing i with
  | nil => simp at h
  | cons c rest ih =>
    cases i with
    | zero =>
      simp only [List.getElem?_cons_zero, Option.some.injEq] at h
      subst h
      simp [countEmpty, List.set, List.count_cons, toCell_ne_empty m]
    | succ k =>
      simp only [List.getElem?_cons_succ] at h
      have := ih h
      simp only [countEmpty, List.set, List.count_cons] at this ⊢
      omega

theorem hasEmpty_iff (b : Board) :
    hasEmpty b = true ↔ ∃ i, i < b.length ∧ b[i]? = some Cell.empty := by
  simp only [hasEmpty, List.contains_iff_exists_mem_beq, beq_iff_eq]
  constructor
  · rintro ⟨c, hc, rfl⟩
    obtain ⟨i, hi, hget⟩ := List.getElem_of_mem hc
    exact ⟨i, hi, by rw [List.getElem?_eq_getElem hi, hget]⟩
  · rintro ⟨i, hi, hget⟩
    refine ⟨Cell.empty, ?_, rfl⟩
    rw [List.getElem?_eq_getElem hi] at hget
    rw [← Option.some.inj hget]
    exact List.getElem_mem hi

theorem isBoardFull_false_iff (b : Board) :
    isBoardFull b = false ↔ ∃ i, i < b.length ∧ b[i]? = some Cell.empty := by
  rw [isBoardFull_eq, ← hasEmpty_iff]
  cases hasEmpty b <;> simp

theorem countEmpty_pos_of_get {b : Board} {i : Nat} (h : b[i]? = some Cell.empty) :
    0 < countEmpty b := by
  have := countEmpty_set Mark.X h
  omega

theorem length_set_cell (b : Board) (i : Nat) (x : Cell) : (b.set i x).length = b.length := by
  simp

/-! ## Scores -/

theorem Score.gt_irrefl (a : Score) : Score.gt a a = false := by
  cases a <;> simp [Score.gt]

theorem Score.le_trans {a b c : Score} (h1 : Score.gt a b = false) (h2 : Score.gt b c = false) :
    Score.gt a c = false := by
  cases a <;> cases b <;> cases c <;> simp [Score.gt] at * <;> omega

theorem Score.max_sel (s t : Score) : Score.max s t = s ∨ Score.max s t = t := by
  unfold Score.max
  split
  · exact Or.inr rfl
  · exact Or.inl rfl

theorem Score.min_sel (s t : Score) : Score.min s t = s ∨ Score.min s t = t := by
  unfold Score.min
  split
  · exact Or.inr rfl
  · exact Or.inl rfl

theorem Score.le_max_right (s t : Score) : Score.gt t (Score.max s t) = false := by
  unfold Score.max
  split
  · exact Score.gt_irrefl t
  · rename_i h; simpa using h

theorem Score.le_max_left (s t : Score) : Score.gt s (Score.max s t) = false := by
  unfold Score.max
  split
  · rename_i h
    cases s <;> cases t <;> simp [Score.gt] at * <;> omega
  · exact Score.gt_irrefl s

theorem Score.min_le_right (s t : Score) : Score.gt (Score.min s t) t = false := by
  unfold Score.min
  split
  · exact Score.gt_irrefl t
  · rename_i h; simpa using h

theorem Score.min_le_left (s t : Score) : Score.gt (Score.min s t) s = false := by
  unfold Score.min
  split
  · rename_i h
    cases s <;> cases t <;> simp [Score.gt] at * <;> omega
  · exact Score.gt_irrefl s

theorem Score.gt_fin (a b : Int) : Score.gt (Score.fin a) (Score.fin b) = decide (b < a) := rfl

/-! ## The search loop -/

/-- The loop of `minimax`, for a way of combining that selects one of its arguments and an
order `le` in which the combination is above both: when every recursive call on a written
empty cell returns with the board as it received it, the loop returns with the board
restored; the final score is the initial one or the score of a call, and it is above the
initial score and the score of every call. -/
theorem searchLoop_spec (search : Board → Option (Score × Board)) (mark : Mark)
    (combine : Score → Score → Score) (le : Score → Score → Prop)
    (hrefl : ∀ a, le a a) (htrans : ∀ a b c, le a b → le b c → le a c)
    (hsel : ∀ s t, combine s t = s ∨ combine s t = t)
    (hl : ∀ s t, le t (combine s t)) (hr : ∀ s t, le s (combine s t)) (b : Board) :
    ∀ (is : List Nat) (best : Score),
      (∀ i ∈ is, b[i]? = some Cell.empty →
        ∃ s, search (b.set i mark.toCell) = some (s, b.set i mark.toCell)) →
      ∃ r, GameAI.searchLoop search mark combine is best b = some (r, b) ∧
        (r = best ∨ ∃ i ∈ is, b[i]? = some Cell.empty ∧
          search (b.set i mark.toCell) = some (r, b.set i mark.toCell)) ∧
        le best r ∧
        (∀ i ∈ is, b[i]? = some Cell.empty → ∀ s bd,
          search (b.set i mark.toCell) = some (s, bd) → le s r) := by
  intro is
  induction is with
  | nil =>
    intro best _
    refine ⟨best, rfl, Or.inl rfl, hrefl best, ?_⟩
    intro i hi
    cases hi
  | cons i rest ih =>
    intro best htot
    have htot' : ∀ j ∈ rest, b[j]? = some Cell.empty →
        ∃ s, search (b.set j mark.toCell) = some (s, b.set j mark.toCell) :=
      fun j hj => htot j (List.mem_cons_of_mem i hj)
    by_cases hcell : b[i]? = some Cell.empty
    · obtain ⟨s, hs⟩ := htot i (List.mem_cons_self i rest) hcell
      obtain ⟨r, hrun, hatt, hbest, hall⟩ := ih (combine s best) htot'
      refine ⟨r, ?_, ?_, htrans _ _ _ (hl s best) hbest, ?_⟩
      · simp only [GameAI.searchLoop, if_pos hcell, hs, set_restore _ hcell]
        exact hrun
      · rcases hatt with h | ⟨j, hj, hjc, hjs⟩
        · rcases hsel s best with h2 | h2
          · right
            refine ⟨i, List.mem_cons_self i rest, hcell, ?_⟩
            rw [h, h2]; exact hs
          · left; rw [h, h2]
        · right
          exact ⟨j, List.mem_cons_of_mem i hj, hjc, hjs⟩
      · intro j hj hjc s2 bd hs2
        rcases List.mem_cons.1 hj with h | h
        · subst h
          rw [hs] at hs2
          have : s = s2 := by injection hs2 with h3; injection h3
          subst this
          exact htrans _ _ _ (hr s best) hbest
        · exact hall j h hjc s2 bd hs2
    · obtain ⟨r, hrun, hatt, hbest, hall⟩ := ih best htot'
      refine ⟨r, ?_, ?_, hbest, ?_⟩
      · simp only [GameAI.searchLoop, if_neg hcell]
        exact hrun
      · rcases hatt with h | ⟨j, hj, hjc, hjs⟩
        · exact Or.inl h
        · right
          exact ⟨j, List.mem_cons_of_mem i hj, hjc, hjs⟩
      · intro j hj hjc s2 bd hs2
        rcases List.mem_cons.1 hj with h | h
        · subst h; exact absurd hjc hcell
        · exact hall j h hjc s2 bd hs2

/-! ## `minimax`: defining equations -/

theorem minimax_win (fuel : Nat) (b : Board) (d : Int) (im : Bool) (pm om : Mark)
    (h : GameAI.checkWinner b = some pm) :
    GameAI.minimax fuel b d im pm om = some (Score.fin (10 - d), b) := by
  cases fuel <;> simp [GameAI.minimax, h]

theorem minimax_loss (fuel : Nat) (b : Board) (d : Int) (im : Bool) (pm om : Mark)
    (h1 : GameAI.checkWinner b ≠ some pm) (h2 : GameAI.checkWinner b = some om) :
    GameAI.minimax fuel b d im pm om = some (Score.fin (d - 10), b) := by
  have h3 : ¬ (some om = some pm) := fun h => h1 (h2.trans h)
  cases fuel <;> simp [GameAI.minimax, h2, h3]

theorem minimax_full (fuel : Nat) (b : Board) (d : Int) (im : Bool) (pm om : Mark)
    (h1 : GameAI.checkWinner b ≠ some pm) (h2 : GameAI.checkWinner b ≠ some om)
    (h3 : isBoardFull b = true) :
    GameAI.minimax fuel b d im pm om = some (Score.fin 0, b) := by
  cases fuel <;> simp [GameAI.minimax, h1, h2, h3]

theorem minimax_exhausted (b : Board) (d : Int) (im : Bool) (pm om : Mark)
    (h1 : GameAI.checkWinner b ≠ some pm) (h2 : GameAI.checkWinner b ≠ some om)
    (h3 : isBoardFull b = false) :
    GameAI.minimax 0 b d im pm om = none := by
  simp [GameAI.minimax, h1, h2, h3]

theorem minimax_step_max (fuel : Nat) (b : Board) (d : Int) (pm om : Mark)
    (h1 : GameAI.checkWinner b ≠ some pm) (h2 : GameAI.checkWinner b ≠ some om)
    (h3 : isBoardFull b = false) :
    GameAI.minimax (fuel + 1) b d true pm om =
      GameAI.searchLoop (fun b1 => GameAI.minimax fuel b1 (d + 1) false pm om) pm
        (fun score bestScore => Score.max score bestScore)
        (List.range b.length) Score.negInf b := by
  simp [GameAI.minimax, h1, h2, h3]

theorem minimax_step_min (fuel : Nat) (b : Board) (d : Int) (pm om : Mark)
    (h1 : GameAI.checkWinner b ≠ some pm) (h2 : GameAI.checkWinner b ≠ some om)
    (h3 : isBoardFull b = false) :
    GameAI.minimax (fuel + 1) b d false pm om =
      GameAI.searchLoop (fun b1 => GameAI.minimax fuel b1 (d + 1) true pm om) om
        (fun score bestScore => Score.min score bestScore)
        (List.range b.length) Score.posInf b := by
  simp [GameAI.minimax, h1, h2, h3]

theorem mem_range_of_get {b : Board} {i : Nat} {c : Cell} (h : b[i]? = some c) :
    i ∈ List.range b.length := by
  rw [List.mem_range]
  by_contra hlt
  rw [List.getElem?_eq_none (by omega)] at h
  cases h

/-- A maximizing node that is not terminal: when every call on a child returns a finite
score and its board, the node returns the greatest child score and its own board. -/
theorem minimax_max_node (fuel : Nat) (b : Board) (d : Int) (pm om : Mark)
    (h1 : GameAI.checkWinner b ≠ some pm) (h2 : GameAI.checkWinner b ≠ some om)
    (h3 : isBoardFull b = false)
    (htot : ∀ i, b[i]? = some Cell.empty → ∃ u : Int,
      GameAI.minimax fuel (b.set i pm.toCell) (d + 1) false pm om =
        some (Score.fin u, b.set i pm.toCell)) :
    ∃ v : Int, GameAI.minimax (fuel + 1) b d true pm om = some (Score.fin v, b) ∧
      (∃ i, b[i]? = some Cell.empty ∧
        GameAI.minimax fuel (b.set i pm.toCell) (d + 1) false pm om =
          some (Score.fin v, b.set i pm.toCell)) ∧
      (∀ i u, b[i]? = some Cell.empty →
        GameAI.minimax fuel (b.set i pm.toCell) (d + 1) false pm om =
          some (Score.fin u, b.set i pm.toCell) → u ≤ v) := by
  rw [minimax_step_max fuel b d pm om h1 h2 h3]
  obtain ⟨r, hrun, hatt, _, hall⟩ :=
    searchLoop_spec (fun b1 => GameAI.minimax fuel b1 (d + 1) false pm om) pm
      (fun score bestScore => Score.max score bestScore)
      (fun a c => Score.gt a c = false) Score.gt_irrefl
      (fun _ _ _ hab hbc => Score.le_trans hab hbc) Score.max_sel Score.le_max_right
      Score.le_max_left b (List.range b.length) Score.negInf
      (fun i _ hc => by
        obtain ⟨u, hu⟩ := htot i hc
        exact ⟨_, hu⟩)
  obtain ⟨i0, _, hi0⟩ := (isBoardFull_false_iff b).1 h3
  obtain ⟨u0, hu0⟩ := htot i0 hi0
  have hle0 := hall i0 (mem_range_of_get hi0) hi0 _ _ hu0
  rcases hatt with h | ⟨i, _, hic, his⟩
  · subst h
    simp [Score.gt] at hle0
  · obtain ⟨u, hu⟩ := htot i hic
    have hr : r = Score.fin u := by
      have := hu.symm.trans his
      injection this with h4
      injection h4 with h5
      exact h5.symm
    subst hr
    refine ⟨u, hrun, ⟨i, hic, hu⟩, ?_⟩
    intro j w hjc hw
    have := hall j (mem_range_of_get hjc) hjc _ _ hw
    simpa [Score.gt] using this

/-- A minimizing node that is not terminal: when every call on a child returns a finite
score and its board, the node returns the least child score and its own board. -/
theorem minimax_min_node (fuel : Nat) (b : Board) (d : Int) (pm om : Mark)
    (h1 : GameAI.checkWinner b ≠ some pm) (h2 : GameAI.checkWinner b ≠ some om)
    (h3 : isBoardFull b = false)
    (htot : ∀ i, b[i]? = some Cell.empty → ∃ u : Int,
      GameAI.minimax fuel (b.set i om.toCell) (d + 1) true pm om =
        some (Score.fin u, b.set i om.toCell)) :
    ∃ v : Int, GameAI.minimax (fuel + 1) b d false pm om = some (Score.fin v, b) ∧
      (∃ i, b[i]? = some Cell.empty ∧
        GameAI.minimax fuel (b.set i om.toCell) (d + 1) true pm om =
          some (Score.fin v, b.set i om.toCell)) ∧
      (∀ i u, b[i]? = some Cell.empty →
        GameAI.minimax fuel (b.set i om.toCell) (d + 1) true pm om =
          some (Score.fin u, b.set i om.toCell) → v ≤ u) := by
  rw [minimax_step_min fuel b d pm om h1 h2 h3]
  obtain ⟨r, hrun, hatt, _, hall⟩ :=
    searchLoop_spec (fun b1 => GameAI.minimax fuel b1 (d + 1) true pm om) om
      (fun score bestScore => Score.min score bestScore)
      (fun a c => Score.gt c a = false) Score.gt_irrefl
      (fun _ _ _ hab hbc => Score.le_trans hbc hab) Score.min_sel Score.min_le_right
      Score.min_le_left b (List.range b.length) Score.posInf
      (fun i _ hc => by
        obtain ⟨u, hu⟩ := htot i hc
        exact ⟨_, hu⟩)
  obtain ⟨i0, _, hi0⟩ := (isBoardFull_false_iff b).1 h3
  obtain ⟨u0, hu0⟩ := htot i0 hi0
  have hle0 := hall i0 (mem_range_of_get hi0) hi0 _ _ hu0
  rcases hatt with h | ⟨i, _, hic, his⟩
  · subst h
    simp [Score.gt] at hle0
  · obtain ⟨u, hu⟩ := htot i hic
    have hr : r = Score.fin u := by
      have := hu.symm.trans his
      injection this with h4
      injection h4 with h5
      exact h5.symm
    subst hr
    refine ⟨u, hrun, ⟨i, hic, hu⟩, ?_⟩
    intro j w hjc hw
    have := hall j (mem_range_of_get hjc) hjc _ _ hw
    simpa [Score.gt] using this

/-- With at least as much fuel as there are empty cells, `minimax` returns a finite score
and leaves the board as it received it. -/
theorem minimax_total (pm om : Mark) :
    ∀ (fuel : Nat) (b : Board) (d : Int) (im : Bool), countEmpty b ≤ fuel →
      ∃ v : Int, GameAI.minimax fuel b d im pm om = some (Score.fin v, b) := by
  intro fuel
  induction fuel with
  | zero =>
    intro b d im hf
    by_cases h1 : GameAI.checkWinner b = some pm
    · exact ⟨_, minimax_win 0 b d im pm om h1⟩
    by_cases h2 : GameAI.checkWinner b = some om
    · exact ⟨_, minimax_loss 0 b d im pm om h1 h2⟩
    cases h3 : isBoardFull b with
    | true => exact ⟨_, minimax_full 0 b d im pm om h1 h2 h3⟩
    | false =>
      obtain ⟨i, _, hi⟩ := (isBoardFull_false_iff b).1 h3
      have := countEmpty_pos_of_get hi
      omega
  | succ fuel ih =>
    intro b d im hf
    by_cases h1 : GameAI.checkWinner b = some pm
    · exact ⟨_, minimax_win _ b d im pm om h1⟩
    by_cases h2 : GameAI.checkWinner b = some om
    · exact ⟨_, minimax_loss _ b d im pm om h1 h2⟩
    cases h3 : isBoardFull b with
    | true => exact ⟨_, minimax_full _ b d im pm om h1 h2 h3⟩
    | false =>
      cases im with
      | true =>
        obtain ⟨v, hv, _⟩ := minimax_max_node fuel b d pm om h1 h2 h3 (fun i hi =>
          ih _ _ _ (by have := countEmpty_set pm hi; omega))
        exact ⟨v, hv⟩
      | false =>
        obtain ⟨v, hv, _⟩ := minimax_min_node fuel b d pm om h1 h2 h3 (fun i hi =>
          ih _ _ _ (by have := countEmpty_set om hi; omega))
        exact ⟨v, hv⟩

/-! ## `minimaxMove` -/

theorem Score.gt_of_le_of_gt {s t best : Score} (h1 : Score.gt s best = false)
    (h2 : Score.gt t best = true) : Score.gt t s = true := by
  cases s <;> cases t <;> cases best <;> simp [Score.gt] at * <;> omega

theorem Score.gt_trans {a b c : Score} (h1 : Score.gt a b = true) (h2 : Score.gt b c = true) :
    Score.gt a c = true := by
  cases a <;> cases b <;> cases c <;> simp [Score.gt] at * <;> omega

/-- The loop of `minimaxMove`: when every call of `minimax` on a written empty cell returns
a finite score and its board, the loop returns with the board restored; either no
remaining empty cell scores above `bestScore` and `bestMove` is kept, or the result is the
first remaining empty cell whose score is above `bestScore` and is greatest. -/
theorem minimaxMoveLoop_spec (fuel : Nat) (pm om : Mark) (b : Board)
    (htot : ∀ i, b[i]? = some Cell.empty → ∃ u : Int,
      GameAI.minimax fuel (b.set i pm.toCell) 0 false pm om =
        some (Score.fin u, b.set i pm.toCell)) :
    ∀ (is : List Nat) (bestScore : Score) (bestMove : Int),
      ∃ mv, GameAI.minimaxMoveLoop fuel pm om is bestScore bestMove b = some (mv, b) ∧
        ((mv = bestMove ∧ ∀ i ∈ is, b[i]? = some Cell.empty → ∀ u : Int,
            GameAI.minimax fuel (b.set i pm.toCell) 0 false pm om =
              some (Score.fin u, b.set i pm.toCell) → Score.gt (Score.fin u) bestScore = false) ∨
         (∃ (pre : List Nat) (i : Nat) (post : List Nat) (u : Int), is = pre ++ i :: post ∧ mv = (i : Int) ∧ b[i]? = some Cell.empty ∧
            GameAI.minimax fuel (b.set i pm.toCell) 0 false pm om =
              some (Score.fin u, b.set i pm.toCell) ∧
            Score.gt (Score.fin u) bestScore = true ∧
            (∀ j ∈ pre, b[j]? = some Cell.empty → ∀ w : Int,
              GameAI.minimax fuel (b.set j pm.toCell) 0 false pm om =
                some (Score.fin w, b.set j pm.toCell) → w < u) ∧
            (∀ j ∈ post, b[j]? = some Cell.empty → ∀ w : Int,
              GameAI.minimax fuel (b.set j pm.toCell) 0 false pm om =
                some (Score.fin w, b.set j pm.toCell) → w ≤ u))) := by
  intro is
  induction is with
  | nil =>
    intro bestScore bestMove
    refine ⟨bestMove, rfl, Or.inl ⟨rfl, ?_⟩⟩
    intro i hi
    cases hi
  | cons i rest ih =>
    intro bestScore bestMove
    by_cases hcell : b[i]? = some Cell.empty
    · obtain ⟨u, hu⟩ := htot i hcell
      by_cases hgt : Score.gt (Score.fin u) bestScore = true
      · obtain ⟨mv, hrun, hres⟩ := ih (Score.fin u) (i : Int)
        refine ⟨mv, ?_, Or.inr ?_⟩
        · simp only [GameAI.minimaxMoveLoop, if_pos hcell, hu, hgt, if_true,
            set_restore _ hcell]
          exact hrun
        · rcases hres with ⟨hmv, hall⟩ | ⟨pre, k, post, w, hsplit, hmv, hkc, hk, hkgt, hpre, hpost⟩
          · refine ⟨[], i, rest, u, rfl, hmv, hcell, hu, hgt, ?_, ?_⟩
            · intro j hj; cases hj
            · intro j hj hjc w hw
              have := hall j hj hjc w hw
              simpa [Score.gt] using this
          · refine ⟨i :: pre, k, post, w, by rw [hsplit]; rfl, hmv, hkc, hk, ?_, ?_, hpost⟩
            · exact Score.gt_trans hkgt hgt
            · intro j hj hjc x hx
              rcases List.mem_cons.1 hj with h | h
              · subst h
                rw [hu] at hx
                have : u = x := by
                  injection hx with h3; injection h3 with h4; injection h4
                subst this
                simpa [Score.gt] using hkgt
              · exact hpre j h hjc x hx
      · have hgt' : Score.gt (Score.fin u) bestScore = false := by simpa using hgt
        obtain ⟨mv, hrun, hres⟩ := ih bestScore bestMove
        refine ⟨mv, ?_, ?_⟩
        · simp only [GameAI.minimaxMoveLoop, if_pos hcell, hu, hgt', Bool.false_eq_true,
            if_false, set_restore _ hcell]
          exact hrun
        · rcases hres with ⟨hmv, hall⟩ | ⟨pre, k, post, w, hsplit, hmv, hkc, hk, hkgt, hpre, hpost⟩
          · left
            refine ⟨hmv, ?_⟩
            intro j hj hjc x hx
            rcases List.mem_cons.1 hj with h | h
            · subst h
              rw [hu] at hx
              have : u = x := by
                injection hx with h3; injection h3 with h4; injection h4
              subst this
              exact hgt'
            · exact hall j h hjc x hx
          · right
            refine ⟨i :: pre, k, post, w, by rw [hsplit]; rfl, hmv, hkc, hk, hkgt, ?_, hpost⟩
            intro j hj hjc x hx
            rcases List.mem_cons.1 hj with h | h
            · subst h
              rw [hu] at hx
              have : u = x := by
                injection hx with h3; injection h3 with h4; injection h4
              subst this
              have := Score.gt_of_le_of_gt hgt' hkgt
              simpa [Score.gt] using this
            · exact hpre j h hjc x hx
    · obtain ⟨mv, hrun, hres⟩ := ih bestScore bestMove
      refine ⟨mv, ?_, ?_⟩
      · simp only [GameAI.minimaxMoveLoop, if_neg hcell]
        exact hrun
      · rcases hres with ⟨hmv, hall⟩ | ⟨pre, k, post, w, hsplit, hmv, hkc, hk, hkgt, hpre, hpost⟩
        · left
          refine ⟨hmv, ?_⟩
          intro j hj hjc x hx
          rcases List.mem_cons.1 hj with h | h
          · subst h; exact absurd hjc hcell
          · exact hall j h hjc x hx
        · right
          refine ⟨i :: pre, k, post, w, by rw [hsplit]; rfl, hmv, hkc, hk, hkgt, ?_, hpost⟩
          intro j hj hjc x hx
          rcases List.mem_cons.1 hj with h | h
          · subst h; exact absurd hjc hcell
          · exact hpre j h hjc x hx

theorem countEmpty_le_length (b : Board) : countEmpty b ≤ b.length :=
  List.count_le_length _ _

/-- Every call of `minimax` made by `minimaxMove` returns a finite score and its board. -/
theorem minimaxMove_calls_total (b : Board) (pm : Mark) (i : Nat)
    (hi : b[i]? = some Cell.empty) :
    ∃ u : Int, GameAI.minimax b.length (b.set i pm.toCell) 0 false pm pm.other =
      some (Score.fin u, b.set i pm.toCell) := by
  apply minimax_total
  have h1 := countEmpty_set pm hi
  have h2 := countEmpty_le_length b
  omega

/-! ## Rounding to a double -/

theorem ratFloor_eq (q : ℚ) : Rat.floor q = ⌊q⌋ := rfl

theorem nearestEven_cases (q : ℚ) :
    (Float64.nearestEven q = ⌊q⌋ ∧ q - (⌊q⌋ : ℚ) ≤ 1 / 2) ∨
    (Float64.nearestEven q = ⌊q⌋ + 1 ∧ 1 / 2 ≤ q - (⌊q⌋ : ℚ)) := by
  unfold Float64.nearestEven
  simp only [ratFloor_eq]
  split_ifs with h1 h2 h3
  · exact Or.inl ⟨rfl, h1.le⟩
  · exact Or.inr ⟨rfl, h2.le⟩
  · exact Or.inl ⟨rfl, not_lt.1 h2⟩
  · exact Or.inr ⟨rfl, not_lt.1 h1⟩

theorem nearestEven_le (q : ℚ) : (Float64.nearestEven q : ℚ) ≤ q + 1 / 2 := by
  have hf := Int.floor_le q
  rcases nearestEven_cases q with ⟨h, _⟩ | ⟨h, h2⟩
  · rw [h]; linarith
  · rw [h]; push_cast; linarith

theorem nearestEven_ge (q : ℚ) : q - 1 / 2 ≤ (Float64.nearestEven q : ℚ) := by
  have hf := Int.lt_floor_add_one q
  rcases nearestEven_cases q with ⟨h, h2⟩ | ⟨h, _⟩
  · rw [h]; linarith
  · rw [h]; push_cast; linarith

theorem nearestEven_intCast (z : Int) : Float64.nearestEven (z : ℚ) = z := by
  unfold Float64.nearestEven
  simp only [ratFloor_eq, Int.floor_intCast, sub_self]
  rw [if_pos (by norm_num)]

/-- An integer below `q` is below the integer nearest to `q`. -/
theorem le_nearestEven {q : ℚ} {j : Int} (h : (j : ℚ) ≤ q) : j ≤ Float64.nearestEven q := by
  have hj : j ≤ ⌊q⌋ := Int.le_floor.2 h
  rcases nearestEven_cases q with ⟨h1, _⟩ | ⟨h1, _⟩ <;> rw [h1] <;> omega

/-- An integer above `q` is above the integer nearest to `q`. -/
theorem nearestEven_le_of_le {q : ℚ} {j : Int} (h : q ≤ (j : ℚ)) :
    Float64.nearestEven q ≤ j := by
  rcases nearestEven_cases q with ⟨h1, _⟩ | ⟨h1, h2⟩
  · rw [h1]
    have : (⌊q⌋ : ℚ) ≤ (j : ℚ) := le_trans (Int.floor_le q) h
    exact_mod_cast this
  · rw [h1]
    have : (⌊q⌋ : ℚ) < (j : ℚ) := by linarith
    have h3 : ⌊q⌋ < j := by exact_mod_cast this
    omega

theorem nearestEven_eq_of_lt {q : ℚ} {f : Int} (h1 : (f : ℚ) ≤ q) (h2 : q < (f : ℚ) + 1 / 2) :
    Float64.nearestEven q = f := by
  have hf : ⌊q⌋ = f := Int.floor_eq_iff.2 ⟨h1, by linarith⟩
  unfold Float64.nearestEven
  simp only [ratFloor_eq, hf]
  rw [if_pos (by linarith)]

theorem nearestEven_eq_of_gt {q : ℚ} {f : Int} (h1 : (f : ℚ) + 1 / 2 < q)
    (h2 : q < (f : ℚ) + 1) : Float64.nearestEven q = f + 1 := by
  have hf : ⌊q⌋ = f := Int.floor_eq_iff.2 ⟨by linarith, h2⟩
  unfold Float64.nearestEven
  simp only [ratFloor_eq, hf]
  rw [if_neg (by linarith), if_pos (by linarith)]

theorem ulp_pos (x : ℚ) : 0 < Float64.ulp x := by
  unfold Float64.ulp
  exact zpow_pos (by norm_num) _

/-- The spacing of the doubles around a number below 2^53 is one over a power of two. -/
theorem ulp_eq_inv_pow {x : ℚ} (hx : |x| < 2 ^ 53) :
    ∃ t : Nat, Float64.ulp x = ((2 : ℚ) ^ t)⁻¹ := by
  have hlog : Int.log 2 |x| ≤ 52 := by
    rcases (abs_nonneg x).eq_or_lt with h0 | hpos
    · rw [← h0, Int.log_zero_right]; norm_num
    · have h1 : |x| < ((2 : Nat) : ℚ) ^ (53 : Int) := by
        norm_num
        exact hx
      have := (Int.lt_zpow_iff_log_lt (by norm_num : 1 < 2) hpos).1 h1
      omega
  have hz : max (Int.log 2 |x| - 52) (-1074) ≤ 0 := max_le (by omega) (by norm_num)
  refine ⟨(-(max (Int.log 2 |x| - 52) (-1074))).toNat, ?_⟩
  unfold Float64.ulp
  rw [← zpow_natCast, ← zpow_neg, Int.toNat_of_nonneg (by omega), neg_neg]

/-- Rounding moves a number by at most half the spacing. -/
theorem round_le_add (x : ℚ) : Float64.round x ≤ x + Float64.ulp x / 2 := by
  have hu := ulp_pos x
  have h := nearestEven_le (x / Float64.ulp x)
  unfold Float64.round
  calc (Float64.nearestEven (x / Float64.ulp x) : ℚ) * Float64.ulp x
      ≤ (x / Float64.ulp x + 1 / 2) * Float64.ulp x :=
        mul_le_mul_of_nonneg_right h hu.le
    _ = x + Float64.ulp x / 2 := by
        field_simp
        ring

theorem round_zero : Float64.round 0 = 0 := by
  unfold Float64.round
  rw [zero_div]
  have : Float64.nearestEven 0 = 0 := by
    have := nearestEven_intCast 0
    simpa using this
  rw [this]
  simp

/-- A number whose quotient by the spacing is an integer is a double. -/
theorem round_eq_self_of_int {x : ℚ} {z : Int} (h : x / Float64.ulp x = (z : ℚ)) :
    Float64.round x = x := by
  have hu := ulp_pos x
  unfold Float64.round
  rw [h, nearestEven_intCast, ← h]
  field_simp

/-- Below 2^53 rounding does not cross an integer: an integer below `x` is below the
rounded `x`. -/
theorem intCast_le_round {x : ℚ} {j : Int} (hx : |x| < 2 ^ 53) (h : (j : ℚ) ≤ x) :
    (j : ℚ) ≤ Float64.round x := by
  obtain ⟨t, ht⟩ := ulp_eq_inv_pow hx
  unfold Float64.round
  rw [ht, div_inv_eq_mul]
  have hp : (0 : ℚ) < (2 : ℚ) ^ t := by positivity
  have h1 : ((j * 2 ^ t : Int) : ℚ) ≤ x * 2 ^ t := by
    push_cast
    exact mul_le_mul_of_nonneg_right h hp.le
  have h2 : ((j * 2 ^ t : Int) : ℚ) ≤ (Float64.nearestEven (x * 2 ^ t) : ℚ) := by
    exact_mod_cast le_nearestEven h1
  push_cast at h2
  rw [le_mul_inv_iff₀ hp]
  exact h2

/-- Below 2^53 an integer above `x` is above the rounded `x`. -/
theorem round_le_intCast {x : ℚ} {j : Int} (hx : |x| < 2 ^ 53) (h : x ≤ (j : ℚ)) :
    Float64.round x ≤ (j : ℚ) := by
  obtain ⟨t, ht⟩ := ulp_eq_inv_pow hx
  unfold Float64.round
  rw [ht, div_inv_eq_mul]
  have hp : (0 : ℚ) < (2 : ℚ) ^ t := by positivity
  have h1 : x * 2 ^ t ≤ ((j * 2 ^ t : Int) : ℚ) := by
    push_cast
    exact mul_le_mul_of_nonneg_right h hp.le
  have h2 : (Float64.nearestEven (x * 2 ^ t) : ℚ) ≤ ((j * 2 ^ t : Int) : ℚ) := by
    exact_mod_cast nearestEven_le_of_le h1
  push_cast at h2
  rw [mul_inv_le_iff₀ hp]
  exact h2

/-- Below 2^53 the floor of the rounded number is the floor of the number or one more. -/
theorem floor_round_cases {x : ℚ} (hx : |x| < 2 ^ 53) :
    ⌊x⌋ ≤ ⌊Float64.round x⌋ ∧ ⌊Float64.round x⌋ ≤ ⌊x⌋ + 1 := by
  constructor
  · exact Int.le_floor.2 (intCast_le_round hx (Int.floor_le x))
  · have h1 : x ≤ ((⌊x⌋ + 1 : Int) : ℚ) := by
      push_cast
      exact (Int.lt_floor_add_one x).le
    have h2 := round_le_intCast hx h1
    have h3 : (⌊Float64.round x⌋ : ℚ) ≤ ((⌊x⌋ + 1 : Int) : ℚ) :=
      le_trans (Int.floor_le _) h2
    exact_mod_cast h3

/-- Rounding raises a non-negative number by at most a relative `2^(-53)`, unless the
result is below 1 (as in the subnormal range, where the spacing is fixed). -/
theorem round_le_rel {x : ℚ} (hx : 0 ≤ x) :
    Float64.round x ≤ x * (1 + 1 / 2 ^ 53) ∨ Float64.round x < 1 := by
  rcases hx.eq_or_lt with h0 | hpos
  · right
    rw [← h0, round_zero]
    norm_num
  have habs : |x| = x := abs_of_pos hpos
  have hlo : ((2 : Nat) : ℚ) ^ Int.log 2 x ≤ x := Int.zpow_log_le_self (by norm_num) hpos
  have hhi : x < ((2 : Nat) : ℚ) ^ (Int.log 2 x + 1) :=
    Int.lt_zpow_succ_log_self (by norm_num) x
  have hr := round_le_add x
  by_cases hn : -1074 ≤ Int.log 2 x - 52
  · left
    have hu : Float64.ulp x = (2 : ℚ) ^ (Int.log 2 x) * (1 / 2 ^ 52) := by
      unfold Float64.ulp
      rw [habs, max_eq_left hn, zpow_sub₀ (by norm_num), div_eq_mul_one_div]
      norm_num
    have hlo2 : (2 : ℚ) ^ Int.log 2 x ≤ x := by exact_mod_cast hlo
    rw [hu] at hr
    have : (2 : ℚ) ^ Int.log 2 x * (1 / 2 ^ 52) / 2 ≤ x * (1 / 2 ^ 53) := by
      have := mul_le_mul_of_nonneg_right hlo2 (by norm_num : (0 : ℚ) ≤ 1 / 2 ^ 53)
      linarith
    linarith
  · right
    have hu : Float64.ulp x = (2 : ℚ) ^ (-1074 : Int) := by
      unfold Float64.ulp
      rw [habs, max_eq_right (by omega)]
    have hx2 : x < (2 : ℚ) ^ (-1022 : Int) := by
      have h1 : (2 : ℚ) ^ (Int.log 2 x + 1) ≤ (2 : ℚ) ^ (-1022 : Int) :=
        zpow_le_zpow_right₀ (by norm_num) (by omega)
      have h2 : x < (2 : ℚ) ^ (Int.log 2 x + 1) := by exact_mod_cast hhi
      linarith
    rw [hu] at hr
    have h3 : (2 : ℚ) ^ (-1022 : Int) ≤ 1 / 4 :=
      le_trans (zpow_le_zpow_right₀ (by norm_num) (by norm_num : (-1022 : Int) ≤ -2))
        (by norm_num)
    have h4 : (2 : ℚ) ^ (-1074 : Int) ≤ 1 / 4 :=
      le_trans (zpow_le_zpow_right₀ (by norm_num) (by norm_num : (-1074 : Int) ≤ -2))
        (by norm_num)
    generalize (2 : ℚ) ^ (-1022 : Int) = a at hx2 h3
    generalize (2 : ℚ) ^ (-1074 : Int) = b at hr h4
    linarith

/-- A double below 1 is at most `1 - 2^(-53)`. -/
theorem isDraw_le {r : ℚ} (h : Float64.IsDraw r) : r ≤ 1 - 1 / 2 ^ 53 := by
  obtain ⟨h0, h1, hr⟩ := h
  rcases h0.eq_or_lt with hz | hpos
  · rw [← hz]; norm_num
  have habs : |r| = r := abs_of_pos hpos
  have hhi : r < ((2 : Nat) : ℚ) ^ (Int.log 2 r + 1) :=
    Int.lt_zpow_succ_log_self (by norm_num) r
  have hhi2 : r < (2 : ℚ) ^ (Int.log 2 r + 1) := by exact_mod_cast hhi
  have hlog : Int.log 2 r < 0 := by
    have h2 : r < ((2 : Nat) : ℚ) ^ (0 : Int) := by simpa using h1
    exact (Int.lt_zpow_iff_log_lt (by norm_num : 1 < 2) hpos).1 h2
  by_cases hn : -1074 ≤ Int.log 2 r - 52
  · have hu : Float64.ulp r = (2 : ℚ) ^ (Int.log 2 r - 52) := by
      unfold Float64.ulp
      rw [habs, max_eq_left hn]
    have hup : (0 : ℚ) < (2 : ℚ) ^ (Int.log 2 r - 52) := zpow_pos (by norm_num) _
    have hsplit : (2 : ℚ) ^ (Int.log 2 r + 1) = 2 ^ 53 * (2 : ℚ) ^ (Int.log 2 r - 52) := by
      have : Int.log 2 r + 1 = 53 + (Int.log 2 r - 52) := by ring
      rw [this, zpow_add₀ (by norm_num)]
      norm_num
    unfold Float64.round at hr
    rw [hu] at hr
    have hN : (Float64.nearestEven (r / (2 : ℚ) ^ (Int.log 2 r - 52)) : ℚ) < 2 ^ 53 := by
      have : (Float64.nearestEven (r / (2 : ℚ) ^ (Int.log 2 r - 52)) : ℚ) *
          (2 : ℚ) ^ (Int.log 2 r - 52) < 2 ^ 53 * (2 : ℚ) ^ (Int.log 2 r - 52) := by
        rw [hr, ← hsplit]; exact hhi2
      exact lt_of_mul_lt_mul_right this hup.le
    have hN2 : Float64.nearestEven (r / (2 : ℚ) ^ (Int.log 2 r - 52)) ≤ 2 ^ 53 - 1 := by
      have : Float64.nearestEven (r / (2 : ℚ) ^ (Int.log 2 r - 52)) < 2 ^ 53 := by
        exact_mod_cast hN
      omega
    have hN3 : (Float64.nearestEven (r / (2 : ℚ) ^ (Int.log 2 r - 52)) : ℚ) ≤ 2 ^ 53 - 1 := by
      exact_mod_cast hN2
    have hpow : (2 : ℚ) ^ (Int.log 2 r + 1) ≤ 1 := by
      have := zpow_le_zpow_right₀ (by norm_num : (1 : ℚ) ≤ 2)
        (by omega : Int.log 2 r + 1 ≤ 0)
      simpa using this
    have hr2 : r ≤ (2 ^ 53 - 1) * (2 : ℚ) ^ (Int.log 2 r - 52) :=
      le_of_eq_of_le hr.symm (mul_le_mul_of_nonneg_right hN3 hup.le)
    have hu2 : (2 : ℚ) ^ (Int.log 2 r - 52) ≤ 1 / 2 ^ 53 := by
      rw [hsplit] at hpow
      rw [le_div_iff₀ (by norm_num)]
      linarith
    have hu3 : (2 : ℚ) ^ (Int.log 2 r - 52) * 2 ^ 53 ≤ 1 := by
      rw [hsplit] at hpow; linarith
    nlinarith
  · have hx2 : r < (2 : ℚ) ^ (-1022 : Int) := by
      have h2 : (2 : ℚ) ^ (Int.log 2 r + 1) ≤ (2 : ℚ) ^ (-1022 : Int) :=
        zpow_le_zpow_right₀ (by norm_num) (by omega)
      linarith
    have h3 : (2 : ℚ) ^ (-1022 : Int) ≤ 1 / 4 :=
      le_trans (zpow_le_zpow_right₀ (by norm_num) (by norm_num : (-1022 : Int) ≤ -2))
        (by norm_num)
    have : (1 : ℚ) / 4 ≤ 1 - 1 / 2 ^ 53 := by norm_num
    generalize (2 : ℚ) ^ (-1022 : Int) = a at hx2 h3
    linarith

/-- The rounded product of a draw and a positive count stays below the count. -/
theorem round_mul_lt {r : ℚ} (h : Float64.IsDraw r) {n : Nat} (hn : 0 < n) :
    Float64.round (r * (n : ℚ)) < (n : ℚ) := by
  have hle := isDraw_le h
  have hnq : (1 : ℚ) ≤ (n : ℚ) := by exact_mod_cast hn
  have hx0 : 0 ≤ r * (n : ℚ) := mul_nonneg h.1 (by linarith)
  have hx : r * (n : ℚ) ≤ (1 - 1 / 2 ^ 53) * (n : ℚ) :=
    mul_le_mul_of_nonneg_right hle (by linarith)
  rcases round_le_rel hx0 with h1 | h1
  · have h2 : r * (n : ℚ) * (1 + 1 / 2 ^ 53) ≤
        (1 - 1 / 2 ^ 53) * (n : ℚ) * (1 + 1 / 2 ^ 53) :=
      mul_le_mul_of_nonneg_right hx (by norm_num)
    have h3 : (1 - 1 / 2 ^ 53) * (n : ℚ) * (1 + 1 / 2 ^ 53) < (n : ℚ) := by
      have : (1 - 1 / 2 ^ 53) * (1 + 1 / 2 ^ 53) < (1 : ℚ) := by norm_num
      nlinarith
    linarith
  · linarith

/-- A number `m / 2^t` with `m < 2^53` and `t ≤ 1074` is a double. -/
theorem round_dyadic (m t : Nat) (hm : m < 2 ^ 53) (ht : t ≤ 1074) :
    Float64.round ((m : ℚ) / 2 ^ t) = (m : ℚ) / 2 ^ t := by
  rcases Nat.eq_zero_or_pos m with h0 | hpos
  · rw [h0]; simp [round_zero]
  have hp : (0 : ℚ) < (2 : ℚ) ^ t := by positivity
  have hx : (0 : ℚ) < (m : ℚ) / 2 ^ t := div_pos (by exact_mod_cast hpos) hp
  have habs : |(m : ℚ) / 2 ^ t| = (m : ℚ) / 2 ^ t := abs_of_pos hx
  have hlt : (m : ℚ) / 2 ^ t < ((2 : Nat) : ℚ) ^ ((53 : Int) - t) := by
    rw [Nat.cast_ofNat, zpow_sub₀ (by norm_num), zpow_natCast, div_lt_div_right hp]
    norm_num
    exact_mod_cast hm
  have hlog : Int.log 2 ((m : ℚ) / 2 ^ t) < 53 - t :=
    (Int.lt_zpow_iff_log_lt (by norm_num : 1 < 2) hx).1 hlt
  have hz : max (Int.log 2 ((m : ℚ) / 2 ^ t) - 52) (-1074) ≤ -(t : Int) :=
    max_le (by omega) (by omega)
  obtain ⟨k, hk⟩ : ∃ k : Nat,
      -(t : Int) - max (Int.log 2 ((m : ℚ) / 2 ^ t) - 52) (-1074) = (k : Int) :=
    ⟨(-(t : Int) - max (Int.log 2 ((m : ℚ) / 2 ^ t) - 52) (-1074)).toNat,
      (Int.toNat_of_nonneg (by omega)).symm⟩
  apply round_eq_self_of_int (z := (m : Int) * 2 ^ k)
  unfold Float64.ulp
  rw [habs]
  have hsplit : (2 : ℚ) ^ (max (Int.log 2 ((m : ℚ) / 2 ^ t) - 52) (-1074)) =
      (2 : ℚ) ^ (-(t : Int)) / (2 : ℚ) ^ k := by
    rw [← zpow_natCast (2 : ℚ) k, ← zpow_sub₀ (by norm_num), ← hk]
    congr 1
    ring
  rw [hsplit, zpow_neg, zpow_natCast]
  have hk2 : (0 : ℚ) < (2 : ℚ) ^ k := by positivity
  push_cast
  field_simp
  ring

/-- The rounding of a positive number of the normal range, from its binade and the
integer nearest to its quotient by the spacing. -/
theorem round_eval {x : ℚ} (e N : Int) (hx : 0 < x) (h1 : (2 : ℚ) ^ e ≤ x)
    (h2 : x < (2 : ℚ) ^ (e + 1)) (he : -1074 ≤ e - 52)
    (hN : Float64.nearestEven (x / (2 : ℚ) ^ (e - 52)) = N) :
    Float64.round x = (N : ℚ) * (2 : ℚ) ^ (e - 52) := by
  have hlog : Int.log 2 x = e := by
    apply le_antisymm
    · have : Int.log 2 x < e + 1 :=
        (Int.lt_zpow_iff_log_lt (by norm_num : 1 < 2) hx).1 (by exact_mod_cast h2)
      omega
    · exact (Int.zpow_le_iff_le_log (by norm_num : 1 < 2) hx).1 (by exact_mod_cast h1)
  have hu : Float64.ulp x = (2 : ℚ) ^ (e - 52) := by
    unfold Float64.ulp
    rw [abs_of_pos hx, hlog, max_eq_left he]
  unfold Float64.round
  rw [hu, hN]

/-- The literal `0.6` denotes the double `5404319552844595 / 2^53`. -/
theorem pointSix_eq : GameAI.pointSix = 5404319552844595 / 2 ^ 53 := by
  unfold GameAI.pointSix
  rw [round_eval (-1) 5404319552844595 (by norm_num) (by norm_num) (by norm_num)
    (by norm_num)
    (nearestEven_eq_of_lt (by norm_num) (by norm_num))]
  norm_num

/-- The double `0.6` lies below 6/10, by `1 / (5 * 2^53)`. -/
theorem pointSix_lt : GameAI.pointSix < 6 / 10 ∧ 6 / 10 - GameAI.pointSix = 1 / (5 * 2 ^ 53) := by
  rw [pointSix_eq]
  constructor <;> norm_num

/-- A number `m / 2^t` below 1 with `m < 2^53` and `t ≤ 1074` is a possible draw. -/
theorem isDraw_dyadic (m t : Nat) (hm : m < 2 ^ 53) (ht : t ≤ 1074) (h1 : m < 2 ^ t) :
    Float64.IsDraw ((m : ℚ) / 2 ^ t) := by
  have hp : (0 : ℚ) < (2 : ℚ) ^ t := by positivity
  refine ⟨div_nonneg (by positivity) hp.le, ?_, round_dyadic m t hm ht⟩
  rw [div_lt_one hp]
  exact_mod_cast h1

theorem isDraw_zero : Float64.IsDraw 0 := by
  have := isDraw_dyadic 0 0 (by norm_num) (by norm_num) (by norm_num)
  simpa using this

theorem isDraw_half : Float64.IsDraw (1 / 2) := by
  have := isDraw_dyadic 1 1 (by norm_num) (by norm_num) (by norm_num)
  simpa using this

theorem isDraw_pointSix : Float64.IsDraw GameAI.pointSix := by
  rw [pointSix_eq]
  have := isDraw_dyadic 5404319552844595 53 (by norm_num) (by norm_num) (by norm_num)
  simpa using this

/-- The draw `7720456504063707 / 2^54`, just below 3/7. -/
theorem isDraw_nearThreeSevenths : Float64.IsDraw (7720456504063707 / 2 ^ 54) := by
  have := isDraw_dyadic 7720456504063707 54 (by norm_num) (by norm_num) (by norm_num)
  simpa using this

/-- Seven times that draw is `3 - 3 / 2^54`, which rounds to 3. -/
theorem round_nearThreeSevenths :
    Float64.round (7720456504063707 / 2 ^ 54 * 7) = 3 := by
  rw [round_eval 1 (3 * 2 ^ 51) (by norm_num) (by norm_num) (by norm_num) (by norm_num)
    (by
      have h := @nearestEven_eq_of_gt
        ((7720456504063707 / 2 ^ 54 * 7 : ℚ) / (2 : ℚ) ^ ((1 : Int) - 52))
        (3 * 2 ^ 51 - 1) (by norm_num) (by norm_num)
      rw [h]
      norm_num)]
  norm_num

theorem round_nonneg {x : ℚ} (hx : 0 ≤ x) : 0 ≤ Float64.round x := by
  have hu := ulp_pos x
  have hq : ((0 : Int) : ℚ) ≤ x / Float64.ulp x := by
    simpa using div_nonneg hx hu.le
  have hN : (0 : ℚ) ≤ (Float64.nearestEven (x / Float64.ulp x) : ℚ) := by
    exact_mod_cast le_nearestEven hq
  unfold Float64.round
  exact mul_nonneg hN hu.le

theorem minimaxMove_full (b : Board) (pm : Mark) (h : isBoardFull b = true) :
    GameAI.minimaxMove b pm = some (-1, b) := by
  obtain ⟨mv, hrun, hres⟩ := minimaxMoveLoop_spec b.length pm pm.other b
    (minimaxMove_calls_total b pm) (List.range b.length) Score.negInf (-1)
  have hno : ∀ i : Nat, b[i]? = some Cell.empty → False := by
    intro i hi
    have := (isBoardFull_false_iff b).2 ⟨i, List.mem_range.1 (mem_range_of_get hi), hi⟩
    rw [h] at this
    cases this
  rcases hres with ⟨hmv, _⟩ | ⟨_, i, _, _, _, _, hic, _⟩
  · unfold GameAI.minimaxMove
    rw [hrun, hmv]
  · exact (hno i hic).elim

/-- On a board with an empty cell `minimaxMove` returns the lowest-index empty cell among
those of greatest score, and the board as it received it. -/
theorem minimaxMove_spec (b : Board) (pm : Mark) (h : isBoardFull b = false) :
    ∃ (i : Nat) (u : Int), GameAI.minimaxMove b pm = some ((i : Int), b) ∧
      b[i]? = some Cell.empty ∧
      GameAI.minimax b.length (b.set i pm.toCell) 0 false pm pm.other =
        some (Score.fin u, b.set i pm.toCell) ∧
      (∀ j w, b[j]? = some Cell.empty →
        GameAI.minimax b.length (b.set j pm.toCell) 0 false pm pm.other =
          some (Score.fin w, b.set j pm.toCell) → w ≤ u) ∧
      (∀ j w, j < i → b[j]? = some Cell.empty →
        GameAI.minimax b.length (b.set j pm.toCell) 0 false pm pm.other =
          some (Score.fin w, b.set j pm.toCell) → w < u) := by
  obtain ⟨mv, hrun, hres⟩ := minimaxMoveLoop_spec b.length pm pm.other b
    (minimaxMove_calls_total b pm) (List.range b.length) Score.negInf (-1)
  obtain ⟨i0, _, hi0⟩ := (isBoardFull_false_iff b).1 h
  rcases hres with ⟨_, hall⟩ | ⟨pre, i, post, u, hsplit, hmv, hic, hu, _, hpre, hpost⟩
  · obtain ⟨u0, hu0⟩ := minimaxMove_calls_total b pm i0 hi0
    have := hall i0 (mem_range_of_get hi0) hi0 u0 hu0
    simp [Score.gt] at this
  · have hsorted : List.Pairwise (· < ·) (pre ++ i :: post) := by
      rw [← hsplit]; exact List.pairwise_lt_range _
    rw [List.pairwise_append] at hsorted
    obtain ⟨_, hip, hcross⟩ := hsorted
    have hpost_gt : ∀ x ∈ post, i < x := (List.pairwise_cons.1 hip).1
    refine ⟨i, u, ?_, hic, hu, ?_, ?_⟩
    · unfold GameAI.minimaxMove
      rw [hrun, hmv]
    · intro j w hjc hw
      have hj : j ∈ pre ++ i :: post := by rw [← hsplit]; exact mem_range_of_get hjc
      rcases List.mem_append.1 hj with h1 | h1
      · exact le_of_lt (hpre j h1 hjc w hw)
      · rcases List.mem_cons.1 h1 with h2 | h2
        · subst h2
          rw [hu] at hw
          have : u = w := by
            injection hw with h3; injection h3 with h4; injection h4
          omega
        · exact hpost j h2 hjc w hw
    · intro j w hji hjc hw
      have hj : j ∈ pre ++ i :: post := by rw [← hsplit]; exact mem_range_of_get hjc
      rcases List.mem_append.1 hj with h1 | h1
      · exact hpre j h1 hjc w hw
      · rcases List.mem_cons.1 h1 with h2 | h2
        · omega
        · have := hpost_gt j h2
          omega

/-! ## The easy and the heuristic strategy -/

theorem mem_availableMoves (b : Board) (i : Nat) :
    i ∈ GameAI.availableMoves b ↔ b[i]? = some Cell.empty := by
  unfold GameAI.availableMoves
  simp only [List.mem_filterMap, List.mem_map, id_eq, exists_eq_right, Prod.exists,
    List.mk_mem_enum_iff_getElem?]
  constructor
  · rintro ⟨k, c, hk, hite⟩
    split at hite
    · rename_i hc
      simp only [Option.some.injEq] at hite
      subst hite
      subst hc
      exact hk
    · cases hite
  · intro h
    exact ⟨i, Cell.empty, h, by simp⟩

theorem availableMoves_length_eq_zero (b : Board) :
    (GameAI.availableMoves b).length = 0 ↔ isBoardFull b = true := by
  rw [List.length_eq_zero]
  constructor
  · intro h
    cases hf : isBoardFull b with
    | true => rfl
    | false =>
      obtain ⟨i, _, hi⟩ := (isBoardFull_false_iff b).1 hf
      have := (mem_availableMoves b i).2 hi
      rw [h] at this
      cases this
  · intro h
    apply List.eq_nil_iff_forall_not_mem.2
    intro i hi
    have h2 := (mem_availableMoves b i).1 hi
    have := (isBoardFull_false_iff b).2 ⟨i, List.mem_range.1 (mem_range_of_get h2), h2⟩
    rw [h] at this
    cases this

/-- The index computed by `Math.floor(Math.random() * n)` lies in `0..n-1`. -/
theorem randomIndex_bounds (r : ℚ) (n : Nat) (hn : 0 < n) (hr : Float64.IsDraw r) :
    0 ≤ Rat.floor (Float64.round (r * (n : ℚ))) ∧
    Rat.floor (Float64.round (r * (n : ℚ))) < (n : Int) := by
  have hnq : (0 : ℚ) < (n : ℚ) := by exact_mod_cast hn
  constructor
  · rw [Rat.le_floor]
    simpa using round_nonneg (mul_nonneg hr.1 hnq.le)
  · have h2 : Float64.round (r * (n : ℚ)) < ((n : Int) : ℚ) := by
      simpa using round_mul_lt hr hn
    exact Int.floor_lt.2 h2

theorem randomMove_full (b : Board) (r : ℚ) (h : isBoardFull b = true) :
    GameAI.randomMove b r = some (-1) := by
  unfold GameAI.randomMove
  simp [(availableMoves_length_eq_zero b).2 h]

theorem randomMove_spec (b : Board) (r : ℚ) (hr : Float64.IsDraw r)
    (h : isBoardFull b = false) :
    ∃ i : Nat, GameAI.randomMove b r = some (i : Int) ∧ b[i]? = some Cell.empty := by
  have hlen : (GameAI.availableMoves b).length ≠ 0 := by
    intro hz
    rw [(availableMoves_length_eq_zero b).1 hz] at h
    cases h
  obtain ⟨hlo, hhi⟩ := randomIndex_bounds r _ (Nat.pos_of_ne_zero hlen) hr
  have hk : (Rat.floor (Float64.round (r * ((GameAI.availableMoves b).length : ℚ)))).toNat <
      (GameAI.availableMoves b).length := by omega
  refine ⟨(GameAI.availableMoves b)[(Rat.floor
    (Float64.round (r * ((GameAI.availableMoves b).length : ℚ)))).toNat], ?_, ?_⟩
  · unfold GameAI.randomMove
    simp only [hlen, if_false, if_neg (not_lt.2 hlo), List.getElem?_eq_getElem hk]
  · exact (mem_availableMoves b _).1 (List.getElem_mem hk)

theorem findWinningMoveLoop_spec (b : Board) (m : Mark) (ps : List Pattern) :
    GameAI.findWinningMoveLoop b m ps = -1 ∨
      ∃ i : Nat, GameAI.findWinningMoveLoop b m ps = (i : Int) ∧ b[i]? = some Cell.empty := by
  induction ps with
  | nil => exact Or.inl rfl
  | cons p rest ih =>
    obtain ⟨a, c, d⟩ := p
    unfold GameAI.findWinningMoveLoop
    split
    · rename_i h; exact Or.inr ⟨d, rfl, h.2.2⟩
    · split
      · rename_i h; exact Or.inr ⟨c, rfl, h.2.2⟩
      · split
        · rename_i h; exact Or.inr ⟨a, rfl, h.2.2⟩
        · exact ih

theorem strategicMove_full (b : Board) (m : Mark) (r : ℚ) (h : isBoardFull b = true) :
    GameAI.strategicMove b m r = some (-1) := by
  have hno : ∀ i : Nat, b[i]? = some Cell.empty → False := by
    intro i hi
    have := (isBoardFull_false_iff b).2 ⟨i, List.mem_range.1 (mem_range_of_get hi), hi⟩
    rw [h] at this
    cases this
  have hf : ∀ mk, GameAI.findWinningMove b mk = -1 := by
    intro mk
    rcases findWinningMoveLoop_spec b mk winPatterns with h1 | ⟨i, _, hi⟩
    · exact h1
    · exact (hno i hi).elim
  have h4 : ¬ (b[4]? = some Cell.empty) := fun h4 => hno 4 h4
  unfold GameAI.strategicMove
  simp only [hf, ne_eq, not_true_eq_false, if_false, if_neg h4]
  exact randomMove_full b r h

theorem strategicMove_spec (b : Board) (m : Mark) (r : ℚ) (hr : Float64.IsDraw r)
    (h : isBoardFull b = false) :
    ∃ i : Nat, GameAI.strategicMove b m r = some (i : Int) ∧ b[i]? = some Cell.empty := by
  unfold GameAI.strategicMove
  simp only []
  split
  · rename_i hw
    rcases findWinningMoveLoop_spec b m winPatterns with h2 | ⟨i, hi, hic⟩
    · exact absurd h2 hw
    · exact ⟨i, by rw [← hi]; rfl, hic⟩
  · split
    · rename_i hw
      rcases findWinningMoveLoop_spec b m.other winPatterns with h2 | ⟨i, hi, hic⟩
      · exact absurd h2 hw
      · exact ⟨i, by rw [← hi]; rfl, hic⟩
    · split
      · rename_i h4
        exact ⟨4, rfl, h4⟩
      · exact randomMove_spec b r hr h

/-- C10: for every nine-cell board, mark, difficulty and pair of draws (doubles in [0,1),
the values `Math.random()` can return), `GameAI.makeMove` returns a number and leaves the
board as it received it; the number is -1 exactly when the board has no empty cell, and
otherwise it is an index in 0..8 whose cell is empty. -/
theorem makeMove_sentinel (board : Board) (hlen : board.length = 9) (m : Mark)
    (d : Difficulty) (r1 r2 : ℚ) (h1 : Float64.IsDraw r1) (h2 : Float64.IsDraw r2) :
    ∃ idx : Int, GameAI.makeMove board m d r1 r2 = some (some idx, board) ∧
      (idx = -1 ↔ hasEmpty board = false) ∧
      (hasEmpty board = true → 0 ≤ idx ∧ idx ≤ 8 ∧ board.at idx = some Cell.empty) := by
  have key : ∀ res : Option Int,
      (isBoardFull board = true → res = some (-1)) →
      (isBoardFull board = false →
        ∃ i : Nat, res = some (i : Int) ∧ board[i]? = some Cell.empty) →
      ∃ idx : Int, res = some idx ∧ (idx = -1 ↔ hasEmpty board = false) ∧
        (hasEmpty board = true → 0 ≤ idx ∧ idx ≤ 8 ∧ board.at idx = some Cell.empty) := by
    intro res hfull hnot
    cases hf : isBoardFull board with
    | true =>
      have he : hasEmpty board = false := by
        rw [isBoardFull_eq] at hf; simpa using hf
      refine ⟨-1, hfull hf, by simp [he], ?_⟩
      intro hcon; rw [he] at hcon; cases hcon
    | false =>
      have he : hasEmpty board = true := by
        rw [isBoardFull_eq] at hf; simpa using hf
      obtain ⟨i, hi, hic⟩ := hnot hf
      have hi9 : i < 9 := by
        have := List.mem_range.1 (mem_range_of_get hic)
        omega
      refine ⟨(i : Int), hi, ?_, ?_⟩
      · rw [he]
        constructor
        · intro hcon; omega
        · intro hcon; cases hcon
      · intro _
        refine ⟨by omega, by omega, ?_⟩
        rw [at_of_nonneg _ (by omega)]
        simpa using hic
  cases d with
  | easy =>
    obtain ⟨idx, hres, hrest⟩ := key (GameAI.randomMove board r1)
      (randomMove_full board r1) (randomMove_spec board r1 h1)
    exact ⟨idx, by simp [GameAI.makeMove, hres], hrest⟩
  | medium =>
    by_cases hr : r1 < GameAI.pointSix
    · obtain ⟨idx, hres, hrest⟩ := key (GameAI.strategicMove board m r2)
        (strategicMove_full board m r2) (strategicMove_spec board m r2 h2)
      exact ⟨idx, by simp [GameAI.makeMove, hr, hres], hrest⟩
    · obtain ⟨idx, hres, hrest⟩ := key (GameAI.randomMove board r2)
        (randomMove_full board r2) (randomMove_spec board r2 h2)
      exact ⟨idx, by simp [GameAI.makeMove, hr, hres], hrest⟩
  | hard =>
    obtain ⟨idx, hres, hrest⟩ := key ((GameAI.minimaxMove board m).map (fun res => res.1))
      (fun hf => by rw [minimaxMove_full board m hf]; rfl)
      (fun hf => by
        obtain ⟨i, u, hrun, hic, _⟩ := minimaxMove_spec board m hf
        exact ⟨i, by rw [hrun]; rfl, hic⟩)
    refine ⟨idx, ?_, hrest⟩
    cases hf : isBoardFull board with
    | true =>
      rw [minimaxMove_full board m hf] at hres
      simp only [GameAI.makeMove, minimaxMove_full board m hf, Option.map_some']
      simp only [Option.map_some', Option.some.injEq] at hres
      rw [hres]
    | false =>
      obtain ⟨i, u, hrun, _⟩ := minimaxMove_spec board m hf
      rw [hrun] at hres
      simp only [GameAI.makeMove, hrun, Option.map_some']
      simp only [Option.map_some', Option.some.injEq] at hres
      rw [hres]

/-! ## Marks and lines -/

theorem other_other (m : Mark) : m.other.other = m := by
  cases m <;> rfl

theorem eq_other_of_ne {m n : Mark} (h : n ≠ m) : n = m.other := by
  cases m <;> cases n <;> first | rfl | exact absurd rfl h

theorem toCell_ne_other (m : Mark) : m.toCell ≠ m.other.toCell := by
  cases m <;> decide

theorem ai_checkWinner_of_hasLine {b : Board} {m : Mark} (h1 : hasLine b m = true)
    (h2 : hasLine b m.other = false) : GameAI.checkWinner b = some m := by
  cases hw : GameAI.checkWinner b with
  | none =>
    have := (anyLine_false_iff b).1 ((ai_checkWinner_eq_none_iff b).1 hw) m
    rw [h1] at this
    cases this
  | some n =>
    by_cases hn : n = m
    · rw [hn]
    · have h3 := ai_checkWinner_hasLine hw
      rw [eq_other_of_ne hn, h2] at h3
      cases h3

theorem ai_checkWinner_none_of_ne {b : Board} {m : Mark}
    (h1 : GameAI.checkWinner b ≠ some m) (h2 : GameAI.checkWinner b ≠ some m.other) :
    GameAI.checkWinner b = none := by
  cases hw : GameAI.checkWinner b with
  | none => rfl
  | some n =>
    by_cases hn : n = m
    · exact absurd (hn ▸ hw) h1
    · exact absurd ((eq_other_of_ne hn) ▸ hw) h2

theorem hasLine_false_of_checkWinner_none {b : Board} (h : GameAI.checkWinner b = none)
    (m : Mark) : hasLine b m = false :=
  (anyLine_false_iff b).1 ((ai_checkWinner_eq_none_iff b).1 h) m

theorem ai_checkWinner_none_of_no_line {b : Board}
    (h : ∀ m : Mark, hasLine b m = false) : GameAI.checkWinner b = none :=
  (ai_checkWinner_eq_none_iff b).2 ((anyLine_false_iff b).2 h)

/-- A line survives the writing of a cell that did not hold its mark. -/
theorem lineOf_set_keep {b : Board} {i : Nat} {x y : Cell} {m : Mark} {p : Pattern}
    (hx : b[i]? = some x) (hne : x ≠ m.toCell) (h : lineOf b m p = true) :
    lineOf (b.set i y) m p = true := by
  rw [lineOf_iff] at h ⊢
  have key : ∀ q : Nat, b[q]? = some m.toCell → (b.set i y)[q]? = some m.toCell := by
    intro q hq
    have hiq : i ≠ q := by
      rintro rfl
      rw [hx] at hq
      exact hne (Option.some.inj hq)
    rw [List.getElem?_set_ne hiq]
    exact hq
  exact ⟨key _ h.1, key _ h.2.1, key _ h.2.2⟩

theorem hasLine_set_keep {b : Board} {i : Nat} {x y : Cell} {m : Mark}
    (hx : b[i]? = some x) (hne : x ≠ m.toCell) (h : hasLine b m = true) :
    hasLine (b.set i y) m = true := by
  unfold hasLine at h ⊢
  rw [List.any_eq_true] at h ⊢
  obtain ⟨p, hp, hl⟩ := h
  exact ⟨p, hp, lineOf_set_keep hx hne hl⟩

theorem set_comm_cell (b : Board) {i j : Nat} (x y : Cell) (h : i ≠ j) :
    (b.set i x).set j y = (b.set j y).set i x :=
  List.set_comm x y b h

theorem get_set_of_ne {b : Board} {i j : Nat} {c : Cell} (x : Cell) (h : i ≠ j)
    (hj : b[j]? = some c) : (b.set i x)[j]? = some c := by
  rw [List.getElem?_set_ne h]; exact hj

/-! ## Bounds on the score -/

/-- With `d` plus the number of empty cells at most 9, the score returned at depth `d` is
at least `d - 10`, and at least `d - 9` unless the opponent's mark is the winner. -/
theorem minimax_lower (pm om : Mark) :
    ∀ (fuel : Nat) (b : Board) (d : Int) (im : Bool) (v : Int), countEmpty b ≤ fuel →
      d + countEmpty b ≤ 9 →
      GameAI.minimax fuel b d im pm om = some (Score.fin v, b) →
      d - 10 ≤ v ∧ (GameAI.checkWinner b ≠ some om → d - 9 ≤ v) := by
  intro fuel
  induction fuel with
  | zero =>
    intro b d im v hf hd hv
    have hd9 : d ≤ 9 := by omega
    by_cases h1 : GameAI.checkWinner b = some pm
    · rw [minimax_win 0 b d im pm om h1] at hv
      injection hv with h; injection h with h _; injection h with h
      omega
    by_cases h2 : GameAI.checkWinner b = some om
    · rw [minimax_loss 0 b d im pm om h1 h2] at hv
      injection hv with h; injection h with h _; injection h with h
      exact ⟨by omega, fun hc => absurd h2 hc⟩
    cases h3 : isBoardFull b with
    | true =>
      rw [minimax_full 0 b d im pm om h1 h2 h3] at hv
      injection hv with h; injection h with h _; injection h with h
      omega
    | false =>
      rw [minimax_exhausted b d im pm om h1 h2 h3] at hv
      cases hv
  | succ fuel ih =>
    intro b d im v hf hd hv
    have hd9 : d ≤ 9 := by omega
    by_cases h1 : GameAI.checkWinner b = some pm
    · rw [minimax_win _ b d im pm om h1] at hv
      injection hv with h; injection h with h _; injection h with h
      omega
    by_cases h2 : GameAI.checkWinner b = some om
    · rw [minimax_loss _ b d im pm om h1 h2] at hv
      injection hv with h; injection h with h _; injection h with h
      exact ⟨by omega, fun hc => absurd h2 hc⟩
    cases h3 : isBoardFull b with
    | true =>
      rw [minimax_full _ b d im pm om h1 h2 h3] at hv
      injection hv with h; injection h with h _; injection h with h
      omega
    | false =>
      cases im with
      | true =>
        obtain ⟨v', hv', ⟨i, hic, hi⟩, _⟩ := minimax_max_node fuel b d pm om h1 h2 h3
          (fun i hi => minimax_total pm om _ _ _ _ (by have := countEmpty_set pm hi; omega))
        rw [hv'] at hv
        injection hv with h; injection h with h _; injection h with h
        subst h
        have hcnt := countEmpty_set pm hic
        have := (ih _ _ _ _ (by omega) (by omega) hi).1
        omega
      | false =>
        obtain ⟨v', hv', ⟨i, hic, hi⟩, _⟩ := minimax_min_node fuel b d pm om h1 h2 h3
          (fun i hi => minimax_total pm om _ _ _ _ (by have := countEmpty_set om hi; omega))
        rw [hv'] at hv
        injection hv with h; injection h with h _; injection h with h
        subst h
        have hcnt := countEmpty_set om hic
        have := (ih _ _ _ _ (by omega) (by omega) hi).1
        omega

/-! ## The hard strategy blocks the only threat -/

theorem makeMove_hard_eq (board : Board) (m : Mark) (r1 r2 : ℚ) (i : Int)
    (h : GameAI.minimaxMove board m = some (i, board)) :
    GameAI.makeMove board m Difficulty.hard r1 r2 = some (some i, board) := by
  simp [GameAI.makeMove, h]

/-- The score of a cell after which the opponent completes a pattern at once is at most -9. -/
theorem score_le_of_threat (board : Board) (hlen : board.length = 9) (m : Mark) (i c : Nat)
    (u : Int) (hic : i ≠ c) (hi : board[i]? = some Cell.empty)
    (hc : board[c]? = some Cell.empty)
    (hno : anyLine board = false)
    (hmi : hasLine (board.set i m.toCell) m = false)
    (hcw : hasLine (board.set c m.other.toCell) m.other = true)
    (hu : GameAI.minimax board.length (board.set i m.toCell) 0 false m m.other =
      some (Score.fin u, board.set i m.toCell)) : u ≤ -9 := by
  have hopp : hasLine (board.set i m.toCell) m.other = false := by
    cases h : hasLine (board.set i m.toCell) m.other with
    | false => rfl
    | true =>
      have := hasLine_set_other (toCell_ne_other m) h
      rw [(anyLine_false_iff board).1 hno] at this
      cases this
  have hw : GameAI.checkWinner (board.set i m.toCell) = none :=
    ai_checkWinner_none_of_no_line (fun n => by
      by_cases hn : n = m
      · rw [hn]; exact hmi
      · rw [eq_other_of_ne hn]; exact hopp)
  have hci : (board.set i m.toCell)[c]? = some Cell.empty := get_set_of_ne _ hic hc
  have hnf : isBoardFull (board.set i m.toCell) = false :=
    (isBoardFull_false_iff _).2 ⟨c, List.mem_range.1 (mem_range_of_get hci), hci⟩
  have hcnt := countEmpty_set m hi
  have hcl := countEmpty_le_length board
  obtain ⟨v, hv, _, hall⟩ := minimax_min_node 8 (board.set i m.toCell) 0 m m.other
    (by rw [hw]; simp) (by rw [hw]; simp) hnf
    (fun j hj => minimax_total m m.other _ _ _ _ (by
      have := countEmpty_set m.other hj; omega))
  rw [hlen] at hu
  have huv : u = v := by
    have := hu.symm.trans hv
    injection this with h; injection h with h _; injection h
  -- the child in which the opponent plays `c`
  have hline : hasLine ((board.set i m.toCell).set c m.other.toCell) m.other = true := by
    rw [set_comm_cell board _ _ hic]
    exact hasLine_set_keep (get_set_of_ne _ (Ne.symm hic) hi)
      (fun h => toCell_ne_empty _ h.symm) hcw
  have hnom : hasLine ((board.set i m.toCell).set c m.other.toCell) m.other.other = false := by
    rw [other_other]
    cases h : hasLine ((board.set i m.toCell).set c m.other.toCell) m with
    | false => rfl
    | true =>
      have := hasLine_set_other (fun h => toCell_ne_other m h.symm) h
      rw [hmi] at this
      cases this
  have hwin := ai_checkWinner_of_hasLine hline hnom
  have hne : GameAI.checkWinner ((board.set i m.toCell).set c m.other.toCell) ≠ some m := by
    rw [hwin]
    intro h
    exact other_ne m (Option.some.inj h)
  have hchild := minimax_loss 8 ((board.set i m.toCell).set c m.other.toCell) (0 + 1) true m
    m.other hne hwin
  have := hall c _ hci hchild
  omega

/-- The score of a cell after which the opponent has no immediately completing cell
and the player has completed no pattern is at least -8. -/
theorem score_ge_of_block (board : Board) (hlen : board.length = 9) (m : Mark) (c : Nat)
    (u : Int) (hc : board[c]? = some Cell.empty)
    (hno : anyLine board = false)
    (hmc : hasLine (board.set c m.toCell) m = false)
    (huniq : ∀ j : Nat, board[j]? = some Cell.empty →
      hasLine (board.set j m.other.toCell) m.other = true → j = c)
    (hu : GameAI.minimax board.length (board.set c m.toCell) 0 false m m.other =
      some (Score.fin u, board.set c m.toCell)) : -8 ≤ u := by
  have hopp : hasLine (board.set c m.toCell) m.other = false := by
    cases h : hasLine (board.set c m.toCell) m.other with
    | false => rfl
    | true =>
      have := hasLine_set_other (toCell_ne_other m) h
      rw [(anyLine_false_iff board).1 hno] at this
      cases this
  have hw : GameAI.checkWinner (board.set c m.toCell) = none :=
    ai_checkWinner_none_of_no_line (fun n => by
      by_cases hn : n = m
      · rw [hn]; exact hmc
      · rw [eq_other_of_ne hn]; exact hopp)
  have hcnt := countEmpty_set m hc
  have hcl := countEmpty_le_length board
  rw [hlen] at hu
  cases hnf : isBoardFull (board.set c m.toCell) with
  | true =>
    rw [minimax_full 9 _ 0 false m m.other (by rw [hw]; simp) (by rw [hw]; simp) hnf] at hu
    injection hu with h; injection h with h _; injection h with h
    omega
  | false =>
    obtain ⟨v, hv, ⟨j, hjc, hj⟩, _⟩ := minimax_min_node 8 (board.set c m.toCell) 0 m m.other
      (by rw [hw]; simp) (by rw [hw]; simp) hnf
      (fun j hj => minimax_total m m.other _ _ _ _ (by
        have := countEmpty_set m.other hj; omega))
    have huv : u = v := by
      have := hu.symm.trans hv
      injection this with h; injection h with h _; injection h
    have hjne : c ≠ j := by
      rintro rfl
      rw [List.getElem?_set_self'] at hjc
      rw [hc] at hjc
      exact toCell_ne_empty m (Option.some.inj hjc)
    have hjb : board[j]? = some Cell.empty := by
      rwa [List.getElem?_set_ne hjne] at hjc
    have hcnt2 := countEmpty_set m.other hjc
    have hnw : GameAI.checkWinner ((board.set c m.toCell).set j m.other.toCell) ≠
        some m.other := by
      intro hwin
      have h1 := ai_checkWinner_hasLine hwin
      rw [set_comm_cell board _ _ hjne] at h1
      have h2 := hasLine_set_other (toCell_ne_other m) h1
      exact hjne (huniq j hjb h2).symm
    have := (minimax_lower m m.other 8 _ (0 + 1) true v (by omega) (by omega) hj).2 hnw
    omega

/-- C9: on a nine-cell board without a completed pattern, when no empty cell completes a
pattern for `m` and `c` is the one empty cell that completes a pattern for the opponent,
`GameAI.makeMove(board, m, 'hard')` returns `c` and leaves the board as it received it. -/
theorem hard_blocks (board : Board) (hlen : board.length = 9) (m : Mark) (c : Nat)
    (r1 r2 : ℚ) (hno : anyLine board = false)
    (hm : ∀ i : Nat, board[i]? = some Cell.empty → hasLine (board.set i m.toCell) m = false)
    (hc : board[c]? = some Cell.empty)
    (hcw : hasLine (board.set c m.other.toCell) m.other = true)
    (huniq : ∀ j : Nat, board[j]? = some Cell.empty →
      hasLine (board.set j m.other.toCell) m.other = true → j = c) :
    GameAI.makeMove board m Difficulty.hard r1 r2 = some (some (c : Int), board) := by
  have hnf : isBoardFull board = false :=
    (isBoardFull_false_iff _).2 ⟨c, List.mem_range.1 (mem_range_of_get hc), hc⟩
  obtain ⟨i, u, hrun, hic, hu, hmax, _⟩ := minimaxMove_spec board m hnf
  have hi : i = c := by
    by_contra hne
    have h1 := score_le_of_threat board hlen m i c u hne hic hc hno (hm i hic) hcw hu
    obtain ⟨w, hw⟩ := minimaxMove_calls_total board m c hc
    have h2 := score_ge_of_block board hlen m c w hc hno (hm c hc) huniq hw
    have h3 := hmax c w hc hw
    omega
  subst hi
  exact makeMove_hard_eq board m r1 r2 _ hrun

/-! ## Forced wins of the opponent -/

theorem oppCanForce_oppLine (m : Mark) (n : Nat) (t : Bool) (b : Board)
    (h : hasLine b m.other = true) : oppCanForce m n t b = true := by
  cases n <;> simp [oppCanForce, h]

theorem oppCanForce_ownLine (m : Mark) (n : Nat) (t : Bool) (b : Board)
    (h1 : hasLine b m.other = false) (h2 : hasLine b m = true) :
    oppCanForce m n t b = false := by
  cases n <;> simp [oppCanForce, h1, h2]

theorem oppCanForce_full (m : Mark) (n : Nat) (t : Bool) (b : Board)
    (h1 : hasLine b m.other = false) (h2 : hasLine b m = false) (h3 : hasEmpty b = false) :
    oppCanForce m n t b = false := by
  cases n <;> simp [oppCanForce, h1, h2, h3]

theorem oppCanForce_zero (m : Mark) (t : Bool) (b : Board)
    (h1 : hasLine b m.other = false) : oppCanForce m 0 t b = false := by
  cases h2 : hasLine b m <;> cases h3 : hasEmpty b <;> simp [oppCanForce, h1, h2, h3]

theorem oppCanForce_opp_step (m : Mark) (n : Nat) (b : Board)
    (h1 : hasLine b m.other = false) (h2 : hasLine b m = false) (h3 : hasEmpty b = true) :
    oppCanForce m (n + 1) true b = true ↔
      ∃ j : Nat, b[j]? = some Cell.empty ∧
        oppCanForce m n false (b.set j m.other.toCell) = true := by
  simp only [oppCanForce, h1, h2, h3, Bool.false_eq_true, if_false, Bool.not_true, if_true,
    List.any_eq_true, List.mem_range, Bool.and_eq_true, decide_eq_true_eq]
  constructor
  · rintro ⟨j, _, hj⟩
    exact ⟨j, hj⟩
  · rintro ⟨j, hj⟩
    exact ⟨j, List.mem_range.1 (mem_range_of_get hj.1), hj⟩

theorem oppCanForce_own_step (m : Mark) (n : Nat) (b : Board)
    (h1 : hasLine b m.other = false) (h2 : hasLine b m = false) (h3 : hasEmpty b = true) :
    oppCanForce m (n + 1) false b = true ↔
      ∀ j : Nat, b[j]? = some Cell.empty →
        oppCanForce m n true (b.set j m.toCell) = true := by
  simp only [oppCanForce, h1, h2, h3, Bool.false_eq_true, if_false, Bool.not_true,
    List.all_eq_true, List.mem_range, Bool.or_eq_true, Bool.not_eq_true', decide_eq_false_iff_not]
  constructor
  · intro h j hj
    rcases h j (List.mem_range.1 (mem_range_of_get hj)) with h4 | h4
    · exact absurd hj h4
    · exact h4
  · intro h j _
    by_cases hj : b[j]? = some Cell.empty
    · exact Or.inr (h j hj)
    · exact Or.inl hj

theorem hasEmpty_of_not_full {b : Board} (h : isBoardFull b = false) : hasEmpty b = true := by
  rw [isBoardFull_eq] at h; simpa using h

theorem hasEmpty_false_of_full {b : Board} (h : isBoardFull b = true) : hasEmpty b = false := by
  rw [isBoardFull_eq] at h; simpa using h

/-- The sign of the score: at a node reached by alternate play from a board without a
completed pattern, with `d` plus the number of empty cells at most 9, `minimax` returns a
negative score exactly when the opponent can force a completed pattern of its own. -/
theorem minimax_sign (m : Mark) :
    ∀ (fuel : Nat) (b : Board) (d : Int) (im : Bool) (v : Int) (n : Nat),
      countEmpty b ≤ fuel → countEmpty b ≤ n → d + countEmpty b ≤ 9 →
      (if im = true then hasLine b m = false else hasLine b m.other = false) →
      GameAI.minimax fuel b d im m m.other = some (Score.fin v, b) →
      (v < 0 ↔ oppCanForce m n (!im) b = true) := by
  intro fuel
  induction fuel with
  | zero =>
    intro b d im v n hf hn hd hinv hv
    by_cases h1 : GameAI.checkWinner b = some m
    · rw [minimax_win 0 b d im m m.other h1] at hv
      injection hv with h; injection h with h _; injection h with h
      have hl := ai_checkWinner_hasLine h1
      cases im with
      | true => simp only [if_true] at hinv; rw [hl] at hinv; cases hinv
      | false =>
        simp only [Bool.false_eq_true, if_false] at hinv
        rw [oppCanForce_ownLine m n _ b hinv hl]
        constructor
        · intro; omega
        · intro hc; cases hc
    by_cases h2 : GameAI.checkWinner b = some m.other
    · rw [minimax_loss 0 b d im m m.other h1 h2] at hv
      injection hv with h; injection h with h _; injection h with h
      rw [oppCanForce_oppLine m n _ b (ai_checkWinner_hasLine h2)]
      constructor
      · intro; rfl
      · intro; omega
    have hw := ai_checkWinner_none_of_ne h1 h2
    cases h3 : isBoardFull b with
    | true =>
      rw [minimax_full 0 b d im m m.other h1 h2 h3] at hv
      injection hv with h; injection h with h _; injection h with h
      rw [oppCanForce_full m n _ b (hasLine_false_of_checkWinner_none hw _)
        (hasLine_false_of_checkWinner_none hw _) (hasEmpty_false_of_full h3)]
      constructor
      · intro; omega
      · intro hc; cases hc
    | false =>
      rw [minimax_exhausted b d im m m.other h1 h2 h3] at hv
      cases hv
  | succ fuel ih =>
    intro b d im v n hf hn hd hinv hv
    by_cases h1 : GameAI.checkWinner b = some m
    · rw [minimax_win _ b d im m m.other h1] at hv
      injection hv with h; injection h with h _; injection h with h
      have hl := ai_checkWinner_hasLine h1
      cases im with
      | true => simp only [if_true] at hinv; rw [hl] at hinv; cases hinv
      | false =>
        simp only [Bool.false_eq_true, if_false] at hinv
        rw [oppCanForce_ownLine m n _ b hinv hl]
        constructor
        · intro; omega
        · intro hc; cases hc
    by_cases h2 : GameAI.checkWinner b = some m.other
    · rw [minimax_loss _ b d im m m.other h1 h2] at hv
      injection hv with h; injection h with h _; injection h with h
      rw [oppCanForce_oppLine m n _ b (ai_checkWinner_hasLine h2)]
      constructor
      · intro; rfl
      · intro; omega
    have hw := ai_checkWinner_none_of_ne h1 h2
    have hlo := hasLine_false_of_checkWinner_none hw m.other
    have hlm := hasLine_false_of_checkWinner_none hw m
    cases h3 : isBoardFull b with
    | true =>
      rw [minimax_full _ b d im m m.other h1 h2 h3] at hv
      injection hv with h; injection h with h _; injection h with h
      rw [oppCanForce_full m n _ b hlo hlm (hasEmpty_false_of_full h3)]
      constructor
      · intro; omega
      · intro hc; cases hc
    | false =>
      have he := hasEmpty_of_not_full h3
      obtain ⟨i0, _, hi0⟩ := (isBoardFull_false_iff b).1 h3
      have hpos := countEmpty_pos_of_get hi0
      obtain ⟨n', rfl⟩ : ∃ n', n = n' + 1 := ⟨n - 1, by omega⟩
      cases im with
      | true =>
        have htot : ∀ i : Nat, b[i]? = some Cell.empty → ∃ u : Int,
            GameAI.minimax fuel (b.set i m.toCell) (d + 1) false m m.other =
              some (Score.fin u, b.set i m.toCell) :=
          fun i hi => minimax_total m m.other _ _ _ _ (by
            have := countEmpty_set m hi; omega)
        have hchild : ∀ (i : Nat) (u : Int), b[i]? = some Cell.empty →
            GameAI.minimax fuel (b.set i m.toCell) (d + 1) false m m.other =
              some (Score.fin u, b.set i m.toCell) →
            (u < 0 ↔ oppCanForce m n' true (b.set i m.toCell) = true) := by
          intro i u hi hu
          have hcnt := countEmpty_set m hi
          refine ih _ _ _ u n' (by omega) (by omega) (by omega) ?_ hu
          simp only [Bool.false_eq_true, if_false]
          cases h : hasLine (b.set i m.toCell) m.other with
          | false => rfl
          | true =>
            have := hasLine_set_other (toCell_ne_other m) h
            rw [hlo] at this; cases this
        obtain ⟨v', hv', ⟨i, hic, hi⟩, hall⟩ := minimax_max_node fuel b d m m.other h1 h2 h3 htot
        rw [hv'] at hv
        injection hv with h; injection h with h _; injection h with h
        subst h
        simp only [Bool.not_true]
        rw [oppCanForce_own_step m n' b hlo hlm he]
        constructor
        · intro hneg j hj
          obtain ⟨u, hu⟩ := htot j hj
          have := hall j u hj hu
          exact (hchild j u hj hu).1 (by omega)
        · intro hforce
          exact (hchild i v' hic hi).2 (hforce i hic)
      | false =>
        have htot : ∀ i : Nat, b[i]? = some Cell.empty → ∃ u : Int,
            GameAI.minimax fuel (b.set i m.other.toCell) (d + 1) true m m.other =
              some (Score.fin u, b.set i m.other.toCell) :=
          fun i hi => minimax_total m m.other _ _ _ _ (by
            have := countEmpty_set m.other hi; omega)
        have hchild : ∀ (i : Nat) (u : Int), b[i]? = some Cell.empty →
            GameAI.minimax fuel (b.set i m.other.toCell) (d + 1) true m m.other =
              some (Score.fin u, b.set i m.other.toCell) →
            (u < 0 ↔ oppCanForce m n' false (b.set i m.other.toCell) = true) := by
          intro i u hi hu
          have hcnt := countEmpty_set m.other hi
          refine ih _ _ _ u n' (by omega) (by omega) (by omega) ?_ hu
          simp only [if_true]
          cases h : hasLine (b.set i m.other.toCell) m with
          | false => rfl
          | true =>
            have := hasLine_set_other (fun h => toCell_ne_other m h.symm) h
            rw [hlm] at this; cases this
        obtain ⟨v', hv', ⟨i, hic, hi⟩, hall⟩ := minimax_min_node fuel b d m m.other h1 h2 h3 htot
        rw [hv'] at hv
        injection hv with h; injection h with h _; injection h with h
        subst h
        simp only [Bool.not_false]
        rw [oppCanForce_opp_step m n' b hlo hlm he]
        constructor
        · intro hneg
          exact ⟨i, hic, (hchild i v' hic hi).1 hneg⟩
        · rintro ⟨j, hj, hforce⟩
          obtain ⟨u, hu⟩ := htot j hj
          have := hall j u hj hu
          have := (hchild j u hj hu).2 hforce
          omega

/-- On a nine-cell board with no completed pattern and an empty cell, if some empty cell
leaves the opponent unable to force a pattern, `minimaxMove` returns such a cell. -/
theorem minimaxMove_avoids_forced_loss (board : Board) (hlen : board.length = 9) (m : Mark)
    (hno : anyLine board = false) (he : hasEmpty board = true)
    (hex : ∃ c : Nat, board[c]? = some Cell.empty ∧
      oppCanForce m 9 true (board.set c m.toCell) = false) :
    ∃ i : Nat, GameAI.minimaxMove board m = some ((i : Int), board) ∧
      board[i]? = some Cell.empty ∧ oppCanForce m 9 true (board.set i m.toCell) = false := by
  have hnf : isBoardFull board = false := by rw [isBoardFull_eq, he]; rfl
  obtain ⟨i, u, hrun, hic, hu, hmax, _⟩ := minimaxMove_spec board m hnf
  obtain ⟨c, hc, hcsafe⟩ := hex
  have hcl := countEmpty_le_length board
  have hsign : ∀ (j : Nat) (w : Int), board[j]? = some Cell.empty →
      GameAI.minimax board.length (board.set j m.toCell) 0 false m m.other =
        some (Score.fin w, board.set j m.toCell) →
      (w < 0 ↔ oppCanForce m 9 true (board.set j m.toCell) = true) := by
    intro j w hj hw
    have hcnt := countEmpty_set m hj
    refine minimax_sign m _ _ 0 false w 9 (by omega) (by omega) (by omega) ?_ hw
    simp only [Bool.false_eq_true, if_false]
    cases h : hasLine (board.set j m.toCell) m.other with
    | false => rfl
    | true =>
      have := hasLine_set_other (toCell_ne_other m) h
      rw [(anyLine_false_iff board).1 hno] at this; cases this
  obtain ⟨w, hw⟩ := minimaxMove_calls_total board m c hc
  have hwu := hmax c w hc hw
  have hw0 : ¬ w < 0 := by
    intro hneg
    rw [(hsign c w hc hw).1 hneg] at hcsafe
    cases hcsafe
  refine ⟨i, hrun, hic, ?_⟩
  cases hf : oppCanForce m 9 true (board.set i m.toCell) with
  | false => rfl
  | true =>
    have := (hsign i u hic hu).2 hf
    omega

/-- C8: on a nine-cell board with no completed pattern and an empty cell, if some empty
cell leaves the opponent (moving next) unable to force a completed opponent pattern, then
`GameAI.makeMove(board, m, 'hard')` returns an empty cell with that property, and leaves
the board as it received it. -/
theorem hard_avoids_forced_loss (board : Board) (hlen : board.length = 9) (m : Mark)
    (r1 r2 : ℚ) (hno : anyLine board = false) (he : hasEmpty board = true)
    (hex : ∃ c : Nat, board[c]? = some Cell.empty ∧
      oppCanForce m 9 true (board.set c m.toCell) = false) :
    ∃ i : Nat, GameAI.makeMove board m Difficulty.hard r1 r2 = some (some (i : Int), board) ∧
      board[i]? = some Cell.empty ∧ oppCanForce m 9 true (board.set i m.toCell) = false := by
  obtain ⟨i, hrun, hic, hsafe⟩ := minimaxMove_avoids_forced_loss board hlen m hno he hex
  refine ⟨i, ?_, hic, hsafe⟩
  simp only [GameAI.makeMove, hrun, Option.map_some']

/-- A property of the cells 0..8 holds of every cell of a nine-cell board. -/
theorem forall_cell_of_lt (b : Board) (hlen : b.length = 9) (P : Nat → Prop)
    (h : ∀ i, i < 9 → P i) : ∀ i : Nat, b[i]? = some Cell.empty → P i := by
  intro i hi
  apply h
  have := List.mem_range.1 (mem_range_of_get hi)
  omega

/-- On `[X,O,X,X,O,O,'','','']` the hard strategy for X returns a cell after which O
cannot force a pattern. -/
theorem hard_avoids_forced_loss_witness :
    ∃ i : Nat, GameAI.makeMove lateBoard Mark.X Difficulty.hard 0 0 =
        some (some (i : Int), lateBoard) ∧
      lateBoard[i]? = some Cell.empty ∧
      oppCanForce Mark.X 9 true (lateBoard.set i Mark.X.toCell) = false :=
  hard_avoids_forced_loss lateBoard (by decide) Mark.X 0 0 (by decide) (by decide)
    ⟨6, by decide, by decide⟩

/-- The blocking scenario: on `[X,X,'','','','','','','']` the hard strategy for O
returns 2. -/
theorem hard_blocks_witness :
    GameAI.makeMove blockBoard Mark.O Difficulty.hard 0 0 = some (some 2, blockBoard) :=
  hard_blocks blockBoard (by decide) Mark.O 2 0 0 (by decide)
    (forall_cell_of_lt blockBoard (by decide)
      (fun i => hasLine (blockBoard.set i Mark.O.toCell) Mark.O = false) (by decide))
    (by decide) (by decide)
    (fun j hj => forall_cell_of_lt blockBoard (by decide)
      (fun j => hasLine (blockBoard.set j Mark.O.other.toCell) Mark.O.other = true → j = 2)
      (by decide) j hj)

/-- On `[X,X,'','','','','','','']` medium difficulty with both draws 1/2 returns an
index of an empty cell. -/
theorem makeMove_sentinel_witness :
    ∃ idx : Int, GameAI.makeMove blockBoard Mark.O Difficulty.medium (1 / 2) (1 / 2) =
        some (some idx, blockBoard) ∧
      (idx = -1 ↔ hasEmpty blockBoard = false) ∧
      (hasEmpty blockBoard = true → 0 ≤ idx ∧ idx ≤ 8 ∧ blockBoard.at idx = some Cell.empty) :=
  makeMove_sentinel blockBoard (by decide) Mark.O Difficulty.medium (1 / 2) (1 / 2)
    isDraw_half isDraw_half

/-! ## The certificate: O has a drawing strategy from the empty board -/

namespace Certificate

theorem isE_iff (c : Cell) : isE c = true ↔ c = Cell.empty := by
  cases c <;> simp [isE]

theorem eqC_iff (x y : Cell) : eqC x y = true ↔ x = y := by
  cases x <;> cases y <;> simp [eqC]

theorem emptyAt_iff (b : Board) (j : Nat) : emptyAt b j = true ↔ b[j]? = some Cell.empty := by
  induction b generalizing j with
  | nil => simp [emptyAt]
  | cons c cs ih =>
    cases j with
    | zero => simp [emptyAt, isE_iff]
    | succ k => simp [emptyAt, ih]

theorem hasEmptyB_eq (b : Board) : hasEmptyB b = hasEmpty b := by
  induction b with
  | nil => rfl
  | cons c cs ih =>
    rw [Bool.eq_iff_iff]
    simp only [hasEmptyB, ih, Bool.or_eq_true, isE_iff, hasEmpty, List.contains_cons,
      beq_iff_eq]
    constructor
    · rintro (h | h)
      · exact Or.inl h.symm
      · exact Or.inr h
    · rintro (h | h)
      · exact Or.inl h.symm
      · exact Or.inr h

theorem exists_nine (b : Board) (h : b.length = 9) :
    ∃ c0 c1 c2 c3 c4 c5 c6 c7 c8, b = [c0, c1, c2, c3, c4, c5, c6, c7, c8] := by
  match b, h with
  | [c0, c1, c2, c3, c4, c5, c6, c7, c8], _ => exact ⟨c0, c1, c2, c3, c4, c5, c6, c7, c8, rfl⟩

theorem three_iff (m x y z : Cell) : three m x y z = true ↔ x = m ∧ y = m ∧ z = m := by
  simp [three, eqC_iff, and_assoc]

theorem lineB_eq (b : Board) (h : b.length = 9) (m : Mark) :
    lineB m.toCell b = hasLine b m := by
  obtain ⟨c0, c1, c2, c3, c4, c5, c6, c7, c8, rfl⟩ := exists_nine b h
  rw [Bool.eq_iff_iff]
  simp only [lineB, Bool.or_eq_true, three_iff, hasLine, winPatterns, List.any_cons,
    List.any_nil, Bool.or_false, lineOf_iff]
  simp [or_assoc]

theorem withBoard_eq (b : Board) (h : b.length = 9) (k : Board → Bool) :
    withBoard b k = k b := by
  obtain ⟨c0, c1, c2, c3, c4, c5, c6, c7, c8, rfl⟩ := exists_nine b h
  rfl

theorem withIndex_eq (i : Nat) (k : Nat → Bool) : withIndex i k = k i := by
  cases i <;> rfl

/-- Soundness of the certificate: when `holds n b` succeeds on a nine-cell board without a
completed pattern, X cannot force a completed pattern of X, whatever the number of plies. -/
theorem holds_sound : ∀ (n : Nat) (b : Board), b.length = 9 → hasLine b Mark.X = false →
    hasLine b Mark.O = false → holds n b = true →
    ∀ N, oppCanForce Mark.O N true b = false := by
  intro n
  induction n with
  | zero =>
    intro b _ hX hO hh N
    have he : hasEmpty b = false := by
      simp only [holds, hasEmptyB_eq] at hh
      simpa using hh
    exact oppCanForce_full Mark.O N true b hX hO he
  | succ n ih =>
    intro b hlen hX hO hh N
    cases he : hasEmpty b with
    | false => exact oppCanForce_full Mark.O N true b hX hO he
    | true =>
      cases N with
      | zero => exact oppCanForce_zero Mark.O true b hX
      | succ N1 =>
        cases hforce : oppCanForce Mark.O (N1 + 1) true b with
        | false => rfl
        | true =>
          exfalso
          obtain ⟨j, hj, hj1⟩ := (oppCanForce_opp_step Mark.O N1 b hX hO he).1 hforce
          have hj9 : j < 9 := by
            have := List.mem_range.1 (mem_range_of_get hj)
            omega
          have hb1len : (b.set j Cell.X).length = 9 := by simp [hlen]
          simp only [holds, List.all_eq_true, List.mem_range, Bool.or_eq_true,
            Bool.not_eq_true'] at hh
          have hstep := hh j hj9
          rw [withBoard_eq _ hb1len] at hstep
          rcases hstep with hne | hstep
          · rw [(emptyAt_iff b j).2 hj] at hne; cases hne
          simp only [Bool.and_eq_true, Bool.not_eq_true', Bool.or_eq_true] at hstep
          obtain ⟨hl1, hrest⟩ := hstep
          have hX1 : hasLine (b.set j Cell.X) Mark.X = false := by
            rw [← lineB_eq _ hb1len]; exact hl1
          have hO1 : hasLine (b.set j Cell.X) Mark.O = false := by
            cases h : hasLine (b.set j Cell.X) Mark.O with
            | false => rfl
            | true =>
              have := hasLine_set_other (m := Mark.O) (by decide) h
              rw [hO] at this; cases this
          change oppCanForce Mark.O N1 false (b.set j Cell.X) = true at hj1
          rcases hrest with hfull | hrest
          · rw [hasEmptyB_eq] at hfull
            rw [oppCanForce_full Mark.O N1 false _ hX1 hO1 hfull] at hj1
            cases hj1
          rw [withIndex_eq] at hrest
          simp only [Bool.and_eq_true] at hrest
          obtain ⟨hre, hrest⟩ := hrest
          have hr := (emptyAt_iff _ _).1 hre
          have he1 : hasEmpty (b.set j Cell.X) = true :=
            (hasEmpty_iff _).2 ⟨_, List.mem_range.1 (mem_range_of_get hr), hr⟩
          cases N1 with
          | zero =>
            rw [oppCanForce_zero Mark.O false _ hX1] at hj1
            cases hj1
          | succ N2 =>
            have hall := (oppCanForce_own_step Mark.O N2 _ hX1 hO1 he1).1 hj1
            have hr2 := hall _ hr
            change oppCanForce Mark.O N2 true
              ((b.set j Cell.X).set (reply (b.set j Cell.X)) Cell.O) = true at hr2
            have hb2len : ((b.set j Cell.X).set (reply (b.set j Cell.X)) Cell.O).length = 9 := by
              simp [hlen]
            rw [withBoard_eq _ hb2len] at hrest
            have hX2 : hasLine ((b.set j Cell.X).set (reply (b.set j Cell.X)) Cell.O)
                Mark.X = false := by
              cases h : hasLine ((b.set j Cell.X).set (reply (b.set j Cell.X)) Cell.O)
                  Mark.X with
              | false => rfl
              | true =>
                have := hasLine_set_other (m := Mark.X) (by decide) h
                rw [hX1] at this; cases this
            cases hO2 : hasLine ((b.set j Cell.X).set (reply (b.set j Cell.X)) Cell.O)
                Mark.O with
            | true =>
              rw [oppCanForce_ownLine Mark.O N2 true _ hX2 hO2] at hr2
              cases hr2
            | false =>
              simp only [Bool.or_eq_true, Bool.not_eq_true'] at hrest
              rcases hrest with (hl2 | hfull2) | hh2
              · have hlb := lineB_eq _ hb2len Mark.O
                change lineB Cell.O _ = _ at hlb
                rw [hlb, hO2] at hl2; cases hl2
              · rw [hasEmptyB_eq] at hfull2
                rw [oppCanForce_full Mark.O N2 true _ hX2 hO2 hfull2] at hr2
                cases hr2
              · rw [ih _ hb2len hX2 hO2 hh2 N2] at hr2
                cases hr2

theorem holds_empty : holds 5 (List.replicate 9 Cell.empty) = true := by decide!

end Certificate

/-- On the empty board X, moving first, cannot force a completed pattern of X. -/
theorem empty_board_safe (N : Nat) :
    oppCanForce Mark.O N true (List.replicate 9 Cell.empty) = false :=
  Certificate.holds_sound 5 _ (by decide) (by decide) (by decide) Certificate.holds_empty N

/-! ## The hard opponent never loses -/

/-- With at least as many plies as there are empty cells, more plies change nothing. -/
theorem oppCanForce_fuel (m : Mark) :
    ∀ (n n' : Nat) (b : Board) (t : Bool), countEmpty b ≤ n → countEmpty b ≤ n' →
      oppCanForce m n t b = oppCanForce m n' t b := by
  intro n
  induction n with
  | zero =>
    intro n' b t h0 _
    cases h1 : hasLine b m.other with
    | true => rw [oppCanForce_oppLine m _ t b h1, oppCanForce_oppLine m _ t b h1]
    | false =>
      cases h2 : hasLine b m with
      | true => rw [oppCanForce_ownLine m _ t b h1 h2, oppCanForce_ownLine m _ t b h1 h2]
      | false =>
        cases h3 : hasEmpty b with
        | false => rw [oppCanForce_full m _ t b h1 h2 h3, oppCanForce_full m _ t b h1 h2 h3]
        | true =>
          obtain ⟨i, _, hi⟩ := (hasEmpty_iff b).1 h3
          have := countEmpty_pos_of_get hi
          omega
  | succ k ih =>
    intro n' b t hk hn'
    cases h1 : hasLine b m.other with
    | true => rw [oppCanForce_oppLine m _ t b h1, oppCanForce_oppLine m _ t b h1]
    | false =>
      cases h2 : hasLine b m with
      | true => rw [oppCanForce_ownLine m _ t b h1 h2, oppCanForce_ownLine m _ t b h1 h2]
      | false =>
        cases h3 : hasEmpty b with
        | false => rw [oppCanForce_full m _ t b h1 h2 h3, oppCanForce_full m _ t b h1 h2 h3]
        | true =>
          obtain ⟨i, _, hi⟩ := (hasEmpty_iff b).1 h3
          have hpos := countEmpty_pos_of_get hi
          obtain ⟨k', rfl⟩ : ∃ k', n' = k' + 1 := ⟨n' - 1, by omega⟩
          rw [Bool.eq_iff_iff]
          cases t with
          | true =>
            rw [oppCanForce_opp_step m k b h1 h2 h3, oppCanForce_opp_step m k' b h1 h2 h3]
            constructor
            · rintro ⟨j, hj, hf⟩
              have := countEmpty_set m.other hj
              exact ⟨j, hj, by rw [← ih k' _ false (by omega) (by omega)]; exact hf⟩
            · rintro ⟨j, hj, hf⟩
              have := countEmpty_set m.other hj
              exact ⟨j, hj, by rw [ih k' _ false (by omega) (by omega)]; exact hf⟩
          | false =>
            rw [oppCanForce_own_step m k b h1 h2 h3, oppCanForce_own_step m k' b h1 h2 h3]
            constructor
            · intro h j hj
              have := countEmpty_set m hj
              rw [← ih k' _ true (by omega) (by omega)]; exact h j hj
            · intro h j hj
              have := countEmpty_set m hj
              rw [ih k' _ true (by omega) (by omega)]; exact h j hj

theorem countEmpty_le_nine {b : Board} (h : b.length = 9) : countEmpty b ≤ 9 := by
  have := countEmpty_le_length b
  omega

theorem hardInv_start (s0 : State) : HardInv (initBoard s0).2 := by
  rw [initBoard_snd]
  refine ⟨by decide, by decide, fun _ => ⟨by decide, by decide, ?_⟩⟩
  exact empty_board_safe 9

/-- The state after a successful move holds the written board, and play continues only on
a board without a completed pattern and with an empty cell, the other player to move. -/
theorem makeMove_valid_state (s : State) (index : Int)
    (hg : s.gameOver = false) (hc : s.board.at index = some Cell.empty) :
    (makeMove s index).2.board = placed s index ∧
    ((makeMove s index).2.gameOver = false →
      anyLine (placed s index) = false ∧ hasEmpty (placed s index) = true ∧
      (makeMove s index).2.currentPlayer = s.currentPlayer.other) := by
  rw [makeMove_valid s index hg hc]
  cases hf : firstDone (placed s index) winPatterns with
  | some p => exact ⟨rfl, fun h => by cases h⟩
  | none =>
    have ha : anyLine (placed s index) = false := (firstDone_none_iff _).1 hf
    by_cases hfull : isBoardFull (placed s index) = true
    · simp only []
      rw [if_pos hfull]
      exact ⟨rfl, fun h => by cases h⟩
    · have he : hasEmpty (placed s index) = true := by
        rw [isBoardFull_eq] at hfull; simpa using hfull
      simp only []
      rw [if_neg hfull]
      exact ⟨rfl, fun _ => ⟨ha, he, rfl⟩⟩

theorem hardInv_human (s : State) (index : Int) (hinv : HardInv s)
    (hx : s.currentPlayer = Mark.X) : HardInv (makeMove s index).2 := by
  by_cases hc : s.gameOver = true ∨ s.board.at index ≠ some Cell.empty
  · rw [makeMove_invalid s index hc]; exact hinv
  · have hg : s.gameOver = false := by
      cases hgo : s.gameOver with
      | false => rfl
      | true => exact absurd (Or.inl hgo) hc
    have hcell : s.board.at index = some Cell.empty := by
      by_contra h2; exact hc (Or.inr h2)
    obtain ⟨hlen, hX, hrest⟩ := hinv
    obtain ⟨hO, he, hsafe⟩ := hrest hg
    obtain ⟨h0, _, hget⟩ := at_eq_some hcell
    rw [hx] at hsafe
    simp only [decide_True] at hsafe
    -- every move of X leads to a board on which X still cannot force a pattern
    have hchild : oppCanForce Mark.O 8 false (placed s index) = false := by
      cases h : oppCanForce Mark.O 8 false (placed s index) with
      | false => rfl
      | true =>
        have := (oppCanForce_opp_step Mark.O 8 s.board hX hO he).2
          ⟨index.toNat, hget, by
            have hp : placed s index = s.board.set index.toNat Mark.O.other.toCell := by
              simp only [placed, hx]; rfl
            rw [← hp]; exact h⟩
        rw [hsafe] at this; cases this
    have hcnt : countEmpty (placed s index) + 1 = countEmpty s.board := by
      simp only [placed]; exact countEmpty_set _ hget
    have hc9 := countEmpty_le_nine hlen
    have hX1 : hasLine (placed s index) Mark.X = false := by
      cases h : hasLine (placed s index) Mark.X with
      | false => rfl
      | true =>
        rw [oppCanForce_oppLine Mark.O 8 false _ h] at hchild; cases hchild
    obtain ⟨hb, hcont⟩ := makeMove_valid_state s index hg hcell
    refine ⟨by rw [hb]; simp [placed, hlen], by rw [hb]; exact hX1, ?_⟩
    intro hgo
    obtain ⟨ha, he1, hcp⟩ := hcont hgo
    rw [hb, hcp, hx]
    refine ⟨(anyLine_false_iff _).1 ha Mark.O, he1, ?_⟩
    rw [oppCanForce_fuel Mark.O 9 8 _ _ (by omega) (by omega)]
    exact hchild

/-- In a state of the invariant with O to move, the hard strategy returns an empty cell
after which X cannot force a pattern. -/
theorem hardInv_reply (s : State) (hinv : HardInv s) (ho : s.currentPlayer = Mark.O)
    (hg : s.gameOver = false) (r1 r2 : ℚ) :
    ∃ i : Nat, GameAI.makeMove s.board Mark.O Difficulty.hard r1 r2 =
        some (some (i : Int), s.board) ∧
      s.board[i]? = some Cell.empty ∧
      oppCanForce Mark.O 9 true (s.board.set i Mark.O.toCell) = false := by
  obtain ⟨hlen, hX, hrest⟩ := hinv
  obtain ⟨hO, he, hsafe⟩ := hrest hg
  rw [ho] at hsafe
  have hsafe' : oppCanForce Mark.O 9 false s.board = false := hsafe
  have hc9 := countEmpty_le_nine hlen
  have hex : ∃ c : Nat, s.board[c]? = some Cell.empty ∧
      oppCanForce Mark.O 9 true (s.board.set c Mark.O.toCell) = false := by
    by_contra hcon
    push_neg at hcon
    have hall : ∀ j : Nat, s.board[j]? = some Cell.empty →
        oppCanForce Mark.O 8 true (s.board.set j Mark.O.toCell) = true := by
      intro j hj
      have hcnt := countEmpty_set Mark.O hj
      rw [oppCanForce_fuel Mark.O 8 9 _ _ (by omega) (by omega)]
      cases h : oppCanForce Mark.O 9 true (s.board.set j Mark.O.toCell) with
      | true => rfl
      | false => exact absurd h (hcon j hj)
    have := (oppCanForce_own_step Mark.O 8 s.board hX hO he).2 hall
    rw [hsafe'] at this; cases this
  have hno : anyLine s.board = false := by
    rw [anyLine_false_iff]
    intro n
    cases n
    · exact hX
    · exact hO
  obtain ⟨i, hrun, hic, hsafe⟩ := minimaxMove_avoids_forced_loss s.board hlen Mark.O hno he hex
  exact ⟨i, makeMove_hard_eq s.board Mark.O r1 r2 _ hrun, hic, hsafe⟩

theorem hardInv_ai (s : State) (r1 r2 : ℚ) (aiMove : Int) (board1 : Board)
    (hinv : HardInv s) (ho : s.currentPlayer = Mark.O) (hg : s.gameOver = false)
    (hai : GameAI.makeMove (getState s).1 s.currentPlayer Difficulty.hard r1 r2 =
      some (some aiMove, board1)) : HardInv (makeMove s aiMove).2 := by
  obtain ⟨i, hrun, hic, hsafe⟩ := hardInv_reply s hinv ho hg r1 r2
  have hidx : aiMove = (i : Int) := by
    rw [ho] at hai
    have : GameAI.makeMove s.board Mark.O Difficulty.hard r1 r2 =
        some (some aiMove, board1) := hai
    rw [hrun] at this
    injection this with h; injection h with h _; injection h with h
    exact h.symm
  subst hidx
  obtain ⟨hlen, hX, _⟩ := hinv
  have hcell : s.board.at (i : Int) = some Cell.empty := by
    rw [at_of_nonneg _ (by omega)]; simpa using hic
  have hp : placed s (i : Int) = s.board.set i Mark.O.toCell := by
    simp only [placed, ho, Int.toNat_ofNat]
  obtain ⟨hb, hcont⟩ := makeMove_valid_state s (i : Int) hg hcell
  have hX1 : hasLine (placed s (i : Int)) Mark.X = false := by
    rw [hp]
    cases h : hasLine (s.board.set i Mark.O.toCell) Mark.X with
    | false => rfl
    | true =>
      have := hasLine_set_other (m := Mark.X) (by decide) h
      rw [hX] at this; cases this
  refine ⟨by rw [hb]; simp [placed, hlen], by rw [hb]; exact hX1, ?_⟩
  intro hgo
  obtain ⟨ha, he1, hcp⟩ := hcont hgo
  rw [hb, hcp, ho]
  refine ⟨(anyLine_false_iff _).1 ha Mark.O, he1, ?_⟩
  rw [hp]
  exact hsafe

theorem hardGame_inv {s : State} (h : HardGame s) : HardInv s := by
  induction h with
  | start s0 => exact hardInv_start s0
  | human s index _ hx ih => exact hardInv_human s index ih hx
  | ai s r1 r2 aiMove board1 _ ho hg hai _ ih => exact hardInv_ai s r1 r2 aiMove board1 ih ho hg hai

/-- C7: in every state of a game that starts from the initialized board, in which X makes
any moves and every move of O is the index returned by `GameAI.makeMove(board, 'O', 'hard')`
applied through `GameBoard.makeMove`, X fills no pattern and `checkWinner` does not return
'X'; and whenever O is to move in an unfinished game the hard strategy returns an empty
cell, whatever the draws, and the move is accepted. -/
theorem hard_never_loses (s : State) (h : HardGame s) :
    hasLine s.board Mark.X = false ∧
    (GameBoard.checkWinner s).1 ≠ some Mark.X ∧
    (s.gameOver = false → s.currentPlayer = Mark.O →
      ∃ i : Nat, (∀ r1 r2 : ℚ, GameAI.makeMove (getState s).1 s.currentPlayer
          Difficulty.hard r1 r2 = some (some (i : Int), s.board)) ∧
        (i : Int) ≠ -1 ∧ (makeMove s (i : Int)).1.valid = true) := by
  have hinv := hardGame_inv h
  refine ⟨hinv.2.1, ?_, ?_⟩
  · intro hw
    rw [board_checkWinner_fst] at hw
    have := ai_checkWinner_hasLine hw
    rw [hinv.2.1] at this
    cases this
  · intro hg ho
    obtain ⟨i, hrun, hic, _⟩ := hardInv_reply s hinv ho hg 0 0
    refine ⟨i, ?_, by omega, ?_⟩
    · intro r1 r2
      obtain ⟨i2, hrun2, _, _⟩ := hardInv_reply s hinv ho hg r1 r2
      have h0 : GameAI.makeMove s.board Mark.O Difficulty.hard r1 r2 =
          GameAI.makeMove s.board Mark.O Difficulty.hard 0 0 := rfl
      rw [ho]
      exact h0.trans hrun
    · have hcell : s.board.at (i : Int) = some Cell.empty := by
        rw [at_of_nonneg _ (by omega)]; simpa using hic
      exact (makeMove_valid_frame s (i : Int) hg hcell).1

/-- After X opens in the centre, X fills no pattern and the hard strategy has a reply. -/
theorem hard_never_loses_witness :
    hasLine (makeMove loaded 4).2.board Mark.X = false ∧
    (GameBoard.checkWinner (makeMove loaded 4).2).1 ≠ some Mark.X ∧
    ((makeMove loaded 4).2.gameOver = false → (makeMove loaded 4).2.currentPlayer = Mark.O →
      ∃ i : Nat, (∀ r1 r2 : ℚ, GameAI.makeMove (getState (makeMove loaded 4).2).1
          (makeMove loaded 4).2.currentPlayer Difficulty.hard r1 r2 =
            some (some (i : Int), (makeMove loaded 4).2.board)) ∧
        (i : Int) ≠ -1 ∧ (makeMove (makeMove loaded 4).2 (i : Int)).1.valid = true) :=
  hard_never_loses (makeMove loaded 4).2 (HardGame.human loaded 4 (HardGame.start loaded) rfl)

/-! ## The caller's board after `GameAI.makeMove` -/

/-- `minimaxMove` returns with the board as it received it, on every board. -/
theorem minimaxMove_restores (board : Board) (m : Mark) :
    ∃ mv : Int, GameAI.minimaxMove board m = some (mv, board) := by
  obtain ⟨mv, hrun, _⟩ := minimaxMoveLoop_spec board.length m m.other board
    (minimaxMove_calls_total board m) (List.range board.length) Score.negInf (-1)
  exact ⟨mv, hrun⟩

/-- C11: for every board, mark, difficulty and pair of draws, `GameAI.makeMove` returns
and the board array then holds the cell values it held before the call. The same holds of
`minimaxMove` and of every call of `minimax` that has at least as much fuel as the board
has empty cells, and a cell that was empty is empty again once the written mark has been
cleared. -/
theorem makeMove_restores_board (board : Board) (m : Mark) (d : Difficulty) (r1 r2 : ℚ) :
    (∃ res : Option Int, GameAI.makeMove board m d r1 r2 = some (res, board)) ∧
    (∃ mv : Int, GameAI.minimaxMove board m = some (mv, board)) ∧
    (∀ (k : Nat) (b : Board) (depth : Int) (im : Bool) (pm om : Mark),
      ∃ v : Int, GameAI.minimax (countEmpty b + k) b depth im pm om = some (Score.fin v, b)) ∧
    (∀ (b : Board) (i : Nat) (x : Cell), b[i]? = some Cell.empty →
      (b.set i x).set i Cell.empty = b) := by
  refine ⟨?_, minimaxMove_restores board m, ?_, fun b i x h => set_restore x h⟩
  · cases d with
    | easy => exact ⟨_, rfl⟩
    | medium =>
      by_cases hr : r1 < GameAI.pointSix
      · exact ⟨GameAI.strategicMove board m r2, by simp only [GameAI.makeMove, if_pos hr]⟩
      · exact ⟨GameAI.randomMove board r2, by simp only [GameAI.makeMove, if_neg hr]⟩
    | hard =>
      obtain ⟨mv, hmv⟩ := minimaxMove_restores board m
      exact ⟨some mv, by simp only [GameAI.makeMove, hmv, Option.map_some']⟩
  · intro k b depth im pm om
    exact minimax_total pm om _ b depth im (Nat.le_add_right _ _)

/-! ## Undo -/

theorem undoMove_nil (s : State) (h : s.moveHistory = []) : undoMove s = (none, s) := by
  unfold undoMove
  rw [h]
  rfl

theorem undoMove_append (s : State) (h : List HistoryEntry) (e : HistoryEntry)
    (hs : s.moveHistory = h ++ [e]) :
    undoMove s =
      (some { valid := true, board := e.board, currentPlayer := e.player, gameOver := false,
              winner := some none, winPattern := none, isDraw := some false },
       { board := e.board, currentPlayer := e.player, gameOver := false, winPattern := none,
         moveHistory := h }) := by
  unfold undoMove
  rw [hs, List.getLast?_append, List.dropLast_concat]
  rfl

theorem undoMove_isSome_iff (s : State) :
    (undoMove s).1.isSome = true ↔ s.moveHistory ≠ [] := by
  constructor
  · intro h hnil
    rw [undoMove_nil s hnil] at h
    cases h
  · intro h
    obtain ⟨l, e, hl⟩ : ∃ l e, s.moveHistory = l ++ [e] :=
      ⟨s.moveHistory.dropLast, s.moveHistory.getLast h, (List.dropLast_append_getLast h).symm⟩
    rw [undoMove_append s l e hl]
    rfl

/-- C12: after a successful `makeMove(index)` an immediately following `undoMove()` returns
a result (not `null`) and leaves the board, the current player, the flag `gameOver` and
the move history equal to their values before the move. -/
theorem undo_after_move (s : State) (index : Int) (hv : (makeMove s index).1.valid = true) :
    (undoMove (makeMove s index).2).1.isSome = true ∧
    (undoMove (makeMove s index).2).2.board = s.board ∧
    (undoMove (makeMove s index).2).2.currentPlayer = s.currentPlayer ∧
    (undoMove (makeMove s index).2).2.gameOver = s.gameOver ∧
    (undoMove (makeMove s index).2).2.moveHistory = s.moveHistory := by
  obtain ⟨hg, hc⟩ := valid_imp s index hv
  have hh := (makeMove_valid_frame s index hg hc).2.2.2.1
  rw [undoMove_append _ s.moveHistory
    { index := index, player := s.currentPlayer, board := s.board } hh]
  exact ⟨rfl, rfl, rfl, hg.symm, rfl⟩

/-- Undoing the centre move of the initial board restores the initial board. -/
theorem undo_after_move_witness :
    (undoMove (makeMove loaded 4).2).1.isSome = true ∧
    (undoMove (makeMove loaded 4).2).2.board = loaded.board ∧
    (undoMove (makeMove loaded 4).2).2.moveHistory = loaded.moveHistory :=
  let h := undo_after_move loaded 4 (by decide)
  ⟨h.1, h.2.1, h.2.2.2.2⟩

/-- The invariant of the states reached from `initialize()` by `makeMove` calls alone:
without a recorded move the state is the initial one, and the oldest recorded move was
made by X on the empty board. -/
theorem playMoves_history (moves : List Int) :
    ∀ s : State,
      ((s.moveHistory = [] → s = loaded) ∧
        (∀ e rest, s.moveHistory = e :: rest →
          e.board = List.replicate 9 Cell.empty ∧ e.player = Mark.X)) →
      (((playMoves s moves).moveHistory = [] → playMoves s moves = loaded) ∧
        (∀ e rest, (playMoves s moves).moveHistory = e :: rest →
          e.board = List.replicate 9 Cell.empty ∧ e.player = Mark.X)) := by
  induction moves with
  | nil => intro s h; exact h
  | cons index rest ih =>
    intro s h
    apply ih
    by_cases hc : s.gameOver = true ∨ s.board.at index ≠ some Cell.empty
    · rw [makeMove_invalid s index hc]; exact h
    · have hg : s.gameOver = false := by
        cases hgo : s.gameOver with
        | false => rfl
        | true => exact absurd (Or.inl hgo) hc
      have hcell : s.board.at index = some Cell.empty := by
        by_contra h2; exact hc (Or.inr h2)
      have hh := (makeMove_valid_frame s index hg hcell).2.2.2.1
      rw [hh]
      constructor
      · intro hnil
        simp [recorded] at hnil
      · intro e tl he
        cases hm : s.moveHistory with
        | nil =>
          have hs := h.1 hm
          simp only [recorded, hm, List.nil_append, List.cons.injEq] at he
          rw [← he.1, hs]
          exact ⟨rfl, rfl⟩
        | cons e0 tl0 =>
          simp only [recorded, hm, List.cons_append, List.cons.injEq] at he
          rw [← he.1]
          exact h.2 e0 tl0 hm

theorem successes_length (moves : List Int) :
    ∀ s : State,
      (playMoves s moves).moveHistory.length = s.moveHistory.length + successes s moves := by
  induction moves with
  | nil => intro s; rfl
  | cons index rest ih =>
    intro s
    simp only [playMoves, successes]
    rw [ih]
    by_cases hc : s.gameOver = true ∨ s.board.at index ≠ some Cell.empty
    · rw [makeMove_invalid s index hc]
      simp
    · have hg : s.gameOver = false := by
        cases hgo : s.gameOver with
        | false => rfl
        | true => exact absurd (Or.inl hgo) hc
      have hcell : s.board.at index = some Cell.empty := by
        by_contra h2; exact hc (Or.inr h2)
      obtain ⟨hv, _, _, hh, _⟩ := makeMove_valid_frame s index hg hcell
      rw [hh, hv]
      simp only [recorded, List.length_append, List.length_singleton, if_true]
      omega

theorem undoTimes_length (k : Nat) :
    ∀ s : State, (undoTimes k s).moveHistory.length = s.moveHistory.length - k := by
  induction k with
  | zero => intro s; rfl
  | succ k ih =>
    intro s
    simp only [undoTimes]
    rw [ih]
    by_cases hnil : s.moveHistory = []
    · rw [undoMove_nil s hnil, hnil]; simp
    · obtain ⟨l, e, hl⟩ : ∃ l e, s.moveHistory = l ++ [e] :=
        ⟨s.moveHistory.dropLast, s.moveHistory.getLast hnil,
          (List.dropLast_append_getLast hnil).symm⟩
      rw [undoMove_append s l e hl, hl]
      simp only [List.length_append, List.length_singleton]
      omega

/-- Undoing a whole non-empty history leads to the snapshot and the player of its oldest
entry, with the game not over, no win pattern and an empty history. -/
theorem undoTimes_drain (n : Nat) :
    ∀ (s : State) (e : HistoryEntry) (rest : List HistoryEntry),
      s.moveHistory = e :: rest → rest.length = n →
      undoTimes (n + 1) s =
        { board := e.board, currentPlayer := e.player, gameOver := false, winPattern := none,
          moveHistory := [] } := by
  induction n with
  | zero =>
    intro s e rest hs hn
    have hrest : rest = [] := List.length_eq_zero.1 hn
    subst hrest
    simp only [undoTimes]
    rw [undoMove_append s [] e (by rw [hs]; rfl)]
  | succ n ih =>
    intro s e rest hs hn
    have hne : rest ≠ [] := by
      intro h; rw [h] at hn; cases hn
    have hsplit : s.moveHistory = (e :: rest.dropLast) ++ [rest.getLast hne] := by
      rw [hs, List.cons_append, List.dropLast_append_getLast hne]
    show undoTimes (n + 1) (undoMove s).2 = _
    rw [undoMove_append s _ _ hsplit]
    exact ih _ e rest.dropLast rfl (by rw [List.length_dropLast, hn]; rfl)

/-- C13: after `initialize()` and any sequence of `makeMove` calls of which `n` succeed,
each of the next `n` calls of `undoMove()` returns a result; the state is then the
initial one (empty board, X to move, game not over, empty history) and the next
`undoMove()` returns `null`. Whenever the history is empty `undoMove()` returns `null` and
leaves the state as it is. -/
theorem undo_drains (s0 : State) (moves : List Int) :
    (playMoves (initBoard s0).2 moves).moveHistory.length = successes (initBoard s0).2 moves ∧
    (∀ k, k < successes (initBoard s0).2 moves →
      (undoMove (undoTimes k (playMoves (initBoard s0).2 moves))).1.isSome = true) ∧
    undoTimes (successes (initBoard s0).2 moves) (playMoves (initBoard s0).2 moves) = loaded ∧
    (undoMove (undoTimes (successes (initBoard s0).2 moves)
      (playMoves (initBoard s0).2 moves))).1 = none ∧
    (∀ t : State, t.moveHistory = [] → undoMove t = (none, t)) := by
  have hlen : (playMoves (initBoard s0).2 moves).moveHistory.length =
      successes (initBoard s0).2 moves := by
    rw [successes_length, initBoard_snd]
    simp [loaded]
  have hinv := playMoves_history moves (initBoard s0).2
    ⟨fun _ => initBoard_snd s0, fun e rest h => by rw [initBoard_snd] at h; cases h⟩
  have hfinal : undoTimes (successes (initBoard s0).2 moves)
      (playMoves (initBoard s0).2 moves) = loaded := by
    rw [← hlen]
    cases hm : (playMoves (initBoard s0).2 moves).moveHistory with
    | nil => exact hinv.1 hm
    | cons e rest =>
      obtain ⟨hb, hp⟩ := hinv.2 e rest hm
      rw [List.length_cons, undoTimes_drain rest.length _ e rest hm rfl, hb, hp]
      rfl
  refine ⟨hlen, ?_, hfinal, ?_, undoMove_nil⟩
  · intro k hk
    rw [undoMove_isSome_iff]
    intro hnil
    have := undoTimes_length k (playMoves (initBoard s0).2 moves)
    rw [hnil, hlen] at this
    simp only [List.length_nil] at this
    omega
  · rw [hfinal]
    rfl

/-- C18: from every state `initialize()` leaves nine empty cells, X to move, the game not
over, no win pattern and an empty history, so that `undoMove()` then returns `null`; its
result reports the board, the player and the flag; and calling it twice leaves the same
state as calling it once. -/
theorem initialize_resets (s : State) :
    (initBoard s).2.board = List.replicate 9 Cell.empty ∧
    (initBoard s).2.board.length = 9 ∧
    (initBoard s).2.currentPlayer = Mark.X ∧
    (initBoard s).2.gameOver = false ∧
    (initBoard s).2.winPattern = none ∧
    (initBoard s).2.moveHistory = [] ∧
    (undoMove (initBoard s).2).1 = none ∧
    (initBoard s).1 = (List.replicate 9 Cell.empty, Mark.X, false) ∧
    (initBoard (initBoard s).2).2 = (initBoard s).2 ∧
    (initBoard (initBoard s).2).1 = (initBoard s).1 := by
  refine ⟨rfl, rfl, rfl, rfl, rfl, rfl, rfl, rfl, rfl, rfl⟩

/-! ## `setState` -/

/-- What `setState(getState())` does in every state: the board, the player, the flag and
the win pattern are kept and the move history is emptied, because the object returned by
`getState` has no property `moveHistory`. -/
theorem setState_getState_eq (s : State) :
    (setState s (some (snapshotOf (getState s)))).2 = { s with moveHistory := [] } := rfl

/-- C14 (the round trip fails on the history): in the state reached from `initialize()` by
`makeMove(4)`, which has one recorded move, `setState(getState())` keeps the board, the
player, the flag and the win pattern but leaves an empty move history; `undoMove()` then
returns `null`, while without the call it returns a result. -/
theorem setState_getState_loses_history :
    Reachable centreOpened ∧
    (setState centreOpened (some (snapshotOf (getState centreOpened)))).2.board =
      centreOpened.board ∧
    (setState centreOpened (some (snapshotOf (getState centreOpened)))).2.currentPlayer =
      centreOpened.currentPlayer ∧
    (setState centreOpened (some (snapshotOf (getState centreOpened)))).2.gameOver =
      centreOpened.gameOver ∧
    (setState centreOpened (some (snapshotOf (getState centreOpened)))).2.winPattern =
      centreOpened.winPattern ∧
    centreOpened.moveHistory.length = 1 ∧
    (setState centreOpened (some (snapshotOf (getState centreOpened)))).2.moveHistory = [] ∧
    (undoMove centreOpened).1.isSome = true ∧
    (undoMove (setState centreOpened (some (snapshotOf (getState centreOpened)))).2).1 =
      none := by
  refine ⟨Reachable.move _ 4 (Reachable.init loaded), ?_, ?_, ?_, ?_, ?_, ?_, ?_, ?_⟩ <;>
    decide

/-- C15 as stated fails: the snapshot whose board is the one-cell array `['X']` is
malformed, and `setState` leaves the engine with that one-cell board instead of the
freshly initialized state. -/
theorem setState_malformed_kept :
    (shortSnapshot.board = some [Cell.X]) ∧
    (setState loaded (some shortSnapshot)).2.board = [Cell.X] ∧
    (setState loaded (some shortSnapshot)).2.board.length ≠ 9 ∧
    (setState loaded (some shortSnapshot)).2 ≠ (initBoard loaded).2 := by
  refine ⟨?_, ?_, ?_, ?_⟩ <;> decide

/-- C15 (amended): for every snapshot that is missing or has no board, `setState` leaves
the engine in the freshly initialized state (nine empty cells, X to move, game not over,
no win pattern, empty history) and returns the result of `initialize()`. A snapshot that
has a board is not checked: its board is copied as given, whatever its length, with 'X',
`false`, `null` and the empty history for the properties that are absent. -/
theorem setState_fallback (s : State) (snapshot : Option Snapshot)
    (h : snapshot = none ∨ ∃ st, snapshot = some st ∧ st.board = none) :
    (setState s snapshot).2 = (initBoard s).2 ∧
    (setState s snapshot).2.board = List.replicate 9 Cell.empty ∧
    (setState s snapshot).2.currentPlayer = Mark.X ∧
    (setState s snapshot).2.gameOver = false ∧
    (setState s snapshot).2.winPattern = none ∧
    (setState s snapshot).2.moveHistory = [] ∧
    (setState s snapshot).1 = Sum.inl (initBoard s).1 ∧
    (∀ (st : Snapshot) (b : Board), st.board = some b →
      (setState s (some st)).2 =
        { board := b, currentPlayer := st.currentPlayer.getD Mark.X,
          gameOver := st.gameOver.getD false, winPattern := st.winPattern,
          moveHistory := st.moveHistory.getD [] }) := by
  have key : setState s snapshot = (Sum.inl (initBoard s).1, (initBoard s).2) := by
    rcases h with h | ⟨st, hst, hb⟩
    · rw [h]; rfl
    · rw [hst]
      simp only [setState, hb]
  refine ⟨by rw [key], by rw [key]; rfl, by rw [key]; rfl, by rw [key]; rfl, by rw [key]; rfl,
    by rw [key]; rfl, by rw [key], ?_⟩
  intro st b hb
  simp only [setState, hb]

/-- A missing snapshot resets the state reached by the centre move. -/
theorem setState_fallback_witness :
    (setState centreOpened none).2 = (initBoard centreOpened).2 ∧
    (setState centreOpened none).2.board = List.replicate 9 Cell.empty ∧
    (setState centreOpened none).2.moveHistory = [] :=
  let h := setState_fallback centreOpened none (Or.inl rfl)
  ⟨h.1, h.2.1, h.2.2.2.2.2.1⟩

/-! ## The flag `gameOver` and the board in reachable states -/

theorem anyLine_of_firstDone {b : Board} {p : Pattern}
    (h : firstDone b winPatterns = some p) : anyLine b = true := by
  cases ha : anyLine b with
  | true => rfl
  | false => rw [(firstDone_none_iff b).2 ha] at h; cases h

theorem not_both_of_anyLine_false {b : Board} (h : anyLine b = false) :
    ¬ (hasLine b Mark.X = true ∧ hasLine b Mark.O = true) := by
  rintro ⟨hx, _⟩
  rw [(anyLine_false_iff b).1 h Mark.X] at hx
  cases hx

theorem coherent_loaded : Coherent loaded := by
  refine ⟨fun _ => (by decide), fun h => (by cases h), (by decide), ?_⟩
  intro e he
  cases he

theorem coherent_makeMove (s : State) (index : Int) (h : Coherent s) :
    Coherent (makeMove s index).2 := by
  by_cases hc : s.gameOver = true ∨ s.board.at index ≠ some Cell.empty
  · rw [makeMove_invalid s index hc]; exact h
  · have hg : s.gameOver = false := by
      cases hgo : s.gameOver with
      | false => rfl
      | true => exact absurd (Or.inl hgo) hc
    have hcell : s.board.at index = some Cell.empty := by
      by_contra h2; exact hc (Or.inr h2)
    obtain ⟨h1, _, _, h4⟩ := h
    obtain ⟨hno, he⟩ := h1 hg
    have hhist : ∀ e ∈ recorded s index, anyLine e.board = false ∧ hasEmpty e.board = true := by
      intro e hmem
      rcases List.mem_append.1 hmem with hm | hm
      · exact h4 e hm
      · rw [List.mem_singleton] at hm
        subst hm
        exact ⟨hno, he⟩
    have hone : ¬ (hasLine (placed s index) Mark.X = true ∧
        hasLine (placed s index) Mark.O = true) := by
      rintro ⟨hx, ho⟩
      have e1 : Mark.X = s.currentPlayer := hasLine_set_mover hno hx
      have e2 : Mark.O = s.currentPlayer := hasLine_set_mover hno ho
      rw [← e1] at e2
      cases e2
    rw [makeMove_valid s index hg hcell]
    cases hf : firstDone (placed s index) winPatterns with
    | some p =>
      exact ⟨fun hcon => (by cases hcon), fun _ => Or.inl (anyLine_of_firstDone hf), hone, hhist⟩
    | none =>
      have ha : anyLine (placed s index) = false := (firstDone_none_iff _).1 hf
      by_cases hfull : isBoardFull (placed s index) = true
      · simp only []
        rw [if_pos hfull]
        exact ⟨fun hcon => (by cases hcon), fun _ => Or.inr (hasEmpty_false_of_full hfull),
          hone, hhist⟩
      · have he1 : hasEmpty (placed s index) = true :=
          hasEmpty_of_not_full (by simpa using hfull)
        simp only []
        rw [if_neg hfull]
        exact ⟨fun _ => ⟨ha, he1⟩, fun hcon => (by cases hcon), hone, hhist⟩

theorem coherent_undoMove (s : State) (h : Coherent s) : Coherent (undoMove s).2 := by
  by_cases hnil : s.moveHistory = []
  · rw [undoMove_nil s hnil]; exact h
  · obtain ⟨l, e, hl⟩ : ∃ l e, s.moveHistory = l ++ [e] :=
      ⟨s.moveHistory.dropLast, s.moveHistory.getLast hnil,
        (List.dropLast_append_getLast hnil).symm⟩
    rw [undoMove_append s l e hl]
    have he : anyLine e.board = false ∧ hasEmpty e.board = true :=
      h.2.2.2 e (by rw [hl]; simp)
    refine ⟨fun _ => he, fun hcon => (by cases hcon), not_both_of_anyLine_false he.1, ?_⟩
    intro e2 he2
    exact h.2.2.2 e2 (by rw [hl]; exact List.mem_append_left _ he2)

theorem reachable_coherent {s : State} (h : Reachable s) : Coherent s := by
  induction h with
  | init s0 => exact coherent_loaded
  | move s index _ ih => exact coherent_makeMove s index ih
  | undo s _ ih => exact coherent_undoMove s ih

/-- C16: in every state reachable from `initialize()` by `makeMove`/`undoMove` the board
never holds a pattern filled with X together with a pattern filled with O; the mark
returned by `checkWinner` fills a pattern and the other mark fills none. -/
theorem single_winner (s : State) (h : Reachable s) :
    ¬ (hasLine s.board Mark.X = true ∧ hasLine s.board Mark.O = true) ∧
    (∀ m : Mark, (GameBoard.checkWinner s).1 = some m →
      hasLine s.board m = true ∧ hasLine s.board m.other = false) := by
  have hc := (reachable_coherent h).2.2.1
  refine ⟨hc, ?_⟩
  intro m hm
  rw [board_checkWinner_fst] at hm
  have hl := ai_checkWinner_hasLine hm
  refine ⟨hl, ?_⟩
  cases ho : hasLine s.board m.other with
  | false => rfl
  | true =>
    exfalso
    apply hc
    cases m
    · exact ⟨hl, ho⟩
    · exact ⟨ho, hl⟩

/-- After X completes the first row of the win scenario only X fills a pattern. -/
theorem single_winner_witness :
    ¬ (hasLine (makeMove winScenario 2).2.board Mark.X = true ∧
        hasLine (makeMove winScenario 2).2.board Mark.O = true) ∧
    (GameBoard.checkWinner (makeMove winScenario 2).2).1 = some Mark.X :=
  ⟨(single_winner (makeMove winScenario 2).2
      (Reachable.move _ 2 (Reachable.move _ 4 (Reachable.move _ 1 (Reachable.move _ 3
        (Reachable.move _ 0 (Reachable.init loaded))))))).1, by decide⟩

/-- C17: in every state reachable from `initialize()` by `makeMove`/`undoMove` the flag
`gameOver` is true exactly when the board has a completed pattern or no empty cell; and
when `undoMove()` returns a result it leaves a board with no completed pattern and an
empty cell, `gameOver` false and `winPattern` null. -/
theorem gameOver_coherent (s : State) (h : Reachable s) :
    (s.gameOver = true ↔ (anyLine s.board = true ∨ hasEmpty s.board = false)) ∧
    ((undoMove s).1.isSome = true →
      anyLine (undoMove s).2.board = false ∧ hasEmpty (undoMove s).2.board = true ∧
      (undoMove s).2.gameOver = false ∧ (undoMove s).2.winPattern = none ∧
      getWinPattern (undoMove s).2 = none) := by
  obtain ⟨h1, h2, _, _⟩ := reachable_coherent h
  constructor
  · constructor
    · exact h2
    · intro hterm
      cases hg : s.gameOver with
      | true => rfl
      | false =>
        obtain ⟨ha, he⟩ := h1 hg
        rcases hterm with ht | ht
        · rw [ha] at ht; cases ht
        · rw [he] at ht; cases ht
  · intro hsome
    have hne := (undoMove_isSome_iff s).1 hsome
    obtain ⟨l, e, hl⟩ : ∃ l e, s.moveHistory = l ++ [e] :=
      ⟨s.moveHistory.dropLast, s.moveHistory.getLast hne,
        (List.dropLast_append_getLast hne).symm⟩
    have hcu := (reachable_coherent (Reachable.undo s h)).1
    rw [undoMove_append s l e hl] at hcu ⊢
    obtain ⟨ha, he⟩ := hcu rfl
    exact ⟨ha, he, rfl, rfl, rfl⟩

/-- The won position of the win scenario: the flag is set, and undoing the winning move
leaves a board on which play continues. -/
theorem gameOver_coherent_witness :
    ((makeMove winScenario 2).2.gameOver = true ↔
      (anyLine (makeMove winScenario 2).2.board = true ∨
        hasEmpty (makeMove winScenario 2).2.board = false)) ∧
    (undoMove (makeMove winScenario 2).2).2.gameOver = false :=
  let h := gameOver_coherent (makeMove winScenario 2).2
    (Reachable.move _ 2 (Reachable.move _ 4 (Reachable.move _ 1 (Reachable.move _ 3
      (Reachable.move _ 0 (Reachable.init loaded))))))
  ⟨h.1, (h.2 (by decide)).2.2.1⟩

/-! ## `findWinningMove` and the heuristic strategy -/

theorem completesAt_iff (b : Board) (m : Mark) (p : Pattern) (c : Nat) :
    completesAt b m p c = true ↔
      (b[p.1]? = some m.toCell ∧ b[p.2.1]? = some m.toCell ∧ b[p.2.2]? = some Cell.empty
          ∧ c = p.2.2) ∨
      (b[p.1]? = some m.toCell ∧ b[p.2.2]? = some m.toCell ∧ b[p.2.1]? = some Cell.empty
          ∧ c = p.2.1) ∨
      (b[p.2.1]? = some m.toCell ∧ b[p.2.2]? = some m.toCell ∧ b[p.1]? = some Cell.empty
          ∧ c = p.1) := by
  simp [completesAt]

theorem threat_iff (b : Board) (m : Mark) (p : Pattern) :
    threat b m p = true ↔ ∃ c, completesAt b m p c = true := by
  constructor
  · intro h
    simp only [threat, Bool.or_eq_true] at h
    rcases h with (h | h) | h
    · exact ⟨_, h⟩
    · exact ⟨_, h⟩
    · exact ⟨_, h⟩
  · rintro ⟨c, hc⟩
    simp only [threat, Bool.or_eq_true]
    rcases (completesAt_iff b m p c).1 hc with h | h | h
    · left; left; rw [← h.2.2.2]; exact hc
    · left; right; rw [← h.2.2.2]; exact hc
    · right; rw [← h.2.2.2]; exact hc

theorem completesAt_empty {b : Board} {m : Mark} {p : Pattern} {c : Nat}
    (h : completesAt b m p c = true) : b[c]? = some Cell.empty := by
  rcases (completesAt_iff b m p c).1 h with h | h | h
  · rw [h.2.2.2]; exact h.2.2.1
  · rw [h.2.2.2]; exact h.2.2.1
  · rw [h.2.2.2]; exact h.2.2.1

theorem get_set_keep_mark {b : Board} {c q : Nat} {m : Mark}
    (hc : b[c]? = some Cell.empty) (hq : b[q]? = some m.toCell) :
    (b.set c m.toCell)[q]? = some m.toCell := by
  have hne : c ≠ q := by
    rintro rfl
    rw [hc] at hq
    exact toCell_ne_empty m (Option.some.inj hq).symm
  rw [List.getElem?_set_ne hne]
  exact hq

theorem get_set_written {b : Board} {c : Nat} (x : Cell) (hc : b[c]? = some Cell.empty) :
    (b.set c x)[c]? = some x := by
  rw [List.getElem?_set_self (List.mem_range.1 (mem_range_of_get hc))]

/-- Writing `m` on the empty cell of a pattern whose other cells hold `m` completes it. -/
theorem completesAt_line {b : Board} {m : Mark} {p : Pattern} {c : Nat}
    (h : completesAt b m p c = true) : lineOf (b.set c m.toCell) m p = true := by
  have hce := completesAt_empty h
  rw [lineOf_iff]
  rcases (completesAt_iff b m p c).1 h with ⟨h1, h2, _, hc⟩ | ⟨h1, h2, _, hc⟩ | ⟨h1, h2, _, hc⟩
  · exact ⟨get_set_keep_mark hce h1, get_set_keep_mark hce h2,
      by rw [← hc]; exact get_set_written _ hce⟩
  · exact ⟨get_set_keep_mark hce h1, by rw [← hc]; exact get_set_written _ hce,
      get_set_keep_mark hce h2⟩
  · exact ⟨by rw [← hc]; exact get_set_written _ hce, get_set_keep_mark hce h1,
      get_set_keep_mark hce h2⟩

/-- The loop of `findWinningMove` returns -1 when no remaining pattern has two cells of the
mark and an empty third cell, and otherwise the empty cell of the first such pattern. -/
theorem findWinningMoveLoop_first (b : Board) (m : Mark) (ps : List Pattern) :
    (GameAI.findWinningMoveLoop b m ps = -1 ∧ ∀ p ∈ ps, threat b m p = false) ∨
    (∃ (pre : List Pattern) (p : Pattern) (post : List Pattern) (c : Nat),
      ps = pre ++ p :: post ∧ (∀ q ∈ pre, threat b m q = false) ∧
      completesAt b m p c = true ∧ GameAI.findWinningMoveLoop b m ps = (c : Int)) := by
  induction ps with
  | nil =>
    left
    exact ⟨rfl, fun p hp => by cases hp⟩
  | cons p rest ih =>
    obtain ⟨a, a2, a3⟩ := p
    by_cases h1 : b[a]? = some m.toCell ∧ b[a2]? = some m.toCell ∧ b[a3]? = some Cell.empty
    · right
      refine ⟨[], (a, a2, a3), rest, a3, rfl, fun q hq => (by cases hq), ?_, ?_⟩
      · exact (completesAt_iff _ _ _ _).2 (Or.inl ⟨h1.1, h1.2.1, h1.2.2, rfl⟩)
      · simp only [GameAI.findWinningMoveLoop, if_pos h1]
    by_cases h2 : b[a]? = some m.toCell ∧ b[a3]? = some m.toCell ∧ b[a2]? = some Cell.empty
    · right
      refine ⟨[], (a, a2, a3), rest, a2, rfl, fun q hq => (by cases hq), ?_, ?_⟩
      · exact (completesAt_iff _ _ _ _).2 (Or.inr (Or.inl ⟨h2.1, h2.2.1, h2.2.2, rfl⟩))
      · simp only [GameAI.findWinningMoveLoop, if_neg h1, if_pos h2]
    by_cases h3 : b[a2]? = some m.toCell ∧ b[a3]? = some m.toCell ∧ b[a]? = some Cell.empty
    · right
      refine ⟨[], (a, a2, a3), rest, a, rfl, fun q hq => (by cases hq), ?_, ?_⟩
      · exact (completesAt_iff _ _ _ _).2 (Or.inr (Or.inr ⟨h3.1, h3.2.1, h3.2.2, rfl⟩))
      · simp only [GameAI.findWinningMoveLoop, if_neg h1, if_neg h2, if_pos h3]
    have hstep : GameAI.findWinningMoveLoop b m ((a, a2, a3) :: rest) =
        GameAI.findWinningMoveLoop b m rest := by
      simp only [GameAI.findWinningMoveLoop, if_neg h1, if_neg h2, if_neg h3]
    have hno : threat b m (a, a2, a3) = false := by
      cases ht : threat b m (a, a2, a3) with
      | false => rfl
      | true =>
        exfalso
        obtain ⟨c, hc⟩ := (threat_iff _ _ _).1 ht
        rcases (completesAt_iff _ _ _ _).1 hc with h | h | h
        · exact h1 ⟨h.1, h.2.1, h.2.2.1⟩
        · exact h2 ⟨h.1, h.2.1, h.2.2.1⟩
        · exact h3 ⟨h.1, h.2.1, h.2.2.1⟩
    rcases ih with ⟨hr, hall⟩ | ⟨pre, p, post, c, hsplit, hpre, hc, hr⟩
    · left
      refine ⟨hstep.trans hr, ?_⟩
      intro q hq
      rcases List.mem_cons.1 hq with h | h
      · rw [h]; exact hno
      · exact hall q h
    · right
      refine ⟨(a, a2, a3) :: pre, p, post, c, by rw [hsplit]; rfl, ?_, hc, hstep.trans hr⟩
      intro q hq
      rcases List.mem_cons.1 hq with h | h
      · rw [h]; exact hno
      · exact hpre q h

/-- With a threat of `m` on the board `findWinningMove` returns the empty cell of a
pattern of the table whose other two cells hold `m`. -/
theorem findWinningMove_of_threat (b : Board) (m : Mark) (h : hasThreat b m = true) :
    ∃ (c : Nat) (p : Pattern), GameAI.findWinningMove b m = (c : Int) ∧ p ∈ winPatterns ∧
      completesAt b m p c = true := by
  rcases findWinningMoveLoop_first b m winPatterns with ⟨_, hall⟩ | ⟨pre, p, post, c, hs, _, hc, hr⟩
  · exfalso
    obtain ⟨p, hp, ht⟩ := List.any_eq_true.1 h
    rw [hall p hp] at ht
    cases ht
  · exact ⟨c, p, hr, by rw [hs]; simp, hc⟩

theorem findWinningMove_no_threat (b : Board) (m : Mark) (h : hasThreat b m = false) :
    GameAI.findWinningMove b m = -1 := by
  rcases findWinningMoveLoop_first b m winPatterns with ⟨hr, _⟩ | ⟨pre, p, post, c, hs, _, hc, _⟩
  · exact hr
  · exfalso
    have hp : p ∈ winPatterns := by rw [hs]; simp
    have ht : threat b m p = true := (threat_iff _ _ _).2 ⟨c, hc⟩
    have : hasThreat b m = true := List.any_eq_true.2 ⟨p, hp, ht⟩
    rw [h] at this
    cases this

theorem hasLine_of_completesAt {b : Board} {m : Mark} {p : Pattern} {c : Nat}
    (hp : p ∈ winPatterns) (h : completesAt b m p c = true) :
    hasLine (b.set c m.toCell) m = true :=
  List.any_eq_true.2 ⟨p, hp, completesAt_line h⟩

/-- C19: when some pattern has two cells holding `m` and its third cell empty (whatever
the opponent has), `strategicMove` returns, for every draw, one and the same empty cell on
which `m` completes a pattern; medium difficulty on its heuristic branch (first draw below
the double `0.6`) returns that cell whatever the second draw. -/
theorem strategic_wins (board : Board) (m : Mark) (h : hasThreat board m = true) :
    ∃ c : Nat,
      (∀ r : ℚ, GameAI.strategicMove board m r = some (c : Int)) ∧
      board[c]? = some Cell.empty ∧
      (∃ p ∈ winPatterns, completesAt board m p c = true) ∧
      hasLine (board.set c m.toCell) m = true ∧
      (∀ r1 r2 : ℚ, r1 < GameAI.pointSix →
        GameAI.makeMove board m Difficulty.medium r1 r2 = some (some (c : Int), board)) := by
  obtain ⟨c, p, hr, hp, hc⟩ := findWinningMove_of_threat board m h
  have hs : ∀ r : ℚ, GameAI.strategicMove board m r = some (c : Int) := by
    intro r
    have hne : GameAI.findWinningMove board m ≠ -1 := by rw [hr]; omega
    unfold GameAI.strategicMove
    simp only []
    rw [if_pos hne, hr]
  refine ⟨c, hs, completesAt_empty hc, ⟨p, hp, hc⟩, hasLine_of_completesAt hp hc, ?_⟩
  intro r1 r2 hr1
  simp only [GameAI.makeMove, if_pos hr1, hs]

/-- On `[X,X,'','','','','','','']` the heuristic strategy for X returns cell 2. -/
theorem strategic_wins_witness :
    ∃ c : Nat,
      (∀ r : ℚ, GameAI.strategicMove blockBoard Mark.X r = some (c : Int)) ∧
      blockBoard[c]? = some Cell.empty ∧
      (∃ p ∈ winPatterns, completesAt blockBoard Mark.X p c = true) ∧
      hasLine (blockBoard.set c Mark.X.toCell) Mark.X = true ∧
      (∀ r1 r2 : ℚ, r1 < GameAI.pointSix →
        GameAI.makeMove blockBoard Mark.X Difficulty.medium r1 r2 =
          some (some (c : Int), blockBoard)) :=
  strategic_wins blockBoard Mark.X (by decide)

/-- C20: when no pattern has two cells holding `m` and an empty third cell but some
pattern has two cells holding the opponent's mark and an empty third cell,
`strategicMove` returns, for every draw, the empty cell of such a pattern of the opponent,
a cell on which the opponent would complete a pattern. -/
theorem strategic_blocks (board : Board) (m : Mark) (h1 : hasThreat board m = false)
    (h2 : hasThreat board m.other = true) :
    ∃ c : Nat,
      (∀ r : ℚ, GameAI.strategicMove board m r = some (c : Int)) ∧
      board[c]? = some Cell.empty ∧
      (∃ p ∈ winPatterns, completesAt board m.other p c = true) ∧
      hasLine (board.set c m.other.toCell) m.other = true := by
  obtain ⟨c, p, hr, hp, hc⟩ := findWinningMove_of_threat board m.other h2
  refine ⟨c, ?_, completesAt_empty hc, ⟨p, hp, hc⟩, hasLine_of_completesAt hp hc⟩
  intro r
  have hw : ¬ (GameAI.findWinningMove board m ≠ -1) := by
    rw [findWinningMove_no_threat board m h1]; simp
  have hne : GameAI.findWinningMove board m.other ≠ -1 := by rw [hr]; omega
  unfold GameAI.strategicMove
  simp only []
  rw [if_neg hw, if_pos hne, hr]

/-- On `[X,X,'','','','','','','']` the heuristic strategy for O returns cell 2. -/
theorem strategic_blocks_witness :
    ∃ c : Nat,
      (∀ r : ℚ, GameAI.strategicMove blockBoard Mark.O r = some (c : Int)) ∧
      blockBoard[c]? = some Cell.empty ∧
      (∃ p ∈ winPatterns, completesAt blockBoard Mark.O.other p c = true) ∧
      hasLine (blockBoard.set c Mark.O.other.toCell) Mark.O.other = true :=
  strategic_blocks blockBoard Mark.O (by decide) (by decide)

/-! ## The heuristic strategy without threats, and `findWinningMove` -/

/-- C21: when neither `m` nor the opponent has a pattern with two of its marks and an
empty third cell, `strategicMove` returns 4 if cell 4 is empty and otherwise what
`randomMove` returns for the same draw. -/
theorem strategic_quiet (board : Board) (m : Mark) (r : ℚ)
    (h1 : hasThreat board m = false) (h2 : hasThreat board m.other = false) :
    (board[4]? = some Cell.empty → GameAI.strategicMove board m r = some 4) ∧
    (board[4]? ≠ some Cell.empty →
      GameAI.strategicMove board m r = GameAI.randomMove board r) := by
  have hw : ¬ (GameAI.findWinningMove board m ≠ -1) := by
    rw [findWinningMove_no_threat board m h1]; simp
  have hb : ¬ (GameAI.findWinningMove board m.other ≠ -1) := by
    rw [findWinningMove_no_threat board m.other h2]; simp
  constructor
  · intro h4
    unfold GameAI.strategicMove
    simp only []
    rw [if_neg hw, if_neg hb, if_pos h4]
  · intro h4
    unfold GameAI.strategicMove
    simp only []
    rw [if_neg hw, if_neg hb, if_neg h4]

/-- On the empty board the heuristic strategy takes the centre; on a board without
threats whose centre is taken it returns what `randomMove` returns. -/
theorem strategic_quiet_witness :
    GameAI.strategicMove (List.replicate 9 Cell.empty) Mark.O (1 / 2) = some 4 ∧
    GameAI.strategicMove centreOpened.board Mark.O (1 / 2) =
      GameAI.randomMove centreOpened.board (1 / 2) :=
  ⟨(strategic_quiet (List.replicate 9 Cell.empty) Mark.O (1 / 2) (by decide) (by decide)).1
      (by decide),
   (strategic_quiet centreOpened.board Mark.O (1 / 2) (by decide) (by decide)).2 (by decide)⟩

theorem find?_of_split {α : Type} (f : α → Bool) (pre : List α) (p : α) (post : List α)
    (hpre : ∀ q ∈ pre, f q = false) (hp : f p = true) :
    (pre ++ p :: post).find? f = some p := by
  induction pre with
  | nil => simp [List.find?, hp]
  | cons q rest ih =>
    have hq : f q = false := hpre q (List.mem_cons_self q rest)
    simp only [List.cons_append, List.find?, hq]
    exact ih (fun x hx => hpre x (List.mem_cons_of_mem q hx))

/-- C22: `findWinningMove` returns -1 exactly when no pattern of the table has two cells
holding the mark and its third cell empty; otherwise it returns the empty cell of the
first such pattern in the order of the table. -/
theorem findWinningMove_spec (board : Board) (m : Mark) :
    (GameAI.findWinningMove board m = -1 ↔ hasThreat board m = false) ∧
    (hasThreat board m = true →
      ∃ (p : Pattern) (c : Nat), winPatterns.find? (threat board m) = some p ∧
        GameAI.findWinningMove board m = (c : Int) ∧ completesAt board m p c = true ∧
        board[c]? = some Cell.empty) ∧
    winPatterns =
      [(0, 1, 2), (3, 4, 5), (6, 7, 8), (0, 3, 6), (1, 4, 7), (2, 5, 8), (0, 4, 8), (2, 4, 6)] := by
  have key : hasThreat board m = true →
      ∃ (p : Pattern) (c : Nat), winPatterns.find? (threat board m) = some p ∧
        GameAI.findWinningMove board m = (c : Int) ∧ completesAt board m p c = true ∧
        board[c]? = some Cell.empty := by
    intro h
    rcases findWinningMoveLoop_first board m winPatterns with
      ⟨_, hall⟩ | ⟨pre, p, post, c, hs, hpre, hc, hr⟩
    · exfalso
      obtain ⟨p, hp, ht⟩ := List.any_eq_true.1 h
      rw [hall p hp] at ht
      cases ht
    · refine ⟨p, c, ?_, hr, hc, completesAt_empty hc⟩
      rw [hs]
      exact find?_of_split _ pre p post hpre ((threat_iff _ _ _).2 ⟨c, hc⟩)
  refine ⟨⟨?_, findWinningMove_no_threat board m⟩, key, rfl⟩
  intro hres
  cases ht : hasThreat board m with
  | false => rfl
  | true =>
    obtain ⟨p, c, _, hr, _, _⟩ := key ht
    rw [hr] at hres
    omega

/-! ## The three tables -/

/-- C29: the tables written out in `checkWinner` of `board.js`, in `findWinningMove` and
in `checkWinner` of `ai.js` are the specification's list of eight triples in the same
order, and on every board `checkWinner` of `ai.js` returns what `checkWinner` of
`board.js` returns in a state holding that board. -/
theorem tables_agree :
    GameBoard.CheckWinner.winPatterns = winPatterns ∧
    GameAI.FindWinningMove.winPatterns = winPatterns ∧
    GameAI.CheckWinner.winPatterns = winPatterns ∧
    winPatterns =
      [(0, 1, 2), (3, 4, 5), (6, 7, 8), (0, 3, 6), (1, 4, 7), (2, 5, 8), (0, 4, 8), (2, 4, 6)] ∧
    (∀ s : State, GameAI.checkWinner s.board = (GameBoard.checkWinner s).1) ∧
    (∀ (board : Board) (player : Mark) (over : Bool) (pattern : Option Pattern)
        (history : List HistoryEntry),
      (GameBoard.checkWinner (State.mk board player over pattern history)).1 =
        GameAI.checkWinner board) := by
  refine ⟨rfl, rfl, rfl, rfl, fun s => (board_checkWinner_fst s).symm, ?_⟩
  intro board player over pattern history
  exact board_checkWinner_fst _

/-! ## Upper bound of the score and the preference for an immediate win -/

/-- With `d` plus the number of empty cells at most 9, the score returned at depth `d` is
at most `10 - d`, and at most `9 - d` unless the player's mark is the winner. -/
theorem minimax_upper (pm om : Mark) :
    ∀ (fuel : Nat) (b : Board) (d : Int) (im : Bool) (v : Int), countEmpty b ≤ fuel →
      d + countEmpty b ≤ 9 →
      GameAI.minimax fuel b d im pm om = some (Score.fin v, b) →
      v ≤ 10 - d ∧ (GameAI.checkWinner b ≠ some pm → v ≤ 9 - d) := by
  intro fuel
  induction fuel with
  | zero =>
    intro b d im v hf hd hv
    have hd9 : d ≤ 9 := by omega
    by_cases h1 : GameAI.checkWinner b = some pm
    · rw [minimax_win 0 b d im pm om h1] at hv
      injection hv with h; injection h with h _; injection h with h
      exact ⟨by omega, fun hc => absurd h1 hc⟩
    by_cases h2 : GameAI.checkWinner b = some om
    · rw [minimax_loss 0 b d im pm om h1 h2] at hv
      injection hv with h; injection h with h _; injection h with h
      omega
    cases h3 : isBoardFull b with
    | true =>
      rw [minimax_full 0 b d im pm om h1 h2 h3] at hv
      injection hv with h; injection h with h _; injection h with h
      omega
    | false =>
      rw [minimax_exhausted b d im pm om h1 h2 h3] at hv
      cases hv
  | succ fuel ih =>
    intro b d im v hf hd hv
    have hd9 : d ≤ 9 := by omega
    by_cases h1 : GameAI.checkWinner b = some pm
    · rw [minimax_win _ b d im pm om h1] at hv
      injection hv with h; injection h with h _; injection h with h
      exact ⟨by omega, fun hc => absurd h1 hc⟩
    by_cases h2 : GameAI.checkWinner b = some om
    · rw [minimax_loss _ b d im pm om h1 h2] at hv
      injection hv with h; injection h with h _; injection h with h
      omega
    cases h3 : isBoardFull b with
    | true =>
      rw [minimax_full _ b d im pm om h1 h2 h3] at hv
      injection hv with h; injection h with h _; injection h with h
      omega
    | false =>
      cases im with
      | true =>
        obtain ⟨v', hv', ⟨i, hic, hi⟩, _⟩ := minimax_max_node fuel b d pm om h1 h2 h3
          (fun i hi => minimax_total pm om _ _ _ _ (by have := countEmpty_set pm hi; omega))
        rw [hv'] at hv
        injection hv with h; injection h with h _; injection h with h
        subst h
        have hcnt := countEmpty_set pm hic
        have := (ih _ _ _ _ (by omega) (by omega) hi).1
        omega
      | false =>
        obtain ⟨v', hv', ⟨i, hic, hi⟩, _⟩ := minimax_min_node fuel b d pm om h1 h2 h3
          (fun i hi => minimax_total pm om _ _ _ _ (by have := countEmpty_set om hi; omega))
        rw [hv'] at hv
        injection hv with h; injection h with h _; injection h with h
        subst h
        have hcnt := countEmpty_set om hic
        have := (ih _ _ _ _ (by omega) (by omega) hi).1
        omega

/-- On a board without a completed pattern, a cell on which `m` completes a pattern makes
`m` the winner of the written board. -/
theorem checkWinner_of_completion {board : Board} {m : Mark} {i : Nat}
    (hno : anyLine board = false) (hl : hasLine (board.set i m.toCell) m = true) :
    GameAI.checkWinner (board.set i m.toCell) = some m := by
  apply ai_checkWinner_of_hasLine hl
  cases h : hasLine (board.set i m.toCell) m.other with
  | false => rfl
  | true =>
    have := hasLine_set_other (toCell_ne_other m) h
    rw [(anyLine_false_iff board).1 hno] at this
    cases this

/-- On a nine-cell board without a completed pattern on which `m` can complete a pattern,
`minimaxMove` returns the lowest-index empty cell that completes a pattern for `m`. -/
theorem minimaxMove_takes_win (board : Board) (hlen : board.length = 9) (m : Mark)
    (hno : anyLine board = false)
    (hex : ∃ c : Nat, board[c]? = some Cell.empty ∧
      hasLine (board.set c m.toCell) m = true) :
    ∃ i : Nat, GameAI.minimaxMove board m = some ((i : Int), board) ∧
      board[i]? = some Cell.empty ∧ hasLine (board.set i m.toCell) m = true ∧
      (∀ j : Nat, j < i → board[j]? = some Cell.empty →
        hasLine (board.set j m.toCell) m = false) := by
  obtain ⟨c, hc, hcl⟩ := hex
  have hnf : isBoardFull board = false :=
    (isBoardFull_false_iff _).2 ⟨c, List.mem_range.1 (mem_range_of_get hc), hc⟩
  obtain ⟨i, u, hrun, hic, hu, hmax, hfirst⟩ := minimaxMove_spec board m hnf
  have hcl9 := countEmpty_le_nine hlen
  -- a completing cell scores 10
  have hwin : ∀ j : Nat, board[j]? = some Cell.empty →
      hasLine (board.set j m.toCell) m = true →
      GameAI.minimax board.length (board.set j m.toCell) 0 false m m.other =
        some (Score.fin 10, board.set j m.toCell) := by
    intro j _ hjl
    have := minimax_win board.length (board.set j m.toCell) 0 false m m.other
      (checkWinner_of_completion hno hjl)
    simpa using this
  -- any other cell scores at most 9
  have hother : ∀ (j : Nat) (w : Int), board[j]? = some Cell.empty →
      hasLine (board.set j m.toCell) m = false →
      GameAI.minimax board.length (board.set j m.toCell) 0 false m m.other =
        some (Score.fin w, board.set j m.toCell) → w ≤ 9 := by
    intro j w hj hjl hw
    have hcnt := countEmpty_set m hj
    have hne : GameAI.checkWinner (board.set j m.toCell) ≠ some m := by
      intro hwm
      have := ai_checkWinner_hasLine hwm
      rw [hjl] at this
      cases this
    have := (minimax_upper m m.other _ _ 0 false w (by omega) (by omega) hw).2 hne
    omega
  have hu10 : 10 ≤ u := hmax c 10 hc (hwin c hc hcl)
  have hil : hasLine (board.set i m.toCell) m = true := by
    cases h : hasLine (board.set i m.toCell) m with
    | true => rfl
    | false =>
      have := hother i u hic h hu
      omega
  refine ⟨i, hrun, hic, hil, ?_⟩
  intro j hji hj
  cases h : hasLine (board.set j m.toCell) m with
  | false => rfl
  | true =>
    have h1 := hfirst j 10 hji hj (hwin j hj h)
    have h2 := hwin i hic hil
    rw [hu] at h2
    have : u = 10 := by
      injection h2 with h3; injection h3 with h4 _; injection h4
    omega

/-- C23: on a nine-cell board with no completed pattern on which some empty cell
completes a pattern for `m`, `GameAI.makeMove(board, m, 'hard')` returns the lowest-index
empty cell that completes a pattern for `m`. -/
theorem hard_takes_win (board : Board) (hlen : board.length = 9) (m : Mark) (r1 r2 : ℚ)
    (hno : anyLine board = false)
    (hex : ∃ c : Nat, board[c]? = some Cell.empty ∧
      hasLine (board.set c m.toCell) m = true) :
    ∃ i : Nat, GameAI.makeMove board m Difficulty.hard r1 r2 = some (some (i : Int), board) ∧
      board[i]? = some Cell.empty ∧ hasLine (board.set i m.toCell) m = true ∧
      (∀ j : Nat, j < i → board[j]? = some Cell.empty →
        hasLine (board.set j m.toCell) m = false) := by
  obtain ⟨i, hrun, hrest⟩ := minimaxMove_takes_win board hlen m hno hex
  exact ⟨i, makeMove_hard_eq board m r1 r2 _ hrun, hrest⟩

/-- On `[X,O,X,X,O,O,'','','']` the hard strategy for X returns a completing cell. -/
theorem hard_takes_win_witness :
    ∃ i : Nat, GameAI.makeMove lateBoard Mark.X Difficulty.hard 0 0 =
        some (some (i : Int), lateBoard) ∧
      lateBoard[i]? = some Cell.empty ∧ hasLine (lateBoard.set i Mark.X.toCell) Mark.X = true ∧
      (∀ j : Nat, j < i → lateBoard[j]? = some Cell.empty →
        hasLine (lateBoard.set j Mark.X.toCell) Mark.X = false) :=
  hard_takes_win lateBoard (by decide) Mark.X 0 0 (by decide) ⟨6, by decide, by decide⟩

/-! ## The choice of `minimaxMove` -/

theorem moveScore_eq {fuel : Nat} {board : Board} {m : Mark} {i : Nat} {s : Score}
    {b1 : Board}
    (h : GameAI.minimax fuel (board.set i m.toCell) 0 false m m.other = some (s, b1)) :
    moveScore fuel board m i = some s := by
  simp only [moveScore, h, Option.map_some']

/-- C24: on a board with an empty cell `minimaxMove` returns an empty cell whose score
(that of `minimax` on the board with the mark written there, at depth 0 with the opponent
to move) is the greatest score of an empty cell, and every empty cell of lower index has
a smaller score; `GameAI.makeMove` with difficulty hard returns the same index. -/
theorem minimaxMove_argmax (board : Board) (m : Mark) (he : hasEmpty board = true) :
    ∃ (i : Nat) (u : Int), GameAI.minimaxMove board m = some ((i : Int), board) ∧
      (∀ r1 r2 : ℚ, GameAI.makeMove board m Difficulty.hard r1 r2 =
        some (some (i : Int), board)) ∧
      board[i]? = some Cell.empty ∧
      moveScore board.length board m i = some (Score.fin u) ∧
      (∀ j : Nat, board[j]? = some Cell.empty →
        ∃ w : Int, moveScore board.length board m j = some (Score.fin w) ∧ w ≤ u) ∧
      (∀ j : Nat, j < i → board[j]? = some Cell.empty →
        ∃ w : Int, moveScore board.length board m j = some (Score.fin w) ∧ w < u) := by
  have hnf : isBoardFull board = false := by rw [isBoardFull_eq, he]; rfl
  obtain ⟨i, u, hrun, hic, hu, hmax, hfirst⟩ := minimaxMove_spec board m hnf
  refine ⟨i, u, hrun, fun r1 r2 => makeMove_hard_eq board m r1 r2 _ hrun, hic,
    moveScore_eq hu, ?_, ?_⟩
  · intro j hj
    obtain ⟨w, hw⟩ := minimaxMove_calls_total board m j hj
    exact ⟨w, moveScore_eq hw, hmax j w hj hw⟩
  · intro j hji hj
    obtain ⟨w, hw⟩ := minimaxMove_calls_total board m j hj
    exact ⟨w, moveScore_eq hw, hfirst j w hji hj hw⟩

/-- On `[X,X,'','','','','','','']` the choice of `minimaxMove` for O is an empty cell
of greatest score. -/
theorem minimaxMove_argmax_witness :
    ∃ (i : Nat) (u : Int), GameAI.minimaxMove blockBoard Mark.O = some ((i : Int), blockBoard) ∧
      (∀ r1 r2 : ℚ, GameAI.makeMove blockBoard Mark.O Difficulty.hard r1 r2 =
        some (some (i : Int), blockBoard)) ∧
      blockBoard[i]? = some Cell.empty ∧
      moveScore blockBoard.length blockBoard Mark.O i = some (Score.fin u) ∧
      (∀ j : Nat, blockBoard[j]? = some Cell.empty →
        ∃ w : Int, moveScore blockBoard.length blockBoard Mark.O j = some (Score.fin w) ∧
          w ≤ u) ∧
      (∀ j : Nat, j < i → blockBoard[j]? = some Cell.empty →
        ∃ w : Int, moveScore blockBoard.length blockBoard Mark.O j = some (Score.fin w) ∧
          w < u) :=
  minimaxMove_argmax blockBoard Mark.O (by decide)

/-! ## Scores of terminal positions and depths -/

/-- C25: whatever the fuel, the board length and `isMaximizing`, `minimax` returns
`10 - d` when `checkWinner` returns the player's mark, `d - 10` when it returns the
opponent's (other) mark, and 0 when it returns `null` and no cell is empty, the board
left as it was. `minimaxMove` calls `minimax` with depth 0 on the board with its tentative
move, and a call at depth `d` that is not terminal makes its recursive calls at depth
`d + 1`; so a cell that wins at once scores 10. -/
theorem minimax_terminal_scores (fuel : Nat) (board : Board) (d : Int) (im : Bool)
    (pm om : Mark) :
    (GameAI.checkWinner board = some pm →
      GameAI.minimax fuel board d im pm om = some (Score.fin (10 - d), board)) ∧
    (om ≠ pm → GameAI.checkWinner board = some om →
      GameAI.minimax fuel board d im pm om = some (Score.fin (d - 10), board)) ∧
    (GameAI.checkWinner board = none → hasEmpty board = false →
      GameAI.minimax fuel board d im pm om = some (Score.fin 0, board)) ∧
    (∀ (i : Nat) (rest : List Nat) (bestScore : Score) (bestMove : Int),
      board[i]? = some Cell.empty →
      GameAI.minimaxMoveLoop fuel pm om (i :: rest) bestScore bestMove board =
        match GameAI.minimax fuel (board.set i pm.toCell) 0 false pm om with
        | none => none
        | some (score, board1) =>
          if Score.gt score bestScore then
            GameAI.minimaxMoveLoop fuel pm om rest score (i : Int) (board1.set i Cell.empty)
          else
            GameAI.minimaxMoveLoop fuel pm om rest bestScore bestMove
              (board1.set i Cell.empty)) ∧
    (GameAI.checkWinner board = none → hasEmpty board = true →
      GameAI.minimax (fuel + 1) board d true pm om =
        GameAI.searchLoop (fun b1 => GameAI.minimax fuel b1 (d + 1) false pm om) pm
          (fun score bestScore => Score.max score bestScore)
          (List.range board.length) Score.negInf board ∧
      GameAI.minimax (fuel + 1) board d false pm om =
        GameAI.searchLoop (fun b1 => GameAI.minimax fuel b1 (d + 1) true pm om) om
          (fun score bestScore => Score.min score bestScore)
          (List.range board.length) Score.posInf board) ∧
    (∀ i : Nat, anyLine board = false → hasLine (board.set i pm.toCell) pm = true →
      moveScore fuel board pm i = some (Score.fin 10)) := by
  refine ⟨minimax_win fuel board d im pm om, ?_, ?_, ?_, ?_, ?_⟩
  · intro hne hw
    apply minimax_loss fuel board d im pm om _ hw
    rw [hw]
    intro h
    exact hne (Option.some.inj h)
  · intro hw he
    apply minimax_full fuel board d im pm om
    · rw [hw]; simp
    · rw [hw]; simp
    · rw [isBoardFull_eq, he]; rfl
  · intro i rest bestScore bestMove hi
    rw [GameAI.minimaxMoveLoop, if_pos hi]
    all_goals (cases GameAI.minimax fuel (board.set i pm.toCell) 0 false pm om <;> rfl)
  · intro hw he
    have h1 : GameAI.checkWinner board ≠ some pm := by rw [hw]; simp
    have h2 : GameAI.checkWinner board ≠ some om := by rw [hw]; simp
    have h3 : isBoardFull board = false := by rw [isBoardFull_eq, he]; rfl
    exact ⟨minimax_step_max fuel board d pm om h1 h2 h3,
      minimax_step_min fuel board d pm om h1 h2 h3⟩
  · intro i hno hl
    have := minimax_win fuel (board.set i pm.toCell) 0 false pm pm.other
      (checkWinner_of_completion hno hl)
    rw [moveScore_eq this]
    rfl

/-! ## The easy strategy -/

theorem availableOf_sublist (l : List (Nat × Cell)) :
    List.Sublist
      ((l.map (fun ic => if ic.2 = Cell.empty then some ic.1 else none)).filterMap id)
      (l.map Prod.fst) := by
  induction l with
  | nil => exact List.Sublist.slnil
  | cons x rest ih =>
    by_cases hx : x.2 = Cell.empty
    · simp only [List.map_cons, if_pos hx, List.filterMap_cons_some (id_eq _)]
      exact List.Sublist.cons₂ _ ih
    · simp only [List.map_cons, if_neg hx, List.filterMap_cons_none (id_eq _)]
      exact List.Sublist.cons _ ih

/-- The array `availableMoves` is strictly increasing. -/
theorem availableMoves_sorted (b : Board) :
    List.Pairwise (· < ·) (GameAI.availableMoves b) := by
  have h := availableOf_sublist b.enum
  rw [List.enum_map_fst] at h
  exact List.Pairwise.sublist h (List.pairwise_lt_range _)

theorem availableOf_length (b : Board) :
    ∀ n : Nat,
      (((b.enumFrom n).map
        (fun ic => if ic.2 = Cell.empty then some ic.1 else none)).filterMap id).length =
      countEmpty b := by
  induction b with
  | nil => intro n; rfl
  | cons c rest ih =>
    intro n
    have ih' := ih (n + 1)
    unfold countEmpty at ih' ⊢
    cases c
    · simp only [List.enumFrom_cons, List.map_cons, if_true,
        List.filterMap_cons_some (id_eq _), List.length_cons, ih', List.count_cons_self]
    · have hne : ¬ (Cell.X = Cell.empty) := by decide
      have hb : (Cell.X == Cell.empty) = false := by decide
      simp only [List.enumFrom_cons, List.map_cons, if_neg hne,
        List.filterMap_cons_none (id_eq _), ih', List.count_cons, hb]
      simp
    · have hne : ¬ (Cell.O = Cell.empty) := by decide
      have hb : (Cell.O == Cell.empty) = false := by decide
      simp only [List.enumFrom_cons, List.map_cons, if_neg hne,
        List.filterMap_cons_none (id_eq _), ih', List.count_cons, hb]
      simp

/-- The array `availableMoves` has as many entries as the board has empty cells. -/
theorem availableMoves_length (b : Board) :
    (GameAI.availableMoves b).length = countEmpty b :=
  availableOf_length b 0

/-- The function `randomMove` returns the entry of `availableMoves` whose index is the
floor of the rounded product of the draw and the length. -/
theorem randomMove_eq (b : Board) (r : ℚ) (k : Nat)
    (hk : k < (GameAI.availableMoves b).length)
    (hfl : Rat.floor (Float64.round (r * ((GameAI.availableMoves b).length : ℚ))) = (k : Int)) :
    GameAI.randomMove b r = some (((GameAI.availableMoves b)[k] : Nat) : Int) := by
  have hlen : (GameAI.availableMoves b).length ≠ 0 := by omega
  unfold GameAI.randomMove
  simp only [hlen, if_false, hfl]
  rw [if_neg (by omega)]
  simp only [Int.toNat_ofNat, List.getElem?_eq_getElem hk]

/-- The floor of the rounded product, for a draw and a count of at most nine: it is the
floor of the exact product or one more, and one more only when the exact product is
within a relative `2^(-53)` of that integer. -/
theorem randomIndex_cases (r : ℚ) (n : Nat) (hn : n ≤ 9) (hr : Float64.IsDraw r) :
    Rat.floor (Float64.round (r * (n : ℚ))) = Rat.floor (r * (n : ℚ)) ∨
    (Rat.floor (Float64.round (r * (n : ℚ))) = Rat.floor (r * (n : ℚ)) + 1 ∧
      ((Rat.floor (r * (n : ℚ)) + 1 : Int) : ℚ) ≤ r * (n : ℚ) * (1 + 1 / 2 ^ 53)) := by
  have hnq : (n : ℚ) ≤ 9 := by exact_mod_cast hn
  have hn0 : (0 : ℚ) ≤ (n : ℚ) := by positivity
  have hx0 : 0 ≤ r * (n : ℚ) := mul_nonneg hr.1 hn0
  have hx9 : r * (n : ℚ) ≤ 9 := by
    have : r * (n : ℚ) ≤ 1 * 9 := mul_le_mul hr.2.1.le hnq hn0 (by norm_num)
    linarith
  have habs : |r * (n : ℚ)| < 2 ^ 53 := by
    rw [abs_of_nonneg hx0]
    have : (9 : ℚ) < 2 ^ 53 := by norm_num
    linarith
  obtain ⟨h1, h2⟩ := floor_round_cases habs
  simp only [ratFloor_eq]
  by_cases he : ⌊Float64.round (r * (n : ℚ))⌋ = ⌊r * (n : ℚ)⌋
  · exact Or.inl he
  · right
    have he2 : ⌊Float64.round (r * (n : ℚ))⌋ = ⌊r * (n : ℚ)⌋ + 1 := by omega
    refine ⟨he2, ?_⟩
    have hfl0 : 0 ≤ ⌊r * (n : ℚ)⌋ := Int.floor_nonneg.2 hx0
    have hge : ((⌊r * (n : ℚ)⌋ + 1 : Int) : ℚ) ≤ Float64.round (r * (n : ℚ)) := by
      rw [← he2]
      exact Int.floor_le _
    rcases round_le_rel hx0 with h3 | h3
    · exact le_trans hge h3
    · exfalso
      have h4 : ((⌊r * (n : ℚ)⌋ + 1 : Int) : ℚ) < 1 := lt_of_le_of_lt hge h3
      have h5 : ⌊r * (n : ℚ)⌋ + 1 < 1 := by exact_mod_cast h4
      omega

/-- A draw whose exact product lies in `[k, k + 1)` and stays below `k + 1` after a
relative increase of `2^(-53)` selects index `k`. -/
theorem randomIndex_of_inner (r : ℚ) (n k : Nat) (hn : n ≤ 9) (hr : Float64.IsDraw r)
    (h1 : (k : ℚ) ≤ r * (n : ℚ)) (h2 : r * (n : ℚ) * (1 + 1 / 2 ^ 53) < (k : ℚ) + 1) :
    Rat.floor (Float64.round (r * (n : ℚ))) = (k : Int) := by
  have hnq : (n : ℚ) ≤ 9 := by exact_mod_cast hn
  have hn0 : (0 : ℚ) ≤ (n : ℚ) := by positivity
  have hx0 : 0 ≤ r * (n : ℚ) := mul_nonneg hr.1 hn0
  have habs : |r * (n : ℚ)| < 2 ^ 53 := by
    rw [abs_of_nonneg hx0]
    have : r * (n : ℚ) ≤ 1 * 9 := mul_le_mul hr.2.1.le hnq hn0 (by norm_num)
    have : (9 : ℚ) < 2 ^ 53 := by norm_num
    linarith
  have hk0 : (0 : ℚ) ≤ (k : ℚ) := by positivity
  have hlo : ((k : Int) : ℚ) ≤ Float64.round (r * (n : ℚ)) :=
    intCast_le_round habs (by simpa using h1)
  have hhi : Float64.round (r * (n : ℚ)) < ((k : Int) : ℚ) + 1 := by
    rcases round_le_rel hx0 with h3 | h3
    · push_cast; linarith
    · push_cast; linarith
  simp only [ratFloor_eq]
  exact Int.floor_eq_iff.2 ⟨hlo, hhi⟩

/-- A draw that selects index `k` has its exact product below `k + 1`, and at least `k`
after a relative increase of `2^(-53)`. -/
theorem randomIndex_outer (r : ℚ) (n k : Nat) (hn : n ≤ 9) (hr : Float64.IsDraw r)
    (h : Rat.floor (Float64.round (r * (n : ℚ))) = (k : Int)) :
    (k : ℚ) ≤ r * (n : ℚ) * (1 + 1 / 2 ^ 53) ∧ r * (n : ℚ) < (k : ℚ) + 1 := by
  have hnq : (n : ℚ) ≤ 9 := by exact_mod_cast hn
  have hn0 : (0 : ℚ) ≤ (n : ℚ) := by positivity
  have hx0 : 0 ≤ r * (n : ℚ) := mul_nonneg hr.1 hn0
  have habs : |r * (n : ℚ)| < 2 ^ 53 := by
    rw [abs_of_nonneg hx0]
    have : r * (n : ℚ) ≤ 1 * 9 := mul_le_mul hr.2.1.le hnq hn0 (by norm_num)
    have : (9 : ℚ) < 2 ^ 53 := by norm_num
    linarith
  simp only [ratFloor_eq] at h
  obtain ⟨hlo, hhi⟩ := Int.floor_eq_iff.1 h
  push_cast at hlo hhi
  constructor
  · rcases round_le_rel hx0 with h3 | h3
    · exact le_trans hlo h3
    · have hk1 : (k : ℚ) < 1 := lt_of_le_of_lt hlo h3
      have hk0 : k = 0 := by
        have : k < 1 := by exact_mod_cast hk1
        omega
      rw [hk0]
      have : (0 : ℚ) ≤ r * (n : ℚ) * (1 + 1 / 2 ^ 53) := mul_nonneg hx0 (by norm_num)
      simpa using this
  · by_contra hcon
    have hge : (((k : Int) + 1 : Int) : ℚ) ≤ r * (n : ℚ) := by
      push_cast
      exact not_lt.1 hcon
    have := intCast_le_round habs hge
    push_cast at this
    linarith

/-- For `k < n ≤ 9` the draw `j / 16` with `j = ⌈16 k / n⌉` selects index `k`. -/
theorem randomIndex_attained (n k : Nat) (hn : n ≤ 9) (hk : k < n) :
    ∃ r : ℚ, Float64.IsDraw r ∧ Rat.floor (Float64.round (r * (n : ℚ))) = (k : Int) := by
  have h1 : (16 * k + n - 1) / n * n ≤ 16 * k + n - 1 := Nat.div_mul_le_self _ _
  have h2 : 16 * k + n - 1 < n * ((16 * k + n - 1) / n + 1) :=
    Nat.lt_mul_div_succ _ (by omega)
  generalize (16 * k + n - 1) / n = j at h1 h2
  have h3 : n * (j + 1) = j * n + n := by ring
  rw [h3] at h2
  have hj16 : j < 16 := by
    by_contra hge
    have : 16 * n ≤ j * n := Nat.mul_le_mul_right n (by omega)
    omega
  have hjn : j * n < 2 ^ 53 := by
    have : j * n ≤ 16 * 9 := Nat.mul_le_mul (by omega) hn
    have : (16 * 9 : Nat) < 2 ^ 53 := by norm_num
    omega
  refine ⟨(j : ℚ) / 2 ^ 4, isDraw_dyadic j 4 (by omega) (by norm_num) (by norm_num; omega), ?_⟩
  have hprod : (j : ℚ) / 2 ^ 4 * (n : ℚ) = ((j * n : Nat) : ℚ) / 2 ^ 4 := by
    push_cast
    ring
  rw [hprod, round_dyadic (j * n) 4 hjn (by norm_num)]
  simp only [ratFloor_eq]
  apply Int.floor_eq_iff.2
  constructor
  · rw [le_div_iff₀ (by norm_num)]
    have : 16 * k ≤ j * n := by omega
    have h3 : ((16 * k : Nat) : ℚ) ≤ ((j * n : Nat) : ℚ) := by exact_mod_cast this
    push_cast at h3 ⊢
    linarith
  · rw [div_lt_iff₀ (by norm_num)]
    have : j * n < 16 * (k + 1) := by omega
    have h3 : ((j * n : Nat) : ℚ) < ((16 * (k + 1) : Nat) : ℚ) := by exact_mod_cast this
    push_cast at h3 ⊢
    linarith

/-- C26: on a nine-cell board with `n ≥ 1` empty cells, `availableMoves` lists the `n`
empty cells in ascending index order, and for every draw `r` (a double in [0,1))
`randomMove` returns its entry of index `floor(fl(r * n))`, where `fl` rounds the product
to the nearest double. That index is below `n`; it is `floor(r * n)`, or `floor(r * n) + 1`
when `r * n` is within a relative `2^(-53)` of that integer. The draws with
`k/n ≤ r` and `r (1 + 2^(-53)) < (k+1)/n` select entry `k`, every draw selecting entry `k`
has `k/n ≤ r (1 + 2^(-53))` and `r < (k+1)/n`, and every empty cell is returned for some
draw. -/
theorem randomMove_uniform (board : Board) (hlen : board.length = 9)
    (hn : 1 ≤ countEmpty board) :
    (GameAI.availableMoves board).length = countEmpty board ∧
    List.Pairwise (· < ·) (GameAI.availableMoves board) ∧
    (∀ i : Nat, i ∈ GameAI.availableMoves board ↔ board[i]? = some Cell.empty) ∧
    (∀ r : ℚ, Float64.IsDraw r →
      ∃ (k : Nat) (hk : k < (GameAI.availableMoves board).length),
        (k : Int) = Rat.floor (Float64.round (r * (countEmpty board : ℚ))) ∧
        GameAI.randomMove board r = some (((GameAI.availableMoves board)[k] : Nat) : Int) ∧
        ((k : Int) = Rat.floor (r * (countEmpty board : ℚ)) ∨
          ((k : Int) = Rat.floor (r * (countEmpty board : ℚ)) + 1 ∧
            (k : ℚ) ≤ r * (countEmpty board : ℚ) * (1 + 1 / 2 ^ 53)))) ∧
    (∀ (r : ℚ) (k : Nat) (hk : k < (GameAI.availableMoves board).length),
      Float64.IsDraw r → (k : ℚ) / (countEmpty board : ℚ) ≤ r →
      r * (1 + 1 / 2 ^ 53) < ((k : ℚ) + 1) / (countEmpty board : ℚ) →
      GameAI.randomMove board r = some (((GameAI.availableMoves board)[k] : Nat) : Int)) ∧
    (∀ (r : ℚ) (k : Nat) (hk : k < (GameAI.availableMoves board).length),
      Float64.IsDraw r →
      GameAI.randomMove board r = some (((GameAI.availableMoves board)[k] : Nat) : Int) →
      (k : ℚ) / (countEmpty board : ℚ) ≤ r * (1 + 1 / 2 ^ 53) ∧
        r < ((k : ℚ) + 1) / (countEmpty board : ℚ)) ∧
    (∀ i : Nat, board[i]? = some Cell.empty →
      ∃ r : ℚ, Float64.IsDraw r ∧ GameAI.randomMove board r = some (i : Int)) := by
  have hlenA := availableMoves_length board
  have hpos : 0 < countEmpty board := hn
  have hn9 : countEmpty board ≤ 9 := countEmpty_le_nine hlen
  have hnq : (0 : ℚ) < (countEmpty board : ℚ) := by exact_mod_cast hpos
  have hsorted := availableMoves_sorted board
  have hnodup : (GameAI.availableMoves board).Nodup :=
    hsorted.imp (fun h => Nat.ne_of_lt h)
  -- the index computed by a draw
  have hidx : ∀ r : ℚ, Float64.IsDraw r →
      ∃ (k : Nat) (hk : k < (GameAI.availableMoves board).length),
        (k : Int) = Rat.floor (Float64.round (r * (countEmpty board : ℚ))) ∧
        GameAI.randomMove board r =
          some (((GameAI.availableMoves board)[k] : Nat) : Int) := by
    intro r hr
    obtain ⟨hlo, hhi⟩ := randomIndex_bounds r (countEmpty board) hpos hr
    have hk : (Rat.floor (Float64.round (r * (countEmpty board : ℚ)))).toNat <
        (GameAI.availableMoves board).length := by omega
    have hcast : ((Rat.floor (Float64.round (r * (countEmpty board : ℚ)))).toNat : Int) =
        Rat.floor (Float64.round (r * (countEmpty board : ℚ))) := Int.toNat_of_nonneg hlo
    refine ⟨_, hk, hcast, ?_⟩
    apply randomMove_eq board r _ hk
    rw [hlenA]
    exact hcast.symm
  -- a draw that returns entry `k` computed index `k`
  have hinj : ∀ (r : ℚ) (k : Nat) (hk : k < (GameAI.availableMoves board).length),
      Float64.IsDraw r →
      GameAI.randomMove board r = some (((GameAI.availableMoves board)[k] : Nat) : Int) →
      Rat.floor (Float64.round (r * (countEmpty board : ℚ))) = (k : Int) := by
    intro r k hk hr hres
    obtain ⟨k1, hk1, hfl, hres1⟩ := hidx r hr
    rw [hres1] at hres
    have hcell : (GameAI.availableMoves board)[k1] = (GameAI.availableMoves board)[k] := by
      have := Option.some.inj hres
      exact_mod_cast this
    have hkk : k1 = k := (hnodup.getElem_inj_iff).1 hcell
    rw [← hfl, hkk]
  refine ⟨hlenA, hsorted, mem_availableMoves board, ?_, ?_, ?_, ?_⟩
  · intro r hr
    obtain ⟨k, hk, hfl, hres⟩ := hidx r hr
    refine ⟨k, hk, hfl, hres, ?_⟩
    rcases randomIndex_cases r (countEmpty board) hn9 hr with h | ⟨h, h2⟩
    · left; rw [hfl, h]
    · right
      refine ⟨by rw [hfl, h], ?_⟩
      have : ((k : Int) : ℚ) = ((Rat.floor (r * (countEmpty board : ℚ)) + 1 : Int) : ℚ) := by
        rw [hfl, h]
      have hk2 : (k : ℚ) = ((Rat.floor (r * (countEmpty board : ℚ)) + 1 : Int) : ℚ) := by
        rw [← this]; simp
      rw [hk2]
      exact h2
  · intro r k hk hr h1 h2
    apply randomMove_eq board r k hk
    rw [hlenA]
    apply randomIndex_of_inner r (countEmpty board) k hn9 hr
    · rw [div_le_iff₀ hnq] at h1
      exact h1
    · rw [lt_div_iff₀ hnq] at h2
      linarith
  · intro r k hk hr hres
    have hfl := hinj r k hk hr hres
    obtain ⟨h1, h2⟩ := randomIndex_outer r (countEmpty board) k hn9 hr hfl
    constructor
    · rw [div_le_iff₀ hnq]
      linarith
    · rw [lt_div_iff₀ hnq]
      exact h2
  · intro i hi
    obtain ⟨k, hk, hki⟩ := List.getElem_of_mem ((mem_availableMoves board i).2 hi)
    obtain ⟨r, hr, hfl⟩ := randomIndex_attained (countEmpty board) k hn9 (by omega)
    refine ⟨r, hr, ?_⟩
    rw [randomMove_eq board r k hk (by rw [hlenA]; exact hfl), hki]

/-- On `[X,X,'','','','','','','']` (seven empty cells) the draw 1/2 selects the entry
of index 3 of `availableMoves`, which is cell 5. -/
theorem randomMove_uniform_witness :
    (GameAI.availableMoves blockBoard).length = countEmpty blockBoard ∧
    GameAI.randomMove blockBoard (1 / 2) = some 5 := by
  have h := randomMove_uniform blockBoard (by decide) (by decide)
  have h7 : countEmpty blockBoard = 7 := by decide
  have h3 := h.2.2.2.2.1 (1 / 2) 3 (by decide) isDraw_half
    (by rw [h7]; norm_num) (by rw [h7]; norm_num)
  exact ⟨h.1, h3⟩

/-- The draw `7720456504063707 / 2^54` on `[X,X,'','','','','','','']`: the floor of the
exact product with 7 is 2, and the empty cell of index 2 is cell 4, but the product rounds
to 3 and `randomMove` returns cell 5. -/
theorem randomMove_rounds_up :
    Float64.IsDraw (7720456504063707 / 2 ^ 54) ∧
    blockBoard.length = 9 ∧ countEmpty blockBoard = 7 ∧
    Rat.floor ((7720456504063707 / 2 ^ 54 : ℚ) * (7 : Nat)) = 2 ∧
    (GameAI.availableMoves blockBoard)[2]? = some 4 ∧
    GameAI.randomMove blockBoard (7720456504063707 / 2 ^ 54) = some 5 := by
  refine ⟨isDraw_nearThreeSevenths, by decide, by decide, ?_, by decide, ?_⟩
  · simp only [ratFloor_eq]
    exact Int.floor_eq_iff.2 ⟨by norm_num, by norm_num⟩
  · have hk : 3 < (GameAI.availableMoves blockBoard).length := by decide
    have hl : (GameAI.availableMoves blockBoard).length = 7 := by decide
    have h := randomMove_eq blockBoard (7720456504063707 / 2 ^ 54) 3 hk
      (by
        rw [hl]
        have : ((7 : Nat) : ℚ) = 7 := by norm_num
        rw [this, round_nearThreeSevenths]
        simp only [ratFloor_eq]
        exact Int.floor_eq_iff.2 ⟨by norm_num, by norm_num⟩)
    exact h

/-! ## The branch of medium difficulty -/

/-- A draw of at least 1/2 is a multiple of `2^(-53)`. -/
theorem isDraw_grid {r : ℚ} (hr : Float64.IsDraw r) (h : 1 / 2 ≤ r) :
    ∃ N : Int, r = (N : ℚ) / 2 ^ 53 := by
  have hpos : 0 < r := by linarith
  have he := round_eval (-1) (Float64.nearestEven (r / (2 : ℚ) ^ ((-1 : Int) - 52))) hpos
    (by norm_num; linarith) (by norm_num; exact hr.2.1) (by norm_num) rfl
  rw [hr.2.2] at he
  generalize Float64.nearestEven (r / (2 : ℚ) ^ ((-1 : Int) - 52)) = N at he
  refine ⟨N, he.trans ?_⟩
  norm_num [div_eq_mul_inv]

/-- C27: for medium difficulty `GameAI.makeMove` returns the result of `strategicMove`
when the first draw is below the double `0.6` and the result of `randomMove` otherwise (the
second draw going to the strategy that runs), and leaves the board alone. The double `0.6`
is `5404319552844595 / 2^53`, which is `1 / (5 * 2^53)` below 6/10 and itself a possible
draw: a draw takes the heuristic branch exactly when it is below 6/10 and is not that
double. Of the `2^53` draws `k / 2^53`, those with `k < 5404319552844595` take the
heuristic branch. -/
theorem medium_branch (board : Board) (m : Mark) (r1 r2 : ℚ) :
    GameAI.makeMove board m Difficulty.medium r1 r2 =
      (if r1 < GameAI.pointSix then some (GameAI.strategicMove board m r2, board)
       else some (GameAI.randomMove board r2, board)) ∧
    (r1 < GameAI.pointSix → GameAI.makeMove board m Difficulty.medium r1 r2 =
      some (GameAI.strategicMove board m r2, board)) ∧
    (GameAI.pointSix ≤ r1 → GameAI.makeMove board m Difficulty.medium r1 r2 =
      some (GameAI.randomMove board r2, board)) ∧
    GameAI.pointSix = 5404319552844595 / 2 ^ 53 ∧
    (6 : ℚ) / 10 - GameAI.pointSix = 1 / (5 * 2 ^ 53) ∧
    Float64.IsDraw GameAI.pointSix ∧
    (Float64.IsDraw r1 → (r1 < GameAI.pointSix ↔ r1 < 6 / 10 ∧ r1 ≠ GameAI.pointSix)) ∧
    (∀ k : Nat, (k : ℚ) / 2 ^ 53 < GameAI.pointSix ↔ k < 5404319552844595) := by
  have hdef : GameAI.makeMove board m Difficulty.medium r1 r2 =
      (if r1 < GameAI.pointSix then some (GameAI.strategicMove board m r2, board)
       else some (GameAI.randomMove board r2, board)) := rfl
  refine ⟨hdef, ?_, ?_, pointSix_eq, pointSix_lt.2, isDraw_pointSix, ?_, ?_⟩
  · intro hr
    rw [hdef, if_pos hr]
  · intro hr
    rw [hdef, if_neg (not_lt.2 hr)]
  · intro hd
    constructor
    · intro h
      exact ⟨lt_trans h pointSix_lt.1, ne_of_lt h⟩
    · rintro ⟨h6, hne⟩
      by_contra hge
      have hgt : GameAI.pointSix < r1 := lt_of_le_of_ne (not_lt.1 hge) (Ne.symm hne)
      rw [pointSix_eq] at hgt
      obtain ⟨N, hN⟩ := isDraw_grid hd (by
        have : (1 : ℚ) / 2 ≤ 5404319552844595 / 2 ^ 53 := by norm_num
        linarith)
      rw [hN] at hgt h6
      have h1 : ((5404319552844595 : Int) : ℚ) < (N : ℚ) := by
        rw [div_lt_div_right (by norm_num)] at hgt
        exact_mod_cast hgt
      have h2 : (N : ℚ) < ((5404319552844596 : Int) : ℚ) := by
        rw [div_lt_iff₀ (by norm_num)] at h6
        have : (6 : ℚ) / 10 * 2 ^ 53 < 5404319552844596 := by norm_num
        push_cast
        linarith
      have h3 : (5404319552844595 : Int) < N := by exact_mod_cast h1
      have h4 : N < (5404319552844596 : Int) := by exact_mod_cast h2
      omega
  · intro k
    rw [pointSix_eq, div_lt_div_right (by norm_num)]
    exact_mod_cast Iff.rfl

/-- At the first draw `0.6` (the double, which is below 6/10) medium difficulty runs
`randomMove`: on the empty board with second draw 0 it returns cell 0, where
`strategicMove` returns the centre. -/
theorem medium_branch_at_pointSix :
    Float64.IsDraw GameAI.pointSix ∧ GameAI.pointSix < 6 / 10 ∧
    GameAI.strategicMove (List.replicate 9 Cell.empty) Mark.X 0 = some 4 ∧
    GameAI.makeMove (List.replicate 9 Cell.empty) Mark.X Difficulty.medium GameAI.pointSix 0 =
      some (some 0, List.replicate 9 Cell.empty) := by
  refine ⟨isDraw_pointSix, pointSix_lt.1, by decide, ?_⟩
  have hdef : GameAI.makeMove (List.replicate 9 Cell.empty) Mark.X Difficulty.medium
      GameAI.pointSix 0 =
      (if GameAI.pointSix < GameAI.pointSix then
        some (GameAI.strategicMove (List.replicate 9 Cell.empty) Mark.X 0,
          List.replicate 9 Cell.empty)
       else some (GameAI.randomMove (List.replicate 9 Cell.empty) 0,
          List.replicate 9 Cell.empty)) := rfl
  rw [hdef, if_neg (lt_irrefl _)]
  have hk : 0 < (GameAI.availableMoves (List.replicate 9 Cell.empty)).length := by decide
  have h := randomMove_eq (List.replicate 9 Cell.empty) 0 0 hk
    (by
      rw [zero_mul, round_zero]
      rfl)
  rw [h]
  rfl

/-! ## The stored win pattern in reachable states -/

theorem winPattern_makeMove (s : State) (index : Int) (hn : NoStaleLine s)
    (h : s.winPattern = firstDone s.board winPatterns) :
    (makeMove s index).2.winPattern = firstDone (makeMove s index).2.board winPatterns := by
  by_cases hc : s.gameOver = true ∨ s.board.at index ≠ some Cell.empty
  · rw [makeMove_invalid s index hc]; exact h
  · have hg : s.gameOver = false := by
      cases hgo : s.gameOver with
      | false => rfl
      | true => exact absurd (Or.inl hgo) hc
    have hcell : s.board.at index = some Cell.empty := by
      by_contra h2; exact hc (Or.inr h2)
    have hnone : s.winPattern = none := by
      rw [h, firstDone_none_iff]
      exact hn.1 hg
    rw [makeMove_valid s index hg hcell]
    cases hf : firstDone (placed s index) winPatterns with
    | some p => exact hf.symm
    | none =>
      by_cases hfull : isBoardFull (placed s index) = true
      · simp only [hfull, if_true]
        rw [hf]; exact hnone
      · simp only [hfull, Bool.false_eq_true, if_false]
        rw [hf]; exact hnone

theorem winPattern_undoMove (s : State) (hn : NoStaleLine s)
    (h : s.winPattern = firstDone s.board winPatterns) :
    (undoMove s).2.winPattern = firstDone (undoMove s).2.board winPatterns := by
  unfold undoMove
  cases hl : s.moveHistory.getLast? with
  | none => exact h
  | some e =>
    have he : e ∈ s.moveHistory := List.mem_of_getLast?_eq_some hl
    exact ((firstDone_none_iff e.board).2 (hn.2 e he)).symm

/-- In a reachable state the stored `winPattern` is the first completed pattern of the
current board in the order of the table, `null` when there is none. -/
theorem reachable_winPattern {s : State} (h : Reachable s) :
    s.winPattern = firstDone s.board winPatterns := by
  induction h with
  | init s0 => rfl
  | move s index hs ih => exact winPattern_makeMove s index (reachable_noStaleLine hs) ih
  | undo s hs ih => exact winPattern_undoMove s (reachable_noStaleLine hs) ih

/-- C28: in every state reachable from `initialize()` by `makeMove`/`undoMove` calls,
`getWinPattern()` is `null` exactly when the board has no completed pattern; in particular
it is `null` while the game is in progress, after a draw (game over without a completed
pattern) and after a successful undo. When it is not `null` it is one of the eight
patterns of the table and its three cells hold the same mark on the current board; it is
the first completed pattern in the order of the table. -/
theorem getWinPattern_spec (s : State) (hr : Reachable s) :
    (getWinPattern s = none ↔ anyLine s.board = false) ∧
    (s.gameOver = false → getWinPattern s = none) ∧
    (s.gameOver = true → anyLine s.board = false → getWinPattern s = none) ∧
    ((undoMove s).1.isSome = true → getWinPattern (undoMove s).2 = none) ∧
    (∀ p : Pattern, getWinPattern s = some p →
      p ∈ winPatterns ∧ winPatterns.length = 8 ∧ patternDone s.board p = true ∧
      ∃ m : Mark, s.board[p.1]? = some m.toCell ∧ s.board[p.2.1]? = some m.toCell ∧
        s.board[p.2.2]? = some m.toCell) ∧
    getWinPattern s = firstDone s.board winPatterns := by
  have hw : getWinPattern s = firstDone s.board winPatterns := reachable_winPattern hr
  have hiff : getWinPattern s = none ↔ anyLine s.board = false := by
    rw [hw]; exact firstDone_none_iff s.board
  refine ⟨hiff, ?_, ?_, ?_, ?_, hw⟩
  · intro hg
    exact hiff.2 ((reachable_noStaleLine hr).1 hg)
  · intro _ hl
    exact hiff.2 hl
  · intro hu
    unfold getWinPattern
    unfold undoMove at hu ⊢
    cases hl : s.moveHistory.getLast? with
    | none => rw [hl] at hu; cases hu
    | some e => rfl
  · intro p hp
    rw [hw] at hp
    obtain ⟨hmem, hdone⟩ := firstDone_some hp
    obtain ⟨m, hm⟩ := (patternDone_iff s.board p).1 hdone
    exact ⟨hmem, rfl, hdone, m, (lineOf_iff s.board m p).1 hm⟩

/-- After the moves 0, 3, 1, 4, 2 the stored pattern is `[0,1,2]`, a row of X. -/
theorem getWinPattern_spec_witness :
    getWinPattern (makeMove winScenario 2).2 = some (0, 1, 2) ∧
    (0, 1, 2) ∈ winPatterns ∧
    patternDone (makeMove winScenario 2).2.board (0, 1, 2) = true :=
  have hr : Reachable (makeMove winScenario 2).2 :=
    Reachable.move _ 2 (Reachable.move _ 4 (Reachable.move _ 1 (Reachable.move _ 3
      (Reachable.move _ 0 (Reachable.init loaded)))))
  have h := (getWinPattern_spec (makeMove winScenario 2).2 hr).2.2.2.2.1 (0, 1, 2) (by decide)
  ⟨by decide, h.1, h.2.2.1⟩

/-! ## Termination and size of the search -/

/-- The cells of the board that the loops visit and find empty are as many as the board has
empty cells. -/
theorem countP_range_empty (b : Board) :
    (List.range b.length).countP (fun i => decide (b[i]? = some Cell.empty)) =
      countEmpty b := by
  rw [List.countP_eq_length_filter, ← availableMoves_length]
  apply List.Perm.length_eq
  have hnodup : (GameAI.availableMoves b).Nodup :=
    (availableMoves_sorted b).imp (fun h => Nat.ne_of_lt h)
  rw [List.perm_ext_iff_of_nodup ((List.nodup_range _).filter _) hnodup]
  intro i
  rw [mem_availableMoves, List.mem_filter, decide_eq_true_eq]
  constructor
  · exact fun h => h.2
  · exact fun h => ⟨mem_range_of_get h, h⟩

/-- Forgetting the record of the loop gives `searchLoop`. -/
theorem searchLoopProfiled_erase (searchP : Board → Option ((Score × Board) × GameAI.Profile))
    (search : Board → Option (Score × Board)) (mark : Mark)
    (combine : Score → Score → Score) (entry : Nat)
    (h : ∀ b, (searchP b).map Prod.fst = search b) :
    ∀ (is : List Nat) (best : Score) (board : Board) (pr : GameAI.Profile),
      (GameAI.searchLoopProfiled searchP mark combine entry is best board pr).map Prod.fst =
        GameAI.searchLoop search mark combine is best board := by
  intro is
  induction is with
  | nil => intro best board pr; rfl
  | cons i rest ih =>
    intro best board pr
    by_cases hcell : board[i]? = some Cell.empty
    · have hb := h (board.set i mark.toCell)
      cases hs : searchP (board.set i mark.toCell) with
      | none =>
        rw [hs] at hb
        simp only [GameAI.searchLoopProfiled, GameAI.searchLoop, if_pos hcell, hs, ← hb,
          Option.map_none']
      | some res =>
        obtain ⟨⟨score, board1⟩, q⟩ := res
        rw [hs] at hb
        simp only [GameAI.searchLoopProfiled, GameAI.searchLoop, if_pos hcell, hs, ← hb,
          Option.map_some']
        exact ih _ _ _
    · simp only [GameAI.searchLoopProfiled, GameAI.searchLoop, if_neg hcell]
      exact ih _ _ _

/-- Forgetting the record of `minimaxProfiled` gives `minimax`. -/
theorem minimaxProfiled_erase (pm om : Mark) :
    ∀ (fuel : Nat) (b : Board) (d : Int) (im : Bool),
      (GameAI.minimaxProfiled fuel b d im pm om).map Prod.fst =
        GameAI.minimax fuel b d im pm om := by
  intro fuel
  induction fuel with
  | zero =>
    intro b d im
    unfold GameAI.minimaxProfiled GameAI.minimax
    simp only []
    split_ifs <;> rfl
  | succ fuel ih =>
    intro b d im
    unfold GameAI.minimaxProfiled GameAI.minimax
    simp only []
    split_ifs
    · rfl
    · rfl
    · rfl
    · exact searchLoopProfiled_erase _ _ _ _ _ (fun b1 => ih b1 (d + 1) false) _ _ _ _
    · exact searchLoopProfiled_erase _ _ _ _ _ (fun b1 => ih b1 (d + 1) true) _ _ _ _

/-- Forgetting the record of the loop of `minimaxMoveProfiled` gives `minimaxMoveLoop`. -/
theorem minimaxMoveLoopProfiled_erase (fuel : Nat) (pm om : Mark) (entry : Nat) :
    ∀ (is : List Nat) (best : Score) (mv : Int) (board : Board) (pr : GameAI.Profile),
      (GameAI.minimaxMoveLoopProfiled fuel pm om entry is best mv board pr).map Prod.fst =
        GameAI.minimaxMoveLoop fuel pm om is best mv board := by
  intro is
  induction is with
  | nil => intro best mv board pr; rfl
  | cons i rest ih =>
    intro best mv board pr
    by_cases hcell : board[i]? = some Cell.empty
    · have hb := minimaxProfiled_erase pm om fuel (board.set i pm.toCell) 0 false
      cases hs : GameAI.minimaxProfiled fuel (board.set i pm.toCell) 0 false pm om with
      | none =>
        rw [hs] at hb
        simp only [GameAI.minimaxMoveLoopProfiled, GameAI.minimaxMoveLoop, if_pos hcell, hs,
          ← hb, Option.map_none']
      | some res =>
        obtain ⟨⟨score, board1⟩, q⟩ := res
        rw [hs] at hb
        simp only [GameAI.minimaxMoveLoopProfiled, GameAI.minimaxMoveLoop, if_pos hcell, hs,
          ← hb, Option.map_some']
        split_ifs
        · exact ih _ _ _ _
        · exact ih _ _ _ _
    · simp only [GameAI.minimaxMoveLoopProfiled, GameAI.minimaxMoveLoop, if_neg hcell]
      exact ih _ _ _ _

/-- Forgetting the record of `minimaxMoveProfiled` gives `minimaxMove`. -/
theorem minimaxMoveProfiled_erase (b : Board) (pm : Mark) :
    (GameAI.minimaxMoveProfiled b pm).map Prod.fst = GameAI.minimaxMove b pm :=
  minimaxMoveLoopProfiled_erase _ _ _ _ _ _ _ _ _

/-- The record after a call on a written empty cell. -/
theorem profile_call_bound (b : Board) (i : Nat) (mark : Mark) (pr q : GameAI.Profile)
    (hcell : b[i]? = some Cell.empty) (hq : q.shrinking = true) :
    (pr.call q (countEmpty (b.set i mark.toCell)) (countEmpty b)).stops =
      pr.stops + q.stops ∧
    (pr.call q (countEmpty (b.set i mark.toCell)) (countEmpty b)).deepest =
      max pr.deepest q.deepest ∧
    (pr.call q (countEmpty (b.set i mark.toCell)) (countEmpty b)).shrinking =
      pr.shrinking := by
  refine ⟨rfl, rfl, ?_⟩
  simp only [GameAI.Profile.call, hq, countEmpty_set mark hcell, decide_True, Bool.and_true]

/-- The loop of `minimax` on board `b`, when every call on a written empty cell returns
with its board, at least one and at most `F` stops, depths up to `D` and only shrinking
calls: the loop returns with the board restored, and its record grew accordingly. -/
theorem searchLoopProfiled_bound (search : Board → Option ((Score × Board) × GameAI.Profile))
    (mark : Mark) (combine : Score → Score → Score) (b : Board) (F : Nat) (D : Int) :
    ∀ (is : List Nat) (best : Score) (pr : GameAI.Profile),
      (∀ i ∈ is, b[i]? = some Cell.empty →
        ∃ s q, search (b.set i mark.toCell) = some ((s, b.set i mark.toCell), q) ∧
          1 ≤ q.stops ∧ q.stops ≤ F ∧ q.deepest ≤ D ∧ q.shrinking = true) →
      ∃ r pr1, GameAI.searchLoopProfiled search mark combine (countEmpty b) is best b pr =
          some ((r, b), pr1) ∧
        pr.stops + is.countP (fun i => decide (b[i]? = some Cell.empty)) ≤ pr1.stops ∧
        pr1.stops ≤ pr.stops + is.countP (fun i => decide (b[i]? = some Cell.empty)) * F ∧
        pr.deepest ≤ pr1.deepest ∧ pr1.deepest ≤ max pr.deepest D ∧
        pr1.shrinking = pr.shrinking := by
  intro is
  induction is with
  | nil =>
    intro best pr _
    refine ⟨best, pr, rfl, ?_, ?_, le_refl _, le_max_left _ _, rfl⟩ <;> simp
  | cons i rest ih =>
    intro best pr htot
    have htot1 : ∀ j ∈ rest, b[j]? = some Cell.empty →
        ∃ s q, search (b.set j mark.toCell) = some ((s, b.set j mark.toCell), q) ∧
          1 ≤ q.stops ∧ q.stops ≤ F ∧ q.deepest ≤ D ∧ q.shrinking = true :=
      fun j hj => htot j (List.mem_cons_of_mem i hj)
    by_cases hcell : b[i]? = some Cell.empty
    · obtain ⟨s, q, hs, hq1, hqF, hqD, hqs⟩ := htot i (List.mem_cons_self i rest) hcell
      obtain ⟨hc1, hc2, hc3⟩ := profile_call_bound b i mark pr q hcell hqs
      obtain ⟨r, pr1, hrun, hlo, hhi, hd1, hd2, hsh⟩ :=
        ih (combine s best) (pr.call q (countEmpty (b.set i mark.toCell)) (countEmpty b)) htot1
      refine ⟨r, pr1, ?_, ?_, ?_, ?_, ?_, ?_⟩
      · simp only [GameAI.searchLoopProfiled, if_pos hcell, hs, set_restore _ hcell]
        exact hrun
      · rw [List.countP_cons_of_pos _ _ (by simpa using hcell)]
        rw [hc1] at hlo
        omega
      · rw [List.countP_cons_of_pos _ _ (by simpa using hcell), Nat.add_mul, Nat.one_mul]
        rw [hc1] at hhi
        omega
      · rw [hc2] at hd1
        exact le_trans (le_max_left _ _) hd1
      · rw [hc2] at hd2
        refine le_trans hd2 ?_
        apply max_le
        · exact max_le (le_max_left _ _) (le_trans hqD (le_max_right _ _))
        · exact le_max_right _ _
      · rw [hsh, hc3]
    · obtain ⟨r, pr1, hrun, hlo, hhi, hd1, hd2, hsh⟩ := ih best pr htot1
      refine ⟨r, pr1, ?_, ?_, ?_, hd1, hd2, hsh⟩
      · simp only [GameAI.searchLoopProfiled, if_neg hcell]
        exact hrun
      · rw [List.countP_cons_of_neg _ _ (by simpa using hcell)]
        exact hlo
      · rw [List.countP_cons_of_neg _ _ (by simpa using hcell)]
        exact hhi

/-- The loop of `minimaxMove` on board `b`, under the same assumption on the calls of
`minimax`. -/
theorem minimaxMoveLoopProfiled_bound (fuel : Nat) (pm om : Mark) (b : Board) (F : Nat)
    (D : Int) :
    ∀ (is : List Nat) (best : Score) (mv : Int) (pr : GameAI.Profile),
      (∀ i ∈ is, b[i]? = some Cell.empty →
        ∃ s q, GameAI.minimaxProfiled fuel (b.set i pm.toCell) 0 false pm om =
            some ((s, b.set i pm.toCell), q) ∧
          1 ≤ q.stops ∧ q.stops ≤ F ∧ q.deepest ≤ D ∧ q.shrinking = true) →
      ∃ r pr1, GameAI.minimaxMoveLoopProfiled fuel pm om (countEmpty b) is best mv b pr =
          some ((r, b), pr1) ∧
        pr.stops + is.countP (fun i => decide (b[i]? = some Cell.empty)) ≤ pr1.stops ∧
        pr1.stops ≤ pr.stops + is.countP (fun i => decide (b[i]? = some Cell.empty)) * F ∧
        pr.deepest ≤ pr1.deepest ∧ pr1.deepest ≤ max pr.deepest D ∧
        pr1.shrinking = pr.shrinking := by
  intro is
  induction is with
  | nil =>
    intro best mv pr _
    refine ⟨mv, pr, rfl, ?_, ?_, le_refl _, le_max_left _ _, rfl⟩ <;> simp
  | cons i rest ih =>
    intro best mv pr htot
    have htot1 : ∀ j ∈ rest, b[j]? = some Cell.empty →
        ∃ s q, GameAI.minimaxProfiled fuel (b.set j pm.toCell) 0 false pm om =
            some ((s, b.set j pm.toCell), q) ∧
          1 ≤ q.stops ∧ q.stops ≤ F ∧ q.deepest ≤ D ∧ q.shrinking = true :=
      fun j hj => htot j (List.mem_cons_of_mem i hj)
    by_cases hcell : b[i]? = some Cell.empty
    · obtain ⟨s, q, hs, hq1, hqF, hqD, hqs⟩ := htot i (List.mem_cons_self i rest) hcell
      obtain ⟨hc1, hc2, hc3⟩ := profile_call_bound b i pm pr q hcell hqs
      have key : ∀ (best1 : Score) (mv1 : Int),
          ∃ r pr1, GameAI.minimaxMoveLoopProfiled fuel pm om (countEmpty b) rest best1 mv1 b
              (pr.call q (countEmpty (b.set i pm.toCell)) (countEmpty b)) =
              some ((r, b), pr1) ∧
            pr.stops + (i :: rest).countP (fun i => decide (b[i]? = some Cell.empty)) ≤
              pr1.stops ∧
            pr1.stops ≤
              pr.stops + (i :: rest).countP (fun i => decide (b[i]? = some Cell.empty)) * F ∧
            pr.deepest ≤ pr1.deepest ∧ pr1.deepest ≤ max pr.deepest D ∧
            pr1.shrinking = pr.shrinking := by
        intro best1 mv1
        obtain ⟨r, pr1, hrun, hlo, hhi, hd1, hd2, hsh⟩ :=
          ih best1 mv1 (pr.call q (countEmpty (b.set i pm.toCell)) (countEmpty b)) htot1
        refine ⟨r, pr1, hrun, ?_, ?_, ?_, ?_, ?_⟩
        · rw [List.countP_cons_of_pos _ _ (by simpa using hcell)]
          rw [hc1] at hlo
          omega
        · rw [List.countP_cons_of_pos _ _ (by simpa using hcell), Nat.add_mul, Nat.one_mul]
          rw [hc1] at hhi
          omega
        · rw [hc2] at hd1
          exact le_trans (le_max_left _ _) hd1
        · rw [hc2] at hd2
          refine le_trans hd2 ?_
          apply max_le
          · exact max_le (le_max_left _ _) (le_trans hqD (le_max_right _ _))
          · exact le_max_right _ _
        · rw [hsh, hc3]
      simp only [GameAI.minimaxMoveLoopProfiled, if_pos hcell, hs, set_restore _ hcell]
      split_ifs
      · exact key _ _
      · exact key _ _
    · obtain ⟨r, pr1, hrun, hlo, hhi, hd1, hd2, hsh⟩ := ih best mv pr htot1
      refine ⟨r, pr1, ?_, ?_, ?_, hd1, hd2, hsh⟩
      · simp only [GameAI.minimaxMoveLoopProfiled, if_neg hcell]
        exact hrun
      · rw [List.countP_cons_of_neg _ _ (by simpa using hcell)]
        exact hlo
      · rw [List.countP_cons_of_neg _ _ (by simpa using hcell)]
        exact hhi

theorem minimaxProfiled_stop (fuel : Nat) (b : Board) (d : Int) (im : Bool) (pm om : Mark)
    (h : GameAI.checkWinner b = some pm ∨ GameAI.checkWinner b = some om ∨
      isBoardFull b = true) :
    ∃ s, GameAI.minimaxProfiled fuel b d im pm om =
      some ((s, b), { stops := 1, deepest := d, shrinking := true }) := by
  by_cases h1 : GameAI.checkWinner b = some pm
  · exact ⟨Score.fin (10 - d), by cases fuel <;> simp [GameAI.minimaxProfiled, h1]⟩
  by_cases h2 : GameAI.checkWinner b = some om
  · have h3 : ¬ (some om = some pm) := fun h => h1 (h2.trans h)
    exact ⟨Score.fin (d - 10), by cases fuel <;> simp [GameAI.minimaxProfiled, h2, h3]⟩
  have h3 : isBoardFull b = true := by
    rcases h with h | h | h
    · exact absurd h h1
    · exact absurd h h2
    · exact h
  exact ⟨Score.fin 0, by cases fuel <;> simp [GameAI.minimaxProfiled, h1, h2, h3]⟩

/-- With at least as much fuel as the board has empty cells, `minimax` returns with its
board; it stops at least once and at most `k!` times for `k` empty cells, its calls have
depths from `d` to at most `d + k`, and every recursive call is made on a board with
exactly one fewer empty cell than its caller's. -/
theorem minimaxProfiled_bound (pm om : Mark) :
    ∀ (fuel : Nat) (b : Board) (d : Int) (im : Bool), countEmpty b ≤ fuel →
      ∃ s pr, GameAI.minimaxProfiled fuel b d im pm om = some ((s, b), pr) ∧
        1 ≤ pr.stops ∧ pr.stops ≤ (countEmpty b).factorial ∧
        d ≤ pr.deepest ∧ pr.deepest ≤ d + (countEmpty b : Int) ∧ pr.shrinking = true := by
  intro fuel
  induction fuel with
  | zero =>
    intro b d im hf
    have hstop : GameAI.checkWinner b = some pm ∨ GameAI.checkWinner b = some om ∨
        isBoardFull b = true := by
      cases h3 : isBoardFull b with
      | true => exact Or.inr (Or.inr rfl)
      | false =>
        obtain ⟨i, _, hi⟩ := (isBoardFull_false_iff b).1 h3
        have := countEmpty_pos_of_get hi
        omega
    obtain ⟨s, hs⟩ := minimaxProfiled_stop 0 b d im pm om hstop
    exact ⟨s, _, hs, le_refl _, Nat.factorial_pos _, le_refl _, by simp, rfl⟩
  | succ fuel ih =>
    intro b d im hf
    by_cases hstop : GameAI.checkWinner b = some pm ∨ GameAI.checkWinner b = some om ∨
        isBoardFull b = true
    · obtain ⟨s, hs⟩ := minimaxProfiled_stop (fuel + 1) b d im pm om hstop
      exact ⟨s, _, hs, le_refl _, Nat.factorial_pos _, le_refl _, by simp, rfl⟩
    · have h1 : GameAI.checkWinner b ≠ some pm := fun h => hstop (Or.inl h)
      have h2 : GameAI.checkWinner b ≠ some om := fun h => hstop (Or.inr (Or.inl h))
      have h3 : isBoardFull b = false := by
        cases h : isBoardFull b with
        | true => exact absurd (Or.inr (Or.inr h)) hstop
        | false => rfl
      obtain ⟨i0, _, hi0⟩ := (isBoardFull_false_iff b).1 h3
      have hpos : 0 < countEmpty b := countEmpty_pos_of_get hi0
      have hcalls : ∀ (mark : Mark) (im1 : Bool), ∀ i ∈ List.range b.length,
          b[i]? = some Cell.empty →
          ∃ s q, GameAI.minimaxProfiled fuel (b.set i mark.toCell) (d + 1) im1 pm om =
              some ((s, b.set i mark.toCell), q) ∧
            1 ≤ q.stops ∧ q.stops ≤ (countEmpty b - 1).factorial ∧
            q.deepest ≤ d + (countEmpty b : Int) ∧ q.shrinking = true := by
        intro mark im1 i _ hi
        have hset := countEmpty_set mark hi
        obtain ⟨s, q, hrun, hq1, hq2, _, hq4, hq5⟩ :=
          ih (b.set i mark.toCell) (d + 1) im1 (by omega)
        have he : countEmpty (b.set i mark.toCell) = countEmpty b - 1 := by omega
        refine ⟨s, q, hrun, hq1, ?_, ?_, hq5⟩
        · rw [← he]; exact hq2
        · have : (countEmpty (b.set i mark.toCell) : Int) + 1 = (countEmpty b : Int) := by
            exact_mod_cast hset
          omega
      have hfin : ∀ pr1 : GameAI.Profile,
          (0 + (List.range b.length).countP (fun i => decide (b[i]? = some Cell.empty)) ≤
              pr1.stops ∧
            pr1.stops ≤ 0 + (List.range b.length).countP
              (fun i => decide (b[i]? = some Cell.empty)) * (countEmpty b - 1).factorial ∧
            d ≤ pr1.deepest ∧ pr1.deepest ≤ max d (d + (countEmpty b : Int)) ∧
            pr1.shrinking = true) →
          1 ≤ pr1.stops ∧ pr1.stops ≤ (countEmpty b).factorial ∧
            d ≤ pr1.deepest ∧ pr1.deepest ≤ d + (countEmpty b : Int) ∧
            pr1.shrinking = true := by
        rintro pr1 ⟨hlo, hhi, hd1, hd2, hsh⟩
        rw [countP_range_empty] at hlo hhi
        rw [Nat.zero_add, Nat.mul_factorial_pred hpos] at hhi
        refine ⟨by omega, hhi, hd1, ?_, hsh⟩
        refine le_trans hd2 (max_le ?_ (le_refl _))
        omega
      cases im with
      | true =>
        obtain ⟨r, pr1, hrun, hrest⟩ := searchLoopProfiled_bound
          (fun b1 => GameAI.minimaxProfiled fuel b1 (d + 1) false pm om) pm
          (fun score bestScore => Score.max score bestScore) b (countEmpty b - 1).factorial
          (d + (countEmpty b : Int)) (List.range b.length) Score.negInf
          { stops := 0, deepest := d, shrinking := true } (hcalls pm false)
        refine ⟨r, pr1, ?_, hfin pr1 hrest⟩
        rw [← hrun]
        simp [GameAI.minimaxProfiled, h1, h2, h3]
      | false =>
        obtain ⟨r, pr1, hrun, hrest⟩ := searchLoopProfiled_bound
          (fun b1 => GameAI.minimaxProfiled fuel b1 (d + 1) true pm om) om
          (fun score bestScore => Score.min score bestScore) b (countEmpty b - 1).factorial
          (d + (countEmpty b : Int)) (List.range b.length) Score.posInf
          { stops := 0, deepest := d, shrinking := true } (hcalls om true)
        refine ⟨r, pr1, ?_, hfin pr1 hrest⟩
        rw [← hrun]
        simp [GameAI.minimaxProfiled, h1, h2, h3]

/-- The search below `minimaxMove` returns with the board; it stops at most `k!` times for
`k` empty cells, at least once per empty cell, the calls of `minimax` have depths below
`k`, and each is made on a board with one fewer empty cell than its caller's. -/
theorem minimaxMoveProfiled_bound (b : Board) (pm : Mark) :
    ∃ mv pr, GameAI.minimaxMoveProfiled b pm = some ((mv, b), pr) ∧
      countEmpty b ≤ pr.stops ∧ pr.stops ≤ (countEmpty b).factorial ∧
      pr.deepest + 1 ≤ (countEmpty b : Int) ∧ pr.shrinking = true := by
  have hcalls : ∀ i ∈ List.range b.length, b[i]? = some Cell.empty →
      ∃ s q, GameAI.minimaxProfiled b.length (b.set i pm.toCell) 0 false pm pm.other =
          some ((s, b.set i pm.toCell), q) ∧
        1 ≤ q.stops ∧ q.stops ≤ (countEmpty b - 1).factorial ∧
        q.deepest ≤ (countEmpty b : Int) - 1 ∧ q.shrinking = true := by
    intro i _ hi
    have hset := countEmpty_set pm hi
    have hlen := countEmpty_le_length b
    obtain ⟨s, q, hrun, hq1, hq2, _, hq4, hq5⟩ :=
      minimaxProfiled_bound pm pm.other b.length (b.set i pm.toCell) 0 false (by omega)
    have he : countEmpty (b.set i pm.toCell) = countEmpty b - 1 := by omega
    refine ⟨s, q, hrun, hq1, ?_, ?_, hq5⟩
    · rw [← he]; exact hq2
    · have : (countEmpty (b.set i pm.toCell) : Int) + 1 = (countEmpty b : Int) := by
        exact_mod_cast hset
      omega
  obtain ⟨mv, pr1, hrun, hlo, hhi, hd1, hd2, hsh⟩ := minimaxMoveLoopProfiled_bound b.length
    pm pm.other b (countEmpty b - 1).factorial ((countEmpty b : Int) - 1)
    (List.range b.length) Score.negInf (-1) { stops := 0, deepest := -1, shrinking := true }
    hcalls
  rw [countP_range_empty] at hlo hhi
  refine ⟨mv, pr1, hrun, by omega, ?_, ?_, hsh⟩
  · rcases Nat.eq_zero_or_pos (countEmpty b) with h0 | hpos
    · rw [h0] at hhi ⊢
      have h00 : pr1.stops = 0 := by simpa using hhi
      rw [h00]
      exact Nat.zero_le _
    · rw [Nat.zero_add, Nat.mul_factorial_pred hpos] at hhi
      exact hhi
  · have : max (-1 : Int) ((countEmpty b : Int) - 1) = (countEmpty b : Int) - 1 := by
      apply max_eq_right
      omega
    rw [this] at hd2
    omega

/-- C30: `minimax` and `minimaxMove` terminate. Given at least as much recursion depth
(fuel) as the board has empty cells, `minimax` returns a score and leaves the board as it
was; `minimaxMove` returns as well. In the record of the run (which does not change the
result): every recursive call of `minimax` is made on a board with exactly one fewer empty
cell than its caller's (`shrinking`), the argument `depth` of the calls stays within the
number `k` of empty cells (so at most `k` calls are nested below `minimaxMove`), and the
number of calls that return without recursing is at least one and at most `k!`, hence at
most `9!` on a 9-cell board. -/
theorem minimax_terminates (board : Board) (playerMark opponentMark : Mark) (depth : Int)
    (isMaximizing : Bool) (fuel : Nat) (hfuel : countEmpty board ≤ fuel) :
    (∃ (score : Score) (pr : GameAI.Profile),
      GameAI.minimaxProfiled fuel board depth isMaximizing playerMark opponentMark =
        some ((score, board), pr) ∧
      GameAI.minimax fuel board depth isMaximizing playerMark opponentMark =
        some (score, board) ∧
      pr.shrinking = true ∧
      depth ≤ pr.deepest ∧ pr.deepest ≤ depth + (countEmpty board : Int) ∧
      1 ≤ pr.stops ∧ pr.stops ≤ (countEmpty board).factorial ∧
      (board.length = 9 → pr.stops ≤ Nat.factorial 9)) ∧
    (∃ (bestMove : Int) (pr : GameAI.Profile),
      GameAI.minimaxMoveProfiled board playerMark = some ((bestMove, board), pr) ∧
      GameAI.minimaxMove board playerMark = some (bestMove, board) ∧
      pr.shrinking = true ∧
      pr.deepest + 1 ≤ (countEmpty board : Int) ∧
      countEmpty board ≤ pr.stops ∧ pr.stops ≤ (countEmpty board).factorial ∧
      (board.length = 9 → pr.stops ≤ Nat.factorial 9)) ∧
    (∀ (i : Nat) (m : Mark), board[i]? = some Cell.empty →
      countEmpty (board.set i m.toCell) + 1 = countEmpty board) ∧
    (∀ (f : Nat) (b : Board) (d : Int) (im : Bool),
      (GameAI.minimaxProfiled f b d im playerMark opponentMark).map Prod.fst =
        GameAI.minimax f b d im playerMark opponentMark) ∧
    (∀ b : Board, (GameAI.minimaxMoveProfiled b playerMark).map Prod.fst =
      GameAI.minimaxMove b playerMark) := by
  have hnine : board.length = 9 → (countEmpty board).factorial ≤ Nat.factorial 9 :=
    fun h => Nat.factorial_le (countEmpty_le_nine h)
  refine ⟨?_, ?_, fun i m hi => countEmpty_set m hi,
    minimaxProfiled_erase playerMark opponentMark,
    fun b => minimaxMoveProfiled_erase b playerMark⟩
  · obtain ⟨s, pr, hrun, h1, h2, h3, h4, h5⟩ :=
      minimaxProfiled_bound playerMark opponentMark fuel board depth isMaximizing hfuel
    refine ⟨s, pr, hrun, ?_, h5, h3, h4, h1, h2, fun h => le_trans h2 (hnine h)⟩
    rw [← minimaxProfiled_erase, hrun]
    rfl
  · obtain ⟨mv, pr, hrun, h1, h2, h3, h4⟩ := minimaxMoveProfiled_bound board playerMark
    refine ⟨mv, pr, hrun, ?_, h4, h3, h1, h2, fun h => le_trans h2 (hnine h)⟩
    rw [← minimaxMoveProfiled_erase, hrun]
    rfl

/-- On `[X,O,X,X,O,O,'','','']` with three empty cells, the search below `minimaxMove` for
X stops five times (at most `3! = 6`), reaches depth 2 and chooses cell 6. -/
theorem minimax_terminates_witness :
    countEmpty lateBoard ≤ 3 ∧
    GameAI.minimaxMoveProfiled lateBoard Mark.X =
      some ((6, lateBoard), { stops := 5, deepest := 2, shrinking := true }) ∧
    (∃ (score : Score) (pr : GameAI.Profile),
      GameAI.minimax 3 lateBoard 0 true Mark.X Mark.O = some (score, lateBoard) ∧
      GameAI.minimaxProfiled 3 lateBoard 0 true Mark.X Mark.O = some ((score, lateBoard), pr) ∧
      pr.stops ≤ Nat.factorial 9) :=
  have h := minimax_terminates lateBoard Mark.X Mark.O 0 true 3 (by decide)
  ⟨by decide, by decide,
    h.1.elim (fun score hs => hs.elim (fun pr hp =>
      ⟨score, pr, hp.2.1, hp.1, hp.2.2.2.2.2.2.2 (by decide)⟩))⟩

/-! ## Mark counts and the turn order -/

theorem countMark_set_self {b : Board} {i : Nat} (m : Mark) (h : b[i]? = some Cell.empty) :
    countMark (b.set i m.toCell) m = countMark b m + 1 := by
  induction b generalizing i with
  | nil => simp at h
  | cons c rest ih =>
    cases i with
    | zero =>
      simp only [List.getElem?_cons_zero, Option.some.injEq] at h
      subst h
      have hne : (Cell.empty == m.toCell) = false := by cases m <;> rfl
      simp [countMark, List.set, List.count_cons, hne]
    | succ k =>
      simp only [List.getElem?_cons_succ] at h
      have := ih h
      simp only [countMark, List.set, List.count_cons] at this ⊢
      omega

theorem countMark_set_other {b : Board} {i : Nat} (m : Mark) (h : b[i]? = some Cell.empty) :
    countMark (b.set i m.toCell) m.other = countMark b m.other := by
  induction b generalizing i with
  | nil => simp at h
  | cons c rest ih =>
    cases i with
    | zero =>
      simp only [List.getElem?_cons_zero, Option.some.injEq] at h
      subst h
      have h1 : (Cell.empty == m.other.toCell) = false := by cases m <;> rfl
      have h2 : (m.toCell == m.other.toCell) = false := by cases m <;> rfl
      simp [countMark, List.set, List.count_cons, h1, h2]
    | succ k =>
      simp only [List.getElem?_cons_succ] at h
      have := ih h
      simp only [countMark, List.set, List.count_cons] at this ⊢
      omega

theorem countFilled_set {b : Board} {i : Nat} (m : Mark) (h : b[i]? = some Cell.empty) :
    countFilled (b.set i m.toCell) = countFilled b + 1 := by
  induction b generalizing i with
  | nil => simp at h
  | cons c rest ih =>
    cases i with
    | zero =>
      simp only [List.getElem?_cons_zero, Option.some.injEq] at h
      subst h
      have h1 : decide (m.toCell ≠ Cell.empty) = true := by cases m <;> rfl
      have h2 : decide (Cell.empty ≠ Cell.empty) = false := by decide
      simp only [countFilled, List.set, List.countP_cons, h1, h2]
      simp
    | succ k =>
      simp only [List.getElem?_cons_succ] at h
      have := ih h
      simp only [countFilled, List.set, List.countP_cons] at this ⊢
      omega

theorem countFilled_cons (c : Cell) (rest : Board) :
    countFilled (c :: rest) = countFilled rest + (if c = Cell.empty then 0 else 1) := by
  cases c <;> simp [countFilled]

theorem countMark_cons (c : Cell) (rest : Board) (m : Mark) :
    countMark (c :: rest) m = countMark rest m + (if c = m.toCell then 1 else 0) := by
  simp only [countMark, List.count_cons, beq_iff_eq]

theorem countEmpty_cons (c : Cell) (rest : Board) :
    countEmpty (c :: rest) = countEmpty rest + (if c = Cell.empty then 1 else 0) := by
  simp only [countEmpty, List.count_cons, beq_iff_eq]

/-- The non-empty cells are the cells of X and the cells of O. -/
theorem countFilled_eq (b : Board) :
    countFilled b = countMark b Mark.X + countMark b Mark.O := by
  induction b with
  | nil => rfl
  | cons c rest ih =>
    rw [countFilled_cons, countMark_cons, countMark_cons, ih]
    cases c <;> simp [Mark.toCell] <;> omega

/-- The non-empty and the empty cells are all the cells. -/
theorem countFilled_add_countEmpty (b : Board) :
    countFilled b + countEmpty b = b.length := by
  induction b with
  | nil => rfl
  | cons c rest ih =>
    rw [countFilled_cons, countEmpty_cons, List.length_cons, ← ih]
    cases c <;> simp <;> omega

/-- Writing the mover's mark into an empty cell of an alternating board gives an
alternating board with the other mark to move. -/
theorem alternating_set {b : Board} {p : Mark} {i : Nat} (ha : Alternating b p)
    (h : b[i]? = some Cell.empty) :
    Alternating (b.set i p.toCell) p.other := by
  obtain ⟨hc, hp⟩ := ha
  cases p with
  | X =>
    have heq := hp.1 rfl
    have h1 : countMark (b.set i Mark.X.toCell) Mark.X = countMark b Mark.X + 1 :=
      countMark_set_self Mark.X h
    have h2 : countMark (b.set i Mark.X.toCell) Mark.O = countMark b Mark.O :=
      countMark_set_other Mark.X h
    refine ⟨Or.inr (by omega), ?_⟩
    constructor
    · intro hx; cases hx
    · intro hx; omega
  | O =>
    have hne : countMark b Mark.X ≠ countMark b Mark.O := fun hx => by
      have := hp.2 hx; cases this
    have h1 : countMark (b.set i Mark.O.toCell) Mark.O = countMark b Mark.O + 1 :=
      countMark_set_self Mark.O h
    have h2 : countMark (b.set i Mark.O.toCell) Mark.X = countMark b Mark.X :=
      countMark_set_other Mark.O h
    have hx : countMark (b.set i Mark.O.toCell) Mark.X =
        countMark (b.set i Mark.O.toCell) Mark.O := by omega
    exact ⟨Or.inl hx, fun _ => hx, fun _ => rfl⟩

theorem turnOrder_loaded : TurnOrder loaded := by
  refine ⟨by decide, by decide, by decide, fun _ => ⟨by decide, by decide⟩, ?_⟩
  intro k e he
  simp [loaded] at he

theorem turnOrder_makeMove (s : State) (index : Int) (h : TurnOrder s) :
    TurnOrder (makeMove s index).2 := by
  by_cases hc : s.gameOver = true ∨ s.board.at index ≠ some Cell.empty
  · rw [makeMove_invalid s index hc]; exact h
  · have hg : s.gameOver = false := by
      cases hgo : s.gameOver with
      | false => rfl
      | true => exact absurd (Or.inl hgo) hc
    have hcell : s.board.at index = some Cell.empty := by
      by_contra h2; exact hc (Or.inr h2)
    obtain ⟨_, _, hget⟩ := at_eq_some hcell
    obtain ⟨hlen, hcnt, hhist, halt, hent⟩ := h
    have halt1 := alternating_set (halt hg) hget
    have hlen1 : (placed s index).length = 9 := by
      simp only [placed, List.length_set]; exact hlen
    have hhist1 : (recorded s index).length = countFilled (placed s index) := by
      simp only [recorded, placed, List.length_append, List.length_singleton,
        countFilled_set s.currentPlayer hget, hhist]
    have hent1 : ∀ (k : Nat) (e : HistoryEntry), (recorded s index)[k]? = some e →
        e.board.length = 9 ∧ countFilled e.board = k ∧ Alternating e.board e.player := by
      intro k e he
      simp only [recorded] at he
      by_cases hk : k < s.moveHistory.length
      · rw [List.getElem?_append_left hk] at he
        exact hent k e he
      · rw [List.getElem?_append_right (by omega)] at he
        cases hd : k - s.moveHistory.length with
        | zero =>
          rw [hd] at he
          simp only [List.getElem?_cons_zero, Option.some.injEq] at he
          subst he
          refine ⟨hlen, ?_, halt hg⟩
          show countFilled s.board = k
          omega
        | succ n =>
          rw [hd] at he
          simp at he
    have hdone : ∀ (p : Mark) (w : Option Pattern),
        TurnOrder (State.mk (placed s index) p true w (recorded s index)) :=
      fun p w => ⟨hlen1, halt1.1, hhist1, fun hcon => (by cases hcon), hent1⟩
    rw [makeMove_valid s index hg hcell]
    cases hf : firstDone (placed s index) winPatterns with
    | some p => exact hdone _ _
    | none =>
      by_cases hfull : isBoardFull (placed s index) = true
      · simp only [hfull, if_true]
        exact hdone _ _
      · simp only [hfull, Bool.false_eq_true, if_false]
        exact ⟨hlen1, halt1.1, hhist1, fun _ => halt1, hent1⟩

theorem turnOrder_undoMove (s : State) (h : TurnOrder s) : TurnOrder (undoMove s).2 := by
  rcases List.eq_nil_or_concat s.moveHistory with hnil | ⟨pre, e, hs⟩
  · rw [undoMove_nil s hnil]; exact h
  · have hs1 : s.moveHistory = pre ++ [e] := by rw [hs, List.concat_eq_append]
    rw [undoMove_append s pre e hs1]
    obtain ⟨_, _, _, _, hent⟩ := h
    have he : s.moveHistory[pre.length]? = some e := by
      rw [hs1, List.getElem?_append_right (le_refl _)]
      simp
    obtain ⟨hl, hk, ha⟩ := hent pre.length e he
    refine ⟨hl, ha.1, hk.symm, fun _ => ha, ?_⟩
    intro k e2 he2
    have he3 : pre[k]? = some e2 := he2
    apply hent k e2
    have hk2 : k < pre.length := by
      by_contra hge
      rw [List.getElem?_eq_none (by omega)] at he3
      cases he3
    rw [hs1, List.getElem?_append_left hk2]
    exact he3

theorem reachable_turnOrder {s : State} (h : Reachable s) : TurnOrder s := by
  induction h with
  | init s0 => exact turnOrder_loaded
  | move s index _ ih => exact turnOrder_makeMove s index ih
  | undo s _ ih => exact turnOrder_undoMove s ih

/-- C31: in every state reachable from `initialize()` by `makeMove`/`undoMove` calls, the
number of X cells equals the number of O cells or exceeds it by exactly one; the history
has as many entries as the board has non-empty cells (the cells of X and of O, nine minus
the empty ones); and while `gameOver` is false `currentPlayer` is X exactly when the two
counts are equal, and O exactly when X has one more. -/
theorem turn_order (s : State) (hr : Reachable s) :
    (countMark s.board Mark.X = countMark s.board Mark.O ∨
      countMark s.board Mark.X = countMark s.board Mark.O + 1) ∧
    s.moveHistory.length = countFilled s.board ∧
    countFilled s.board = countMark s.board Mark.X + countMark s.board Mark.O ∧
    countFilled s.board + countEmpty s.board = 9 ∧
    (s.gameOver = false →
      (s.currentPlayer = Mark.X ↔ countMark s.board Mark.X = countMark s.board Mark.O) ∧
      (s.currentPlayer = Mark.O ↔
        countMark s.board Mark.X = countMark s.board Mark.O + 1)) := by
  obtain ⟨hlen, hcnt, hhist, halt, _⟩ := reachable_turnOrder hr
  refine ⟨hcnt, hhist, countFilled_eq s.board, ?_, ?_⟩
  · rw [countFilled_add_countEmpty, hlen]
  · intro hg
    obtain ⟨_, hp⟩ := halt hg
    refine ⟨hp, ?_⟩
    constructor
    · intro ho
      rcases hcnt with h | h
      · have := hp.2 h
        rw [ho] at this
        cases this
      · exact h
    · intro h1
      cases hcp : s.currentPlayer with
      | O => rfl
      | X =>
        have := hp.1 hcp
        omega

/-- After the moves 0, 3, 1, 4 the board `[X,X,'',O,O,'','','','']` holds two marks of
each player, the history has four entries and X is to move. -/
theorem turn_order_witness :
    countMark winScenario.board Mark.X = 2 ∧ countMark winScenario.board Mark.O = 2 ∧
    winScenario.moveHistory.length = countFilled winScenario.board ∧
    countFilled winScenario.board = 4 ∧
    (winScenario.currentPlayer = Mark.X ↔
      countMark winScenario.board Mark.X = countMark winScenario.board Mark.O) :=
  have hr : Reachable winScenario :=
    Reachable.move _ 4 (Reachable.move _ 1 (Reachable.move _ 3 (Reachable.move _ 0
      (Reachable.init loaded))))
  have h := turn_order winScenario hr
  ⟨by decide, by decide, h.2.1, by decide, (h.2.2.2.2 (by decide)).1⟩

/-! ## Rejected moves -/

/-- C1: in every engine state `makeMove(index)` returns `valid: false` and leaves the whole
engine state (board, currentPlayer, gameOver, winPattern, moveHistory) as it was whenever
the game is over, or the cell holds a mark, or the index lies outside the board array
(below 0 or at least its length); the result reports the unchanged fields. The board has
nine cells in every state reachable from `initialize()` by `makeMove`/`undoMove` calls,
and on a nine-cell board the indices outside the array are those below 0 or above 8. -/
theorem makeMove_rejected (s : State) (index : Int)
    (h : s.gameOver = true ∨ (∃ m : Mark, s.board.at index = some m.toCell) ∨
      (index < 0 ∨ (s.board.length : Int) ≤ index)) :
    ((makeMove s index).1.valid = false ∧ (makeMove s index).2 = s ∧
      (makeMove s index).1.board = s.board ∧
      (makeMove s index).1.currentPlayer = s.currentPlayer ∧
      (makeMove s index).1.gameOver = s.gameOver ∧
      (makeMove s index).1.winPattern = s.winPattern) ∧
    (Reachable s → s.board.length = 9) ∧
    (s.board.length = 9 → ((s.board.length : Int) ≤ index ↔ 8 < index)) := by
  have h2 : s.gameOver = true ∨ s.board.at index ≠ some Cell.empty := by
    rcases h with h | ⟨m, hm⟩ | h
    · exact Or.inl h
    · right
      rw [hm]
      intro hcon
      exact toCell_ne_empty m (Option.some.inj hcon)
    · right
      rw [at_out_of_range s.board index h]
      simp
  refine ⟨?_, fun hr => (reachable_turnOrder hr).1, fun h9 => by omega⟩
  rw [makeMove_invalid s index h2]
  simp

/-- A rejected move at the occupied cell 0 of the win scenario, and one at index 9 of the
initial board. -/
theorem makeMove_rejected_witness :
    (makeMove winScenario 0).1.valid = false ∧ (makeMove winScenario 0).2 = winScenario ∧
    (makeMove loaded 9).1.valid = false ∧ (makeMove loaded 9).2 = loaded :=
  let h := makeMove_rejected winScenario 0 (Or.inr (Or.inl ⟨Mark.X, by decide⟩))
  let g := makeMove_rejected loaded 9 (Or.inr (Or.inr (Or.inr (by decide))))
  ⟨h.1.1, h.1.2.1, g.1.1, g.1.2.1⟩

/-- After `setState` with a board of ten empty cells the game is not over and index 9 lies
outside 0..8, yet `makeMove(9)` returns `valid: true` and writes X into cell 9. -/
theorem makeMove_beyond_eight :
    tenCells = (setState loaded (some tenCellSnapshot)).2 ∧
    tenCells.board.length = 10 ∧ tenCells.gameOver = false ∧ (8 : Int) < 9 ∧
    (makeMove tenCells 9).1.valid = true ∧
    (makeMove tenCells 9).2.board.at 9 = some Cell.X ∧
    (makeMove tenCells 9).2 ≠ tenCells := by
  decide

end TicTacToe
